import Mathlib

/-!
# Heap algorithms and basic algorithms of `ctstl`

A shallow embedding of `src/CTSTL/heap_algo.h`, of the algorithms of
`src/CTSTL/algobase.h`, of the iterator tags, `distance`, `advance` and
`reverse_iterator` of `src/CTSTL/iterator.h` and of the temporary buffers of
`src/CTSTL/memory.h`.

Conventions of the embedding.

* A random-access iterator `first` is the view `Nat → α` of the storage it points into,
  `first i` being `*(first + i)`; a second iterator `last` of the same range is the
  offset `last - first`.  Writing `*(first + i) = v` is `Function.update first i v`.
* `Distance` is a signed type in the source.  Every distance the heap algorithms compute
  on a range of length at least one is non-negative, and `(0 - 1) / 2` is `0` both in
  C++ (truncating division) and in `Nat`, so distances are natural numbers.
* The overloads without a predicate use `operator<` of the element type, here the `<` of
  an `LT` instance with decidable comparison; the overloads with a predicate take
  `comp : α → α → Bool`.
* `while` loops become recursive functions; their termination measure is the one the
  loop really decreases.  A loop of the shape `first != last`, which need not terminate,
  is run with fuel and answers `none` when the fuel runs out.
-/

namespace ctstl

variable {α : Type}

/-! ## heap_algo.h -/

/-- Sift-up, lines 17-29: the loop of `push_heap_aux` and the final store of `value`. -/
def push_heap_aux [LT α] [@DecidableRel α (· < ·)]
    (first : Nat → α) (holeIndex topIndex : Nat) (value : α) : Nat → α :=
  let parent := (holeIndex - 1) / 2
  if _h : holeIndex > topIndex ∧ first parent < value then
    push_heap_aux (Function.update first holeIndex (first parent)) parent topIndex value
  else
    Function.update first holeIndex value
termination_by holeIndex
decreasing_by omega

/-- Lines 31-35: `push_heap_d(first, last, Distance*)`. -/
def push_heap_d [LT α] [@DecidableRel α (· < ·)] (first : Nat → α) (last : Nat) : Nat → α :=
  push_heap_aux first (last - 1) 0 (first (last - 1))

/-- Lines 37-41: `push_heap(first, last)`. -/
def push_heap [LT α] [@DecidableRel α (· < ·)] (first : Nat → α) (last : Nat) : Nat → α :=
  push_heap_d first last

/-- Sift-up with a predicate, lines 44-57. -/
def push_heap_aux_comp (comp : α → α → Bool)
    (first : Nat → α) (holeIndex topIndex : Nat) (value : α) : Nat → α :=
  let parent := (holeIndex - 1) / 2
  if _h : holeIndex > topIndex ∧ comp (first parent) value = true then
    push_heap_aux_comp comp (Function.update first holeIndex (first parent)) parent topIndex value
  else
    Function.update first holeIndex value
termination_by holeIndex
decreasing_by omega

/-- Lines 59-64. -/
def push_heap_d_comp (comp : α → α → Bool) (first : Nat → α) (last : Nat) : Nat → α :=
  push_heap_aux_comp comp first (last - 1) 0 (first (last - 1))

/-- Lines 66-70. -/
def push_heap_comp (comp : α → α → Bool) (first : Nat → α) (last : Nat) : Nat → α :=
  push_heap_d_comp comp first last

/-- The `while (rchild < len)` loop of `adjust_heap`, lines 83-92.  The state is the storage
together with `holeIndex` and `rchild`; the result is the state on leaving the loop. -/
def adjust_heap_down [LT α] [@DecidableRel α (· < ·)]
    (first : Nat → α) (holeIndex rchild len : Nat) : (Nat → α) × Nat × Nat :=
  if _h : rchild < len then
    let rchild1 := if first rchild < first (rchild - 1) then rchild - 1 else rchild
    adjust_heap_down (Function.update first holeIndex (first rchild1)) rchild1
      (2 * (rchild1 + 1)) len
  else
    (first, holeIndex, rchild)
termination_by len - rchild
decreasing_by
  split <;> omega

/-- Lines 77-100: `adjust_heap(first, holeIndex, len, value)`: the sift-down loop, the
step for a node with a left child only, and the trailing sift-up. -/
def adjust_heap [LT α] [@DecidableRel α (· < ·)]
    (first : Nat → α) (holeIndex len : Nat) (value : α) : Nat → α :=
  let topIndex := holeIndex
  let s := adjust_heap_down first holeIndex (2 * holeIndex + 2) len
  if s.2.2 = len then
    push_heap_aux (Function.update s.1 s.2.1 (s.1 (s.2.2 - 1))) (s.2.2 - 1) topIndex value
  else
    push_heap_aux s.1 s.2.1 topIndex value

/-- Lines 102-108: `pop_heap_aux(first, last, result, value, Distance*)`.  The source names
its fourth parameter `value_type` and then reads `value`; the parameter is the only
candidate for that name (the overload with a predicate names it `value`). -/
def pop_heap_aux [LT α] [@DecidableRel α (· < ·)]
    (first : Nat → α) (last result : Nat) (value : α) : Nat → α :=
  adjust_heap (Function.update first result (first 0)) 0 last value

/-- Lines 110-114: `pop_heap(first, last)`. -/
def pop_heap [LT α] [@DecidableRel α (· < ·)] (first : Nat → α) (last : Nat) : Nat → α :=
  pop_heap_aux first (last - 1) (last - 1) (first (last - 1))

/-- The sift-down loop with a predicate, lines 124-130. -/
def adjust_heap_down_comp (comp : α → α → Bool)
    (first : Nat → α) (holeIndex rchild len : Nat) : (Nat → α) × Nat × Nat :=
  if _h : rchild < len then
    let rchild1 := if comp (first rchild) (first (rchild - 1)) = true then rchild - 1 else rchild
    adjust_heap_down_comp comp (Function.update first holeIndex (first rchild1)) rchild1
      (2 * (rchild1 + 1)) len
  else
    (first, holeIndex, rchild)
termination_by len - rchild
decreasing_by
  split <;> omega

/-- Lines 117-138: `adjust_heap` with a predicate. -/
def adjust_heap_comp (comp : α → α → Bool)
    (first : Nat → α) (holeIndex len : Nat) (value : α) : Nat → α :=
  let topIndex := holeIndex
  let s := adjust_heap_down_comp comp first holeIndex (2 * holeIndex + 2) len
  if s.2.2 = len then
    push_heap_aux_comp comp (Function.update s.1 s.2.1 (s.1 (s.2.2 - 1))) (s.2.2 - 1)
      topIndex value
  else
    push_heap_aux_comp comp s.1 s.2.1 topIndex value

/-- Lines 140-146: `pop_heap_aux` with a predicate. -/
def pop_heap_aux_comp (comp : α → α → Bool)
    (first : Nat → α) (last result : Nat) (value : α) : Nat → α :=
  adjust_heap_comp comp (Function.update first result (first 0)) 0 last value

/-- Lines 148-153: `pop_heap` with a predicate. -/
def pop_heap_comp (comp : α → α → Bool) (first : Nat → α) (last : Nat) : Nat → α :=
  pop_heap_aux_comp comp first (last - 1) (last - 1) (first (last - 1))

/-- Lines 159-167: `sort_heap(first, last)`; `pop_heap(first, last--)` pops the range of the
current length and then shortens it by one. -/
def sort_heap [LT α] [@DecidableRel α (· < ·)] (first : Nat → α) (last : Nat) : Nat → α :=
  if _h : last > 1 then sort_heap (pop_heap first last) (last - 1) else first
termination_by last
decreasing_by omega

/-- Modelled from the spec: `mystl::pop_heap`, the function that the loop of the predicate
overload of `sort_heap` calls (line 175).  No namespace `mystl` is declared in this library.
The spec has `sort_heap` call `pop_heap` on the shrinking range, and has the predicate
overloads keep the structure of the plain ones with predicate calls in place of
`operator<`: the call is `pop_heap(first, last, comp)`. -/
def mystl_pop_heap (comp : α → α → Bool) (first : Nat → α) (last : Nat) : Nat → α :=
  pop_heap_comp comp first last

/-- Lines 170-177: `sort_heap` with a predicate. -/
def sort_heap_comp (comp : α → α → Bool) (first : Nat → α) (last : Nat) : Nat → α :=
  if _h : last > 1 then sort_heap_comp comp (mystl_pop_heap comp first last) (last - 1)
  else first
termination_by last
decreasing_by omega

/-- The `while (true)` loop of `make_heap_aux`, lines 190-197. -/
def make_heap_loop [LT α] [@DecidableRel α (· < ·)]
    (first : Nat → α) (len holeIndex : Nat) : Nat → α :=
  if _h : holeIndex = 0 then
    adjust_heap first holeIndex len (first holeIndex)
  else
    make_heap_loop (adjust_heap first holeIndex len (first holeIndex)) len (holeIndex - 1)
termination_by holeIndex
decreasing_by omega

/-- Lines 183-198: `make_heap_aux(first, last, Distance*)`. -/
def make_heap_aux [LT α] [@DecidableRel α (· < ·)] (first : Nat → α) (last : Nat) : Nat → α :=
  if last < 2 then first else make_heap_loop first last ((last - 2) / 2)

/-- Lines 200-204: `make_heap(first, last)`. -/
def make_heap [LT α] [@DecidableRel α (· < ·)] (first : Nat → α) (last : Nat) : Nat → α :=
  make_heap_aux first last

/-- The `while (true)` loop of `make_heap_aux` with a predicate, lines 214-221. -/
def make_heap_loop_comp (comp : α → α → Bool)
    (first : Nat → α) (len holeIndex : Nat) : Nat → α :=
  if _h : holeIndex = 0 then
    adjust_heap_comp comp first holeIndex len (first holeIndex)
  else
    make_heap_loop_comp comp (adjust_heap_comp comp first holeIndex len (first holeIndex)) len
      (holeIndex - 1)
termination_by holeIndex
decreasing_by omega

/-- Lines 207-222. -/
def make_heap_aux_comp (comp : α → α → Bool) (first : Nat → α) (last : Nat) : Nat → α :=
  if last < 2 then first else make_heap_loop_comp comp first last ((last - 2) / 2)

/-- Lines 224-228. -/
def make_heap_comp (comp : α → α → Bool) (first : Nat → α) (last : Nat) : Nat → α :=
  make_heap_aux_comp comp first last

/-! ## algobase.h: copy and equal

Storage is `Nat → α` and an iterator is a position in it.  A cell holds one element: a block
transfer of `n * sizeof(Up)` bytes is a transfer of `n` cells. -/

/-- Lines 72-82: `unchecked_copy_cat`, the `input_iterator_tag` version.  The loop
`for (; first != last; ++first, ++result)` is run with fuel, one unit for each test of
`first != last`. -/
def unchecked_copy_cat_input :
    Nat → (Nat → α) → Nat → Nat → Nat → Option ((Nat → α) × Nat)
  | 0, _, _, _, _ => none
  | fuel + 1, m, first, last, result =>
    if first ≠ last then
      unchecked_copy_cat_input fuel (Function.update m result (m first)) (first + 1) last
        (result + 1)
    else
      some (m, result)

/-- The loop `for (auto n = last - first; n > 0; --n, ++first, ++result)` of lines 90-93, as
a function of the counter `n`. -/
def unchecked_copy_cat_random_access_loop :
    Nat → (Nat → α) → Nat → Nat → (Nat → α) × Nat
  | 0, m, _, result => (m, result)
  | n + 1, m, first, result =>
    unchecked_copy_cat_random_access_loop n (Function.update m result (m first)) (first + 1)
      (result + 1)

/-- Lines 85-95: `unchecked_copy_cat`, the `random_access_iterator_tag` version.  The
counter starts at `last - first`; a negative difference runs no iteration, as the
truncated difference of natural numbers does. -/
def unchecked_copy_cat_random_access (m : Nat → α) (first last result : Nat) :
    (Nat → α) × Nat :=
  unchecked_copy_cat_random_access_loop (last - first) m first result

/-- The library function `std::memmove(dest, src, count)`: the `count` cells from `src` are
copied to `dest` as if through a temporary buffer, so that the ranges may overlap. -/
def memmove (m : Nat → α) (dest src count : Nat) : Nat → α :=
  fun i => if dest ≤ i ∧ i < dest + count then m (src + (i - dest)) else m i

/-- Lines 110-121: `unchecked_copy` for pointers to a trivially copy-assignable type.  On a
valid range (`first ≤ last`) the cast of `last - first` to `size_t` changes nothing. -/
def unchecked_copy_pointer (m : Nat → α) (first last result : Nat) : (Nat → α) × Nat :=
  let n := last - first
  if n ≠ 0 then (memmove m result first n, result + n) else (m, result + n)

/-- The overload that the call `unchecked_copy(first, last, result)` resolves to, which the
static types of the iterators decide: the generic overload on an iterator whose category
selects the `input_iterator_tag` version, the generic overload on a random-access iterator,
or the overload for pointers to a trivially copy-assignable type. -/
inductive CopyOverload where
  | cat_input : CopyOverload
  | cat_random_access : CopyOverload
  | trivially_copy_assignable_pointer : CopyOverload

/-- Lines 97-102 and 110-121: `unchecked_copy(first, last, result)`. -/
def unchecked_copy (o : CopyOverload) (fuel : Nat) (m : Nat → α) (first last result : Nat) :
    Option ((Nat → α) × Nat) :=
  match o with
  | CopyOverload.cat_input => unchecked_copy_cat_input fuel m first last result
  | CopyOverload.cat_random_access => some (unchecked_copy_cat_random_access m first last result)
  | CopyOverload.trivially_copy_assignable_pointer =>
    some (unchecked_copy_pointer m first last result)

/-- Lines 123-128: `copy(first, last, result)`. -/
def copy (o : CopyOverload) (fuel : Nat) (m : Nat → α) (first last result : Nat) :
    Option ((Nat → α) × Nat) :=
  unchecked_copy o fuel m first last result

/-- Lines 357-366: `equal(first1, last1, first2, last2)`; `*first1 != *first2` is the
negation of equality of the elements.  The loop is run with fuel. -/
def equal [DecidableEq α] : Nat → (Nat → α) → Nat → Nat → Nat → Nat → Option Bool
  | 0, _, _, _, _, _ => none
  | fuel + 1, m, first1, last1, first2, last2 =>
    if first1 ≠ last1 then
      if m first1 ≠ m first2 then some false
      else equal fuel m (first1 + 1) last1 (first2 + 1) last2
    else
      some true

/-! ## algobase.h: copy_backward, move, copy_if, copy_n, fill_n, fill, mismatch

Positions are natural numbers: a decrement `--result` below the start of the storage is
outside the model, and no statement below runs one. -/

/-- Lines 135-143: `unchecked_copy_backward_cat`, the `bidirectional_iterator_tag` version.
The loop `while (first != last) *--result = *--last;` is run with fuel. -/
def unchecked_copy_backward_cat_bidirectional :
    Nat → (Nat → α) → Nat → Nat → Nat → Option ((Nat → α) × Nat)
  | 0, _, _, _, _ => none
  | fuel + 1, m, first, last, result =>
    if first ≠ last then
      unchecked_copy_backward_cat_bidirectional fuel
        (Function.update m (result - 1) (m (last - 1))) first (last - 1) (result - 1)
    else
      some (m, result)

/-- The loop `for (auto n = last - first; n > 0; --n) *--result = *--last;` of lines
151-154, as a function of the counter `n`. -/
def unchecked_copy_backward_cat_random_access_loop :
    Nat → (Nat → α) → Nat → Nat → (Nat → α) × Nat
  | 0, m, _, result => (m, result)
  | n + 1, m, last, result =>
    unchecked_copy_backward_cat_random_access_loop n
      (Function.update m (result - 1) (m (last - 1))) (last - 1) (result - 1)

/-- Lines 146-156: `unchecked_copy_backward_cat`, the `random_access_iterator_tag` version. -/
def unchecked_copy_backward_cat_random_access (m : Nat → α) (first last result : Nat) :
    (Nat → α) × Nat :=
  unchecked_copy_backward_cat_random_access_loop (last - first) m last result

/-- Lines 167-181: `unchecked_copy_backward` for pointers to a trivially copy-assignable
type. -/
def unchecked_copy_backward_pointer (m : Nat → α) (first last result : Nat) :
    (Nat → α) × Nat :=
  let n := last - first
  if n ≠ 0 then (memmove m (result - n) first n, result - n) else (m, result)

/-- The overload that the call `unchecked_copy_backward(first, last, result)` resolves to. -/
inductive CopyBackwardOverload where
  | cat_bidirectional : CopyBackwardOverload
  | cat_random_access : CopyBackwardOverload
  | trivially_copy_assignable_pointer : CopyBackwardOverload

/-- Lines 158-164 and 167-181: `unchecked_copy_backward(first, last, result)`. -/
def unchecked_copy_backward (o : CopyBackwardOverload) (fuel : Nat) (m : Nat → α)
    (first last result : Nat) : Option ((Nat → α) × Nat) :=
  match o with
  | CopyBackwardOverload.cat_bidirectional =>
    unchecked_copy_backward_cat_bidirectional fuel m first last result
  | CopyBackwardOverload.cat_random_access =>
    some (unchecked_copy_backward_cat_random_access m first last result)
  | CopyBackwardOverload.trivially_copy_assignable_pointer =>
    some (unchecked_copy_backward_pointer m first last result)

/-- Lines 183-188: `copy_backward(first, last, result)`. -/
def copy_backward (o : CopyBackwardOverload) (fuel : Nat) (m : Nat → α)
    (first last result : Nat) : Option ((Nat → α) × Nat) :=
  unchecked_copy_backward o fuel m first last result

/-- Lines 243-253: `unchecked_move_cat`, the `input_iterator_tag` version, run with fuel.
The loop is `for (; first != last; ++first, ++last)`: each round advances `first` and
`last`, and `result` stays where it is.  The body `*result = ctstl::move(first)` stores the
element at `first` (the random-access version has `ctstl::move(*first)`), a move of an
element being the assignment of its value; `return resutl` returns `result`. -/
def unchecked_move_cat_input :
    Nat → (Nat → α) → Nat → Nat → Nat → Option ((Nat → α) × Nat)
  | 0, _, _, _, _ => none
  | fuel + 1, m, first, last, result =>
    if first ≠ last then
      unchecked_move_cat_input fuel (Function.update m result (m first)) (first + 1) (last + 1)
        result
    else
      some (m, result)

/-- The loop `for (auto n = last - first; n > 0; --n, ++first, ++result)` of lines 261-264,
as a function of the counter `n`. -/
def unchecked_move_cat_random_access_loop :
    Nat → (Nat → α) → Nat → Nat → (Nat → α) × Nat
  | 0, m, _, result => (m, result)
  | n + 1, m, first, result =>
    unchecked_move_cat_random_access_loop n (Function.update m result (m first)) (first + 1)
      (result + 1)

/-- Lines 256-266: `unchecked_move_cat`, the `random_access_iterator_tag` version. -/
def unchecked_move_cat_random_access (m : Nat → α) (first last result : Nat) :
    (Nat → α) × Nat :=
  unchecked_move_cat_random_access_loop (last - first) m first result

/-- Lines 194-204: `copy_if(first, last, result, unary_pred)`, run with fuel.  The source
writes the head of the loop as `for (; first != last, ++first)`, with a comma where the
second semicolon of a `for` statement belongs; the loop is
`for (; first != last; ++first)`. -/
def copy_if (unary_pred : α → Bool) :
    Nat → (Nat → α) → Nat → Nat → Nat → Option ((Nat → α) × Nat)
  | 0, _, _, _, _ => none
  | fuel + 1, m, first, last, result =>
    if first ≠ last then
      if unary_pred (m first) = true then
        copy_if unary_pred fuel (Function.update m result (m first)) (first + 1) last
          (result + 1)
      else
        copy_if unary_pred fuel m (first + 1) last result
    else
      some (m, result)

/-- The loop `for (; n > 0; --n, ++first, ++result)` of lines 215-218, as a function of the
count `n ≥ 0`; the state is the storage, `first` and `result`. -/
def unchecked_copy_n_input_loop : Nat → (Nat → α) → Nat → Nat → (Nat → α) × (Nat × Nat)
  | 0, m, first, result => (m, (first, result))
  | n + 1, m, first, result =>
    unchecked_copy_n_input_loop n (Function.update m result (m first)) (first + 1) (result + 1)

/-- Lines 211-220: `unchecked_copy_n`, the `input_iterator_tag` version, for a count
`n ≥ 0`: the storage it leaves and the pair it returns. -/
def unchecked_copy_n_input (m : Nat → α) (first n result : Nat) : (Nat → α) × (Nat × Nat) :=
  unchecked_copy_n_input_loop n m first result

/-- Lines 222-229: `unchecked_copy_n`, the `random_access_iterator_tag` version, for a count
`n ≥ 0`: `last = first + n` and the pair is `(last, copy(first, last, result))`. -/
def unchecked_copy_n_random_access (o : CopyOverload) (fuel : Nat) (m : Nat → α)
    (first n result : Nat) : Option ((Nat → α) × (Nat × Nat)) :=
  let last := first + n
  match copy o fuel m first last result with
  | some r => some (r.1, (last, r.2))
  | none => none

/-- The version of `unchecked_copy_n` that the category of `first` selects. -/
inductive CopyNOverload where
  | cat_input : CopyNOverload
  | cat_random_access : CopyOverload → CopyNOverload

/-- Lines 231-236: `copy_n(first, n, result)`.  The source passes `last`, a name that is
not declared in `copy_n`, as the third argument of `unchecked_copy_n`; the argument in
that place is the destination `result`. -/
def copy_n (o : CopyNOverload) (fuel : Nat) (m : Nat → α) (first n result : Nat) :
    Option ((Nat → α) × (Nat × Nat)) :=
  match o with
  | CopyNOverload.cat_input => some (unchecked_copy_n_input m first n result)
  | CopyNOverload.cat_random_access c => unchecked_copy_n_random_access c fuel m first n result

/-- Lines 369-378: `equal` with a predicate, run with fuel. -/
def equal_comp (comp : α → α → Bool) : Nat → (Nat → α) → Nat → Nat → Nat → Nat → Option Bool
  | 0, _, _, _, _, _ => none
  | fuel + 1, m, first1, last1, first2, last2 =>
    if first1 ≠ last1 then
      if ¬ comp (m first1) (m first2) = true then some false
      else equal_comp comp fuel m (first1 + 1) last1 (first2 + 1) last2
    else
      some true

/-- The loop `for (; n > 0; --n, ++first)` of lines 387-390, as a function of the number of
rounds. -/
def unchecked_fill_n_loop : Nat → (Nat → α) → Nat → α → (Nat → α) × Nat
  | 0, m, first, _ => (m, first)
  | n + 1, m, first, value =>
    unchecked_fill_n_loop n (Function.update m first value) (first + 1) value

/-- Lines 384-392: the generic `unchecked_fill_n(first, n, value)`.  `Size` is a signed
type: the loop runs while `n > 0`, that is `n.toNat` rounds. -/
def unchecked_fill_n (m : Nat → α) (first : Nat) (n : Int) (value : α) : (Nat → α) × Nat :=
  unchecked_fill_n_loop n.toNat m first value

/-- The library function `std::memset(dest, ch, count)` on storage whose cells are bytes. -/
def memset (m : Nat → Nat) (dest ch count : Nat) : Nat → Nat :=
  fun i => if dest ≤ i ∧ i < dest + count then ch else m i

/-- The conversion `(unsigned char)value` of a value of an integral type. -/
def to_unsigned_char (value : Int) : Nat := (value % 256).toNat

/-- Lines 396-409: `unchecked_fill_n` for one-byte integral types, on storage whose cells are
bytes.  The position returned is `first + n` whatever the sign of `n`, so it is an
integer. -/
def unchecked_fill_n_one_byte (m : Nat → Nat) (first : Nat) (n : Int) (value : Int) :
    (Nat → Nat) × Int :=
  if n > 0 then (memset m first (to_unsigned_char value) n.toNat, (first : Int) + n)
  else (m, (first : Int) + n)

/-- The generic `unchecked_fill_n` on a one-byte integral element type, seen on bytes: the
assignment `*first = value` stores the byte of `value`. -/
def unchecked_fill_n_bytes (m : Nat → Nat) (first : Nat) (n : Int) (value : Int) :
    (Nat → Nat) × Nat :=
  unchecked_fill_n m first n (to_unsigned_char value)

/-- Lines 411-415: `fill_n(first, n, value)`, resolving to the generic overload. -/
def fill_n (m : Nat → α) (first : Nat) (n : Int) (value : α) : (Nat → α) × Nat :=
  unchecked_fill_n m first n value

/-- Lines 411-415: `fill_n(first, n, value)`, resolving to the one-byte overload. -/
def fill_n_one_byte (m : Nat → Nat) (first : Nat) (n : Int) (value : Int) :
    (Nat → Nat) × Int :=
  unchecked_fill_n_one_byte m first n value

/-- Lines 421-429: `fill_cat`, the `forward_iterator_tag` version, run with fuel. -/
def fill_cat_forward : Nat → (Nat → α) → Nat → Nat → α → Option (Nat → α)
  | 0, _, _, _, _ => none
  | fuel + 1, m, first, last, value =>
    if first ≠ last then fill_cat_forward fuel (Function.update m first value) (first + 1) last value
    else some m

/-- Lines 431-436: `fill_cat`, the `random_access_iterator_tag` version, `fill_n` resolving
to the generic overload. -/
def fill_cat_random_access (m : Nat → α) (first last : Nat) (value : α) : Nat → α :=
  (fill_n m first ((last : Int) - (first : Int)) value).1

/-- Lines 431-436: `fill_cat`, the `random_access_iterator_tag` version on pointers to a
one-byte integral type, `fill_n` resolving to the one-byte overload. -/
def fill_cat_random_access_one_byte (m : Nat → Nat) (first last : Nat) (value : Int) :
    Nat → Nat :=
  (fill_n_one_byte m first ((last : Int) - (first : Int)) value).1

/-- The version of `fill_cat` that the category of `first` selects. -/
inductive FillOverload where
  | cat_forward : FillOverload
  | cat_random_access : FillOverload

/-- Lines 438-442: `fill(first, last, value)`. -/
def fill (o : FillOverload) (fuel : Nat) (m : Nat → α) (first last : Nat) (value : α) :
    Option (Nat → α) :=
  match o with
  | FillOverload.cat_forward => fill_cat_forward fuel m first last value
  | FillOverload.cat_random_access => some (fill_cat_random_access m first last value)

/-- Lines 499-509: `mismatch(first1, last1, first2)`, run with fuel; `*first1 == *first2`
is equality of the elements. -/
def mismatch [DecidableEq α] : Nat → (Nat → α) → Nat → Nat → Nat → Option (Nat × Nat)
  | 0, _, _, _, _ => none
  | fuel + 1, m, first1, last1, first2 =>
    if first1 ≠ last1 ∧ m first1 = m first2 then mismatch fuel m (first1 + 1) last1 (first2 + 1)
    else some (first1, first2)

/-- Lines 512-522: `mismatch` with a predicate, run with fuel.  The pair is built with
`mystl::pair`, the `pair` of `util.h` under the name of a namespace that is not declared. -/
def mismatch_comp (comp : α → α → Bool) : Nat → (Nat → α) → Nat → Nat → Nat → Option (Nat × Nat)
  | 0, _, _, _, _ => none
  | fuel + 1, m, first1, last1, first2 =>
    if first1 ≠ last1 ∧ comp (m first1) (m first2) = true then
      mismatch_comp comp fuel m (first1 + 1) last1 (first2 + 1)
    else some (first1, first2)

/-! ## algobase.h: max, min, lexicographical_compare -/

/-- Lines 27-31: `max(lhs, rhs)`. -/
def max [LT α] [@DecidableRel α (· < ·)] (lhs rhs : α) : α :=
  if lhs < rhs then rhs else lhs

/-- Lines 34-38: `max(lhs, rhs, compare)`. -/
def max_comp (lhs rhs : α) (compare : α → α → Bool) : α :=
  if compare lhs rhs = true then rhs else lhs

/-- Lines 44-48: `min(lhs, rhs)`. -/
def min [LT α] [@DecidableRel α (· < ·)] (lhs rhs : α) : α :=
  if rhs < lhs then rhs else lhs

/-- Lines 51-55: `min(lhs, rhs, compare)`; the source returns
`compare(lhs, rhs) ? rhs : lhs`. -/
def min_comp (lhs rhs : α) (compare : α → α → Bool) : α :=
  if compare lhs rhs = true then rhs else lhs

/-- Lines 451-464: `lexicographical_compare` with `operator<`, run with fuel.  The loop is
`for (; first1 != last1 && first2 != last2; ++first1, ++last2)`: each round advances
`first1` and `last2`, and `first2` stays where it is (`firs1` in the condition is
`first1`). -/
def lexicographical_compare [LT α] [@DecidableRel α (· < ·)] :
    Nat → (Nat → α) → Nat → Nat → Nat → Nat → Option Bool
  | 0, _, _, _, _, _ => none
  | fuel + 1, m, first1, last1, first2, last2 =>
    if first1 ≠ last1 ∧ first2 ≠ last2 then
      if m first1 < m first2 then some true
      else if m first2 < m first1 then some false
      else lexicographical_compare fuel m (first1 + 1) last1 first2 (last2 + 1)
    else
      some (decide (first1 = last1 ∧ first2 ≠ last2))

/-- Lines 467-479: `lexicographical_compare` with a predicate, run with fuel. -/
def lexicographical_compare_comp (comp : α → α → Bool) :
    Nat → (Nat → α) → Nat → Nat → Nat → Nat → Option Bool
  | 0, _, _, _, _, _ => none
  | fuel + 1, m, first1, last1, first2, last2 =>
    if first1 ≠ last1 ∧ first2 ≠ last2 then
      if comp (m first1) (m first2) = true then some true
      else if comp (m first2) (m first1) = true then some false
      else lexicographical_compare_comp comp fuel m (first1 + 1) last1 (first2 + 1) last2
    else
      some (decide (first1 = last1 ∧ first2 ≠ last2))

/-- The library function `std::memcmp(lhs, rhs, count)` on storage whose cells are bytes:
negative, zero or positive as the first byte that differs is smaller in `lhs`, there is
none, or it is smaller in `rhs`; bytes compare as unsigned values. -/
def memcmp (m : Nat → Nat) : Nat → Nat → Nat → Int
  | _, _, 0 => 0
  | lhs, rhs, count + 1 =>
    if m lhs < m rhs then -1
    else if m rhs < m lhs then 1
    else memcmp m (lhs + 1) (rhs + 1) count

/-- Lines 482-493: `lexicographical_compare` for `const unsigned char*`, on valid ranges. -/
def lexicographical_compare_bytes (m : Nat → Nat) (first1 last1 first2 last2 : Nat) : Bool :=
  let len1 := last1 - first1
  let len2 := last2 - first2
  let result := memcmp m first1 first2 (min len1 len2)
  if result ≠ 0 then decide (result < 0) else decide (len1 < len2)

/-! ## iterator.h: distance -/

/-- The loop `while (first != last) { ++first; ++n; }` of lines 171-174, run with fuel. -/
def distance_dispatch_input_loop : Nat → Nat → Nat → Int → Option Int
  | 0, _, _, _ => none
  | fuel + 1, first, last, n =>
    if first ≠ last then distance_dispatch_input_loop fuel (first + 1) last (n + 1)
    else some n

/-- Lines 167-176: `distance_dispatch`, the `input_iterator_tag` version. -/
def distance_dispatch_input (fuel first last : Nat) : Option Int :=
  distance_dispatch_input_loop fuel first last 0

/-- Lines 179-184: `distance_dispatch`, the `random_access_iterator_tag` version. -/
def distance_dispatch_random_access (first last : Nat) : Int :=
  (last : Int) - (first : Int)

/-- The version of `distance_dispatch` that the category of `first` selects. -/
inductive DistanceOverload where
  | cat_input : DistanceOverload
  | cat_random_access : DistanceOverload

/-- Lines 186-192: `distance(first, last)`. -/
def distance (o : DistanceOverload) (fuel first last : Nat) : Option Int :=
  match o with
  | DistanceOverload.cat_input => distance_dispatch_input fuel first last
  | DistanceOverload.cat_random_access => some (distance_dispatch_random_access first last)

/-! ## memory.h: temporary buffers

A pointer is `Option Nat`, `none` being the null pointer.  The allocation primitive is a
parameter `malloc`: `malloc k size` is what the call number `k` of `malloc`, with the
argument `size`, returns.  `INT_MAX` and `sizeof(T)` are parameters. -/

/-- The loop `while (len > 0)` of lines 37-43 of `get_buffer_helper` and the final `return`;
`calls` counts the calls of `malloc` made so far.  The result is the pair returned and the
number of calls of `malloc` made. -/
def get_buffer_helper_loop (malloc : Nat → Nat → Option Nat) (sizeof_T : Nat) (calls : Nat)
    (len : Int) : (Option Nat × Int) × Nat :=
  if _h : len > 0 then
    match malloc calls (len.toNat * sizeof_T) with
    | some tmp => ((some tmp, len), calls + 1)
    | none => get_buffer_helper_loop malloc sizeof_T (calls + 1) (len / 2)
  else
    ((none, 0), calls)
termination_by len.toNat
decreasing_by omega

/-- Lines 32-45: `get_buffer_helper(len, T*)`. -/
def get_buffer_helper (malloc : Nat → Nat → Option Nat) (INT_MAX sizeof_T : Nat) (len : Int) :
    (Option Nat × Int) × Nat :=
  get_buffer_helper_loop malloc sizeof_T 0
    (if len > ((INT_MAX / sizeof_T : Nat) : Int) then ((INT_MAX / sizeof_T : Nat) : Int) else len)

/-- Lines 47-51: `get_temporary_buffer(len)`. -/
def get_temporary_buffer (malloc : Nat → Nat → Option Nat) (INT_MAX sizeof_T : Nat)
    (len : Int) : (Option Nat × Int) × Nat :=
  get_buffer_helper malloc INT_MAX sizeof_T len

/-- Lines 68-75: the data members of `temporary_buffer`. -/
structure temporary_buffer where
  original_len : Int
  len : Int
  buffer : Option Nat

/-- Line 87: `size()`. -/
def temporary_buffer.size (b : temporary_buffer) : Int := b.len

/-- Line 88: `requested_size()`. -/
def temporary_buffer.requested_size (b : temporary_buffer) : Int := b.original_len

/-- The loop `while (len > 0)` of lines 135-141 of `allocate_buffer`: the values of `len`
and `buffer` when it is left. -/
def allocate_buffer_loop (malloc : Nat → Nat → Option Nat) (sizeof_T : Nat) (calls : Nat)
    (len : Int) (buffer : Option Nat) : Int × Option Nat :=
  if _h : len > 0 then
    match malloc calls (len.toNat * sizeof_T) with
    | some p => (len, some p)
    | none => allocate_buffer_loop malloc sizeof_T (calls + 1) (len / 2) none
  else
    (len, buffer)
termination_by len.toNat
decreasing_by omega

/-- Lines 129-142: `allocate_buffer()`. -/
def allocate_buffer (malloc : Nat → Nat → Option Nat) (INT_MAX sizeof_T : Nat)
    (b : temporary_buffer) : temporary_buffer :=
  let r := allocate_buffer_loop malloc sizeof_T 0
    (if b.len > ((INT_MAX / sizeof_T : Nat) : Int) then ((INT_MAX / sizeof_T : Nat) : Int)
      else b.len) b.buffer
  { original_len := b.len, len := r.1, buffer := r.2 }

/-- Lines 106-126: the constructor `temporary_buffer(first, last)`.  `members` holds the
indeterminate values of the data members on entry.  The initialization of the elements
(`uninitialized_fill_n`, which this library declares in a header that is absent) is the
parameter `initialize_buffer_throws`: whether, on the buffer and length given, it ends by
throwing.  The handler `catch (...)` frees the buffer, sets it to null and sets `len` to
`0`.  The result is `none` when `distance` does not return. -/
def temporary_buffer.construct (malloc : Nat → Nat → Option Nat) (INT_MAX sizeof_T : Nat)
    (is_trivially_default_constructible : Bool)
    (initialize_buffer_throws : Option Nat → Int → Bool) (members : temporary_buffer)
    (o : DistanceOverload) (fuel first last : Nat) : Option temporary_buffer :=
  match distance o fuel first last with
  | none => none
  | some d =>
    let b := allocate_buffer malloc INT_MAX sizeof_T { members with len := d }
    if b.len > 0 ∧ is_trivially_default_constructible = false ∧
        initialize_buffer_throws b.buffer b.len = true then
      some { b with buffer := none, len := 0 }
    else
      some b

/-! ## iterator.h: the five iterator tags and the category queries -/

/-- The five tag structs of `iterator.h`, lines 13-17. -/
inductive iterator_tag where
  | input_iterator_tag : iterator_tag
  | output_iterator_tag : iterator_tag
  | forward_iterator_tag : iterator_tag
  | bidirectional_iterator_tag : iterator_tag
  | random_access_iterator_tag : iterator_tag

/-- The base each tag struct is declared with (lines 13-17): `input_iterator_tag` and
`output_iterator_tag` have none, `forward_iterator_tag : public input_iterator_tag`,
`bidirectional_iterator_tag : public forward_iterator_tag`,
`random_access_iterator_tag : public bidirectional_iterator_tag`. -/
def tag_base : iterator_tag → Option iterator_tag
  | iterator_tag.input_iterator_tag => none
  | iterator_tag.output_iterator_tag => none
  | iterator_tag.forward_iterator_tag => some iterator_tag.input_iterator_tag
  | iterator_tag.bidirectional_iterator_tag => some iterator_tag.forward_iterator_tag
  | iterator_tag.random_access_iterator_tag => some iterator_tag.bidirectional_iterator_tag

/-- Identity of two tag structs. -/
def same_tag : iterator_tag → iterator_tag → Bool
  | iterator_tag.input_iterator_tag, iterator_tag.input_iterator_tag => true
  | iterator_tag.output_iterator_tag, iterator_tag.output_iterator_tag => true
  | iterator_tag.forward_iterator_tag, iterator_tag.forward_iterator_tag => true
  | iterator_tag.bidirectional_iterator_tag, iterator_tag.bidirectional_iterator_tag => true
  | iterator_tag.random_access_iterator_tag, iterator_tag.random_access_iterator_tag => true
  | _, _ => false

/-- Whether `c` is `u` or has `u` among its bases, following at most `depth` base
declarations upwards from `c`. -/
def derives_from : Nat → iterator_tag → iterator_tag → Bool
  | 0, c, u => same_tag c u
  | depth + 1, c, u =>
    same_tag c u ||
      (match tag_base c with
        | some b => derives_from depth b u
        | none => false)

/-- The trait `std::is_convertible<C, U>` on two of the tag structs: an object of an empty
struct converts to the struct itself and to each of its public bases, and to nothing else
among the tags. The chain of base declarations has four links at most. -/
def is_convertible (c u : iterator_tag) : Bool := derives_from 4 c u

/-- The kinds of type the category queries are asked about: a raw pointer `T*` or
`const T*`, a class with a nested `iterator_category` that is one of the five tags, and a
type with no nested `iterator_category`. -/
inductive iterator_type where
  | pointer : iterator_type
  | nested (c : iterator_tag) : iterator_type
  | plain : iterator_type

/-- The category `iterator_traits<T>::iterator_category`, if there is one (lines 54-104):
for a class it is the nested one, present when `has_iterator_cat` holds and the nested tag
converts to `input_iterator_tag` or to `output_iterator_tag`; the two partial
specializations for `T*` and `const T*` give `random_access_iterator_tag`. -/
def iterator_traits_category : iterator_type → Option iterator_tag
  | iterator_type.pointer => some iterator_tag.random_access_iterator_tag
  | iterator_type.nested c =>
    if is_convertible c iterator_tag.input_iterator_tag ||
        is_convertible c iterator_tag.output_iterator_tag then some c else none
  | iterator_type.plain => none

/-- The query `has_iterator_cat_of<T, U>` (lines 105-114): with a category `C` it is
`std::is_convertible<C, U>`, without one it is false. -/
def has_iterator_cat_of (t : iterator_type) (u : iterator_tag) : Bool :=
  match iterator_traits_category t with
  | some c => is_convertible c u
  | none => false

/-- The query `is_input_iterator`. -/
def is_input_iterator (t : iterator_type) : Bool :=
  has_iterator_cat_of t iterator_tag.input_iterator_tag

/-- The query `is_output_iterator`. -/
def is_output_iterator (t : iterator_type) : Bool :=
  has_iterator_cat_of t iterator_tag.output_iterator_tag

/-- The query `is_forward_iterator`. -/
def is_forward_iterator (t : iterator_type) : Bool :=
  has_iterator_cat_of t iterator_tag.forward_iterator_tag

/-- The query `is_bidirectional_iterator`. -/
def is_bidirectional_iterator (t : iterator_type) : Bool :=
  has_iterator_cat_of t iterator_tag.bidirectional_iterator_tag

/-- The query `is_random_access_iterator`. -/
def is_random_access_iterator (t : iterator_type) : Bool :=
  has_iterator_cat_of t iterator_tag.random_access_iterator_tag

/-! ## iterator.h: advance -/

/-- The loop `while (n--) i++;`: the test reads `n` and then decrements it; `none` when the
fuel runs out before `n` is found to be zero. Positions and counts are integers. -/
def advance_loop_up : Nat → Int → Int → Option Int
  | 0, _, _ => none
  | fuel + 1, i, n => if n ≠ 0 then advance_loop_up fuel (i + 1) (n - 1) else some i

/-- The loop `while (n++) --i;`. -/
def advance_loop_down : Nat → Int → Int → Option Int
  | 0, _, _ => none
  | fuel + 1, i, n => if n ≠ 0 then advance_loop_down fuel (i - 1) (n + 1) else some i

/-- The overload `advance_dispatch(i, n, input_iterator_tag)`. -/
def advance_dispatch_input (fuel : Nat) (i n : Int) : Option Int :=
  advance_loop_up fuel i n

/-- The overload `advance_dispatch(i, n, bidirectional_iterator_tag)`. -/
def advance_dispatch_bidirectional (fuel : Nat) (i n : Int) : Option Int :=
  if n ≥ 0 then advance_loop_up fuel i n else advance_loop_down fuel i n

/-- The overload `advance_dispatch(i, n, random_access_iterator_tag)`: `i += n`. -/
def advance_dispatch_random_access (i n : Int) : Int := i + n

/-- The overload of `advance_dispatch` that the category of the iterator selects. -/
inductive AdvanceOverload where
  | cat_input : AdvanceOverload
  | cat_bidirectional : AdvanceOverload
  | cat_random_access : AdvanceOverload

/-- The overload that `advance_dispatch(i, n, iterator_category(i))` resolves to: a tag object
binds to the parameter of its own type when there is one and to the nearest base otherwise;
for `output_iterator_tag` no overload is viable. -/
def advance_overload_of : iterator_tag → Option AdvanceOverload
  | iterator_tag.input_iterator_tag => some AdvanceOverload.cat_input
  | iterator_tag.output_iterator_tag => none
  | iterator_tag.forward_iterator_tag => some AdvanceOverload.cat_input
  | iterator_tag.bidirectional_iterator_tag => some AdvanceOverload.cat_bidirectional
  | iterator_tag.random_access_iterator_tag => some AdvanceOverload.cat_random_access

/-- The function `advance(i, n)`: dispatch on `iterator_category(i)`. -/
def advance (o : AdvanceOverload) (fuel : Nat) (i n : Int) : Option Int :=
  match o with
  | AdvanceOverload.cat_input => advance_dispatch_input fuel i n
  | AdvanceOverload.cat_bidirectional => advance_dispatch_bidirectional fuel i n
  | AdvanceOverload.cat_random_access => some (advance_dispatch_random_access i n)

/-! ## iterator.h: reverse_iterator -/

/-- The class `reverse_iterator`: its one member `current` is the forward position it
wraps, here an index into the sequence. -/
structure reverse_iterator where
  current : Int

/-- The member `base()`. -/
def reverse_iterator.base (r : reverse_iterator) : Int := r.current

/-- The member `operator*`: `auto tmp = current; return *--tmp;` over the sequence `m`. -/
def reverse_iterator.deref (m : Int → α) (r : reverse_iterator) : α :=
  let tmp := r.current
  m (tmp - 1)

/-- The member `operator++`: `--current`. -/
def reverse_iterator.incr (r : reverse_iterator) : reverse_iterator := ⟨r.current - 1⟩

/-- The member `operator--`: `++current`. -/
def reverse_iterator.decr (r : reverse_iterator) : reverse_iterator := ⟨r.current + 1⟩

/-- The member `operator+=`: `current -= n`. -/
def reverse_iterator.add_assign (r : reverse_iterator) (n : Int) : reverse_iterator :=
  ⟨r.current - n⟩

/-- The member `operator+`: `self(current - n)`. -/
def reverse_iterator.add (r : reverse_iterator) (n : Int) : reverse_iterator :=
  ⟨r.current - n⟩

/-- The member `operator-=`: `current += n`. -/
def reverse_iterator.sub_assign (r : reverse_iterator) (n : Int) : reverse_iterator :=
  ⟨r.current + n⟩

/-- The member `operator-`: `self(current + n)`. -/
def reverse_iterator.sub (r : reverse_iterator) (n : Int) : reverse_iterator :=
  ⟨r.current + n⟩

/-- The member `operator[]`: `*(*this + n)`. -/
def reverse_iterator.index (m : Int → α) (r : reverse_iterator) (n : Int) : α :=
  reverse_iterator.deref m (r.add n)

/-- The free `operator-` on two reverse iterators: `rhs.base() - lhs.base()`. -/
def reverse_iterator.diff (lhs rhs : reverse_iterator) : Int := rhs.base - lhs.base

/-- The free `operator==`: `lhs.base() == rhs.base()`. -/
def reverse_iterator.eq (lhs rhs : reverse_iterator) : Bool := decide (lhs.base = rhs.base)

/-- The free `operator<`: `rhs.base() < lhs.base()`. -/
def reverse_iterator.lt (lhs rhs : reverse_iterator) : Bool := decide (rhs.base < lhs.base)

/-- The free `operator!=`: `!(lhs == rhs)`. -/
def reverse_iterator.ne (lhs rhs : reverse_iterator) : Bool := !(reverse_iterator.eq lhs rhs)

/-- The free `operator>`: `rhs < lhs`. -/
def reverse_iterator.gt (lhs rhs : reverse_iterator) : Bool := reverse_iterator.lt rhs lhs

/-- The free `operator<=`: `!(rhs < lhs)`. -/
def reverse_iterator.le (lhs rhs : reverse_iterator) : Bool := !(reverse_iterator.lt rhs lhs)

/-- The free `operator>=`: `!(lhs < rhs)`. -/
def reverse_iterator.ge (lhs rhs : reverse_iterator) : Bool := !(reverse_iterator.lt lhs rhs)

/-! ## heap_algo.h with the accessed positions recorded

The same loops once more, each returning beside its result the list of the positions of
`first` it reads and writes, in the order of the accesses. -/

/-- One access to the storage: a read `*(first + i)` or a write `*(first + i) = ...`. -/
inductive Access where
  | read (i : Nat) : Access
  | write (i : Nat) : Access

/-- The position an access goes to. -/
def Access.index : Access → Nat
  | Access.read i => i
  | Access.write i => i

/-- The function `push_heap_aux` with its accesses: the loop test reads `parent` only when
`holeIndex > topIndex` holds (`&&` evaluates its left operand first), the loop body reads
`parent` and writes `holeIndex`, and the last statement writes `holeIndex`. -/
def push_heap_aux_log [LT α] [@DecidableRel α (· < ·)]
    (first : Nat → α) (holeIndex topIndex : Nat) (value : α) : (Nat → α) × List Access :=
  let parent := (holeIndex - 1) / 2
  if _h : holeIndex > topIndex then
    if first parent < value then
      let r := push_heap_aux_log (Function.update first holeIndex (first parent)) parent
        topIndex value
      (r.1, Access.read parent :: Access.read parent :: Access.write holeIndex :: r.2)
    else
      (Function.update first holeIndex value, [Access.read parent, Access.write holeIndex])
  else
    (Function.update first holeIndex value, [Access.write holeIndex])
termination_by holeIndex
decreasing_by omega

/-- The `while (rchild < len)` loop of `adjust_heap` with its accesses: the comparison reads
`rchild` and `rchild - 1`, the assignment reads the chosen child and writes `holeIndex`. -/
def adjust_heap_down_log [LT α] [@DecidableRel α (· < ·)]
    (first : Nat → α) (holeIndex rchild len : Nat) : ((Nat → α) × Nat × Nat) × List Access :=
  if _h : rchild < len then
    let rchild1 := if first rchild < first (rchild - 1) then rchild - 1 else rchild
    let r := adjust_heap_down_log (Function.update first holeIndex (first rchild1)) rchild1
      (2 * (rchild1 + 1)) len
    (r.1, Access.read rchild :: Access.read (rchild - 1) :: Access.read rchild1 ::
      Access.write holeIndex :: r.2)
  else
    ((first, holeIndex, rchild), [])
termination_by len - rchild
decreasing_by split <;> omega

/-- The function `adjust_heap` with its accesses. -/
def adjust_heap_log [LT α] [@DecidableRel α (· < ·)]
    (first : Nat → α) (holeIndex len : Nat) (value : α) : (Nat → α) × List Access :=
  let topIndex := holeIndex
  let s := adjust_heap_down_log first holeIndex (2 * holeIndex + 2) len
  if s.1.2.2 = len then
    let r := push_heap_aux_log (Function.update s.1.1 s.1.2.1 (s.1.1 (s.1.2.2 - 1)))
      (s.1.2.2 - 1) topIndex value
    (r.1, s.2 ++ Access.read (s.1.2.2 - 1) :: Access.write s.1.2.1 :: r.2)
  else
    let r := push_heap_aux_log s.1.1 s.1.2.1 topIndex value
    (r.1, s.2 ++ r.2)

/-- The function `pop_heap_aux` with its accesses: `*result = *first` reads position `0`
and writes `result`. -/
def pop_heap_aux_log [LT α] [@DecidableRel α (· < ·)]
    (first : Nat → α) (last result : Nat) (value : α) : (Nat → α) × List Access :=
  let r := adjust_heap_log (Function.update first result (first 0)) 0 last value
  (r.1, Access.read 0 :: Access.write result :: r.2)

/-- The function `pop_heap` with its accesses: the argument `*(last - 1)` is read first. -/
def pop_heap_log [LT α] [@DecidableRel α (· < ·)]
    (first : Nat → α) (last : Nat) : (Nat → α) × List Access :=
  let r := pop_heap_aux_log first (last - 1) (last - 1) (first (last - 1))
  (r.1, Access.read (last - 1) :: r.2)

/-- The `while (true)` loop of `make_heap_aux` with its accesses: each round reads
`*(first + holeIndex)` for the argument of `adjust_heap`. -/
def make_heap_loop_log [LT α] [@DecidableRel α (· < ·)]
    (first : Nat → α) (len holeIndex : Nat) : (Nat → α) × List Access :=
  if _h : holeIndex = 0 then
    let r := adjust_heap_log first holeIndex len (first holeIndex)
    (r.1, Access.read holeIndex :: r.2)
  else
    let r := adjust_heap_log first holeIndex len (first holeIndex)
    let r2 := make_heap_loop_log r.1 len (holeIndex - 1)
    (r2.1, Access.read holeIndex :: (r.2 ++ r2.2))
termination_by holeIndex
decreasing_by omega

/-- The function `make_heap_aux` with its accesses. -/
def make_heap_aux_log [LT α] [@DecidableRel α (· < ·)]
    (first : Nat → α) (last : Nat) : (Nat → α) × List Access :=
  if last < 2 then (first, []) else make_heap_loop_log first last ((last - 2) / 2)

/-- The function `make_heap` with its accesses. -/
def make_heap_log [LT α] [@DecidableRel α (· < ·)]
    (first : Nat → α) (last : Nat) : (Nat → α) × List Access :=
  make_heap_aux_log first last

/-! ## Specification vocabulary for the heap algorithms -/

/-- The max-heap invariant of the range `[first, first + n)`: no element is less than one
of its children at `2i+1` and `2i+2` inside the range. -/
def IsHeap [LT α] (a : Nat → α) (n : Nat) : Prop :=
  ∀ i, i < n → (2 * i + 1 < n → ¬ a i < a (2 * i + 1)) ∧ (2 * i + 2 < n → ¬ a i < a (2 * i + 2))

instance instDecidableIsHeap [LT α] [@DecidableRel α (· < ·)] (a : Nat → α) (n : Nat) :
    Decidable (IsHeap a n) := by
  unfold IsHeap
  infer_instance

/-- The elements of the range `[first, first + n)`, in order. -/
def view (a : Nat → α) (n : Nat) : List α := (List.range n).map a

/-- Storage whose first cells hold the elements of `l`; the cells behind hold `d`. -/
def ofList (l : List α) (d : α) : Nat → α := fun i => l.getD i d

/-- The position `p` lies in the subtree rooted at `h` of the array-embedded binary tree. -/
inductive Desc (h : Nat) : Nat → Prop
  | root : Desc h h
  | left {p : Nat} : Desc h p → Desc h (2 * p + 1)
  | right {p : Nat} : Desc h p → Desc h (2 * p + 2)

/-- Every pair (parent, child) inside `[0, n)` whose parent satisfies `S` is in heap order. -/
def HeapOn [LT α] (S : Nat → Prop) (a : Nat → α) (n : Nat) : Prop :=
  ∀ c, 0 < c → c < n → S ((c - 1) / 2) → ¬ a ((c - 1) / 2) < a c

/-- The state of a sift-up below `top` whose hole is at `p`, the value `v` being held
aside: the pairs that do not involve the hole are in heap order, no child of the hole is
above `v`, and the parent of the hole is not less than the children of the hole. -/
def UpInv [LT α] (S : Nat → Prop) (n top : Nat) (v : α) (a : Nat → α) (p : Nat) : Prop :=
  Desc top p ∧ p < n ∧
  (∀ c, 0 < c → c < n → S ((c - 1) / 2) → c ≠ p → (c - 1) / 2 ≠ p → ¬ a ((c - 1) / 2) < a c) ∧
  (∀ c, 0 < c → c < n → (c - 1) / 2 = p → ¬ v < a c) ∧
  (p ≠ top → ∀ c, 0 < c → c < n → (c - 1) / 2 = p → ¬ a ((p - 1) / 2) < a c)

/-- The state of a sift-down from `h` whose hole is at `p`: at the start only the pairs
below `h` are known to be in heap order, after the first step all of them are. -/
def DownInv [LT α] (S : Nat → Prop) (n h : Nat) (a : Nat → α) (p : Nat) : Prop :=
  Desc h p ∧ p < n ∧ ((p = h ∧ HeapOn (fun q => S q ∧ q ≠ h) a n) ∨ HeapOn S a n)

/-- The storage `b` is the storage `a` with the cells of `[0, n)` rearranged: `b` reads `a`
through a permutation of the positions that moves no position from `n` on. -/
def PermOn (n : Nat) (a b : Nat → α) : Prop :=
  ∃ σ : Equiv.Perm Nat, (∀ i, n ≤ i → σ i = i) ∧ ∀ i, b i = a (σ i)

/-- The assignments `*(result + i) = *(first + i)` performed for `i = 0, 1, ..., n-1` in
this order, each on the storage the earlier ones have left. -/
def copy_assignments (m : Nat → α) (first result n : Nat) : Nat → α :=
  (List.range n).foldl (fun acc i => Function.update acc (result + i) (acc (first + i))) m

/-- The assignments `*(result - 1 - k) = *(last - 1 - k)` performed for
`k = 0, 1, ..., n-1` in this order: a naive element-by-element copy from the back. -/
def copy_backward_assignments (m : Nat → α) (last result n : Nat) : Nat → α :=
  (List.range n).foldl
    (fun acc k => Function.update acc (result - 1 - k) (acc (last - 1 - k))) m

/-- The `n` elements of the storage from position `first` on, in order. -/
def slice (m : Nat → α) (first n : Nat) : List α := (List.range n).map (fun i => m (first + i))

/-- The range of length `n1` at `first1` precedes the range of length `n2` at `first2` in
the lexicographic order that `comp` induces: the ranges are equivalent up to an index `k`,
and there the first range ends while the second goes on, or the element of the first range
is less than the element of the second. -/
def LexPrecedes (comp : α → α → Bool) (m : Nat → α) (first1 n1 first2 n2 : Nat) : Prop :=
  ∃ k, k ≤ n1 ∧ k ≤ n2 ∧
    (∀ i, i < k → comp (m (first1 + i)) (m (first2 + i)) = false ∧
      comp (m (first2 + i)) (m (first1 + i)) = false) ∧
    ((k = n1 ∧ k < n2) ∨ (k < n1 ∧ k < n2 ∧ comp (m (first1 + k)) (m (first2 + k)) = true))

/-- An element with a key, by which elements compare, and a tag that tells elements with
the same key apart. -/
structure Keyed where
  key : Nat
  tag : Nat

instance instLTKeyed : LT Keyed := ⟨fun x y => x.key < y.key⟩

instance instDecidableLtKeyed (x y : Keyed) : Decidable (x < y) := Nat.decLt x.key y.key

/-- The first length that `get_buffer_helper` requests: `min(len, INT_MAX / sizeof(T))`, or
nothing when that is not positive. -/
def first_request (INT_MAX sizeof_T : Nat) (len : Int) : Nat :=
  (if len ≤ ((INT_MAX / sizeof_T : Nat) : Int) then len else ((INT_MAX / sizeof_T : Nat) : Int)).toNat

/-- The relation of the claim on tags: `c` is `u`, or `c` comes before `u` in the chain
random_access, bidirectional, forward, input. -/
def TagRefines : iterator_tag → iterator_tag → Prop
  | iterator_tag.random_access_iterator_tag, iterator_tag.bidirectional_iterator_tag => True
  | iterator_tag.random_access_iterator_tag, iterator_tag.forward_iterator_tag => True
  | iterator_tag.random_access_iterator_tag, iterator_tag.input_iterator_tag => True
  | iterator_tag.bidirectional_iterator_tag, iterator_tag.forward_iterator_tag => True
  | iterator_tag.bidirectional_iterator_tag, iterator_tag.input_iterator_tag => True
  | iterator_tag.forward_iterator_tag, iterator_tag.input_iterator_tag => True
  | c, u => c = u

/-- The parent index of the implicit binary tree. -/
def parent_index (i : Nat) : Nat := (i - 1) / 2

/-- Position `i` lies on the path from `p` to the root: it is `p`, its parent, the parent
of its parent, and so on. -/
def OnRootPath (p i : Nat) : Prop := ∃ k, parent_index^[k] p = i

/-- The test driver of the pop-order property: `pop_heap` on the prefixes of length
`n, n-1, ..., 1`, collecting the element each call leaves at the end of its prefix. -/
def pop_collect [LT α] [@DecidableRel α (· < ·)] : (Nat → α) → Nat → List α
  | _, 0 => []
  | a, n + 1 => (pop_heap a (n + 1)) n :: pop_collect (pop_heap a (n + 1)) n

/-! ## Facts about the order and about the tree of positions -/

section order

variable [LT α] [IsStrictWeakOrder α (· < ·)]

theorem swo_irrefl (x : α) : ¬ x < x := IsIrrefl.irrefl x

theorem swo_trans {x y z : α} (h1 : x < y) (h2 : y < z) : x < z := IsTrans.trans x y z h1 h2

theorem swo_asymm {x y : α} (h : x < y) : ¬ y < x := fun h2 => swo_irrefl x (swo_trans h h2)

/-- Below an element that is less than `z`, every `y` is above `x` or below `z`. -/
theorem swo_negtrans {x z : α} (y : α) (h : x < z) : x < y ∨ y < z := by
  by_contra hc
  push_neg at hc
  obtain ⟨hxy, hyz⟩ := hc
  have hyx : ¬ y < x := fun hyx => hyz (swo_trans hyx h)
  have hzy : ¬ z < y := fun hzy => hxy (swo_trans h hzy)
  exact (IsStrictWeakOrder.incomp_trans x y z ⟨hxy, hyx⟩ ⟨hyz, hzy⟩).1 h

/-- "Not less than" is transitive in a strict weak order. -/
theorem not_lt_trans {x y z : α} (h1 : ¬ x < y) (h2 : ¬ y < z) : ¬ x < z := fun h =>
  (swo_negtrans y h).elim h1 h2

end order

theorem Desc.le {h p : Nat} (d : Desc h p) : h ≤ p := by
  induction d with
  | root => exact Nat.le_refl _
  | left _ ih => omega
  | right _ ih => omega

theorem Desc.parent {h p : Nat} (d : Desc h p) (hne : p ≠ h) : Desc h ((p - 1) / 2) := by
  cases d with
  | root => exact absurd rfl hne
  | left d1 =>
    rename_i q
    have : (2 * q + 1 - 1) / 2 = q := by omega
    rw [this]; exact d1
  | right d1 =>
    rename_i q
    have : (2 * q + 2 - 1) / 2 = q := by omega
    rw [this]; exact d1

theorem Desc.of_parent {h c : Nat} (hc : 0 < c) (d : Desc h ((c - 1) / 2)) : Desc h c := by
  rcases Nat.even_or_odd c with he | ho
  · obtain ⟨k, hk⟩ := he
    have h1 : c = 2 * ((c - 1) / 2) + 2 := by omega
    rw [h1]; exact Desc.right d
  · obtain ⟨k, hk⟩ := ho
    have h1 : c = 2 * ((c - 1) / 2) + 1 := by omega
    rw [h1]; exact Desc.left d

theorem desc_zero (p : Nat) : Desc 0 p := by
  induction p using Nat.strong_induction_on with
  | _ p ih =>
    rcases Nat.eq_zero_or_pos p with h0 | hpos
    · subst h0; exact Desc.root
    · exact Desc.of_parent hpos (ih _ (by omega))

/-! ## Loop rules -/

/-- Invariant rule for the sift-up loop: an invariant of the loop body holds of the state
in which the loop is left, and the result is that state with `value` stored in the hole. -/
theorem push_heap_aux_rule [LT α] [@DecidableRel α (· < ·)] (top : Nat) (v : α)
    (P : (Nat → α) → Nat → Prop)
    (hstep : ∀ a p, P a p → p > top → a ((p - 1) / 2) < v →
      P (Function.update a p (a ((p - 1) / 2))) ((p - 1) / 2)) :
    ∀ p a, P a p → ∃ a1 p1, P a1 p1 ∧ ¬ (p1 > top ∧ a1 ((p1 - 1) / 2) < v) ∧
      push_heap_aux a p top v = Function.update a1 p1 v := by
  intro p
  induction p using Nat.strong_induction_on with
  | _ p ih =>
    intro a hP
    rw [push_heap_aux]
    by_cases hc : p > top ∧ a ((p - 1) / 2) < v
    · simp only [hc, and_self, ↓reduceDIte]
      exact ih ((p - 1) / 2) (by omega) _ (hstep a p hP hc.1 hc.2)
    · simp only [hc, ↓reduceDIte]
      exact ⟨a, p, hP, hc, rfl⟩

/-- Invariant rule for the sift-down loop: an invariant of the loop body, started with
`rchild = 2 * holeIndex + 2`, holds of the state in which the loop is left; there
`rchild` is again `2 * holeIndex + 2` and is not below `len`. -/
theorem adjust_heap_down_rule [LT α] [@DecidableRel α (· < ·)] (n : Nat)
    (P : (Nat → α) → Nat → Prop)
    (hstep : ∀ a p, P a p → 2 * p + 2 < n →
      P (Function.update a p (a (if a (2 * p + 2) < a (2 * p + 1) then 2 * p + 1 else 2 * p + 2)))
        (if a (2 * p + 2) < a (2 * p + 1) then 2 * p + 1 else 2 * p + 2)) :
    ∀ k p a, n - (2 * p + 2) ≤ k → P a p →
      P (adjust_heap_down a p (2 * p + 2) n).1 (adjust_heap_down a p (2 * p + 2) n).2.1 ∧
      (adjust_heap_down a p (2 * p + 2) n).2.2 = 2 * (adjust_heap_down a p (2 * p + 2) n).2.1 + 2 ∧
      n ≤ (adjust_heap_down a p (2 * p + 2) n).2.2 := by
  intro k
  induction k with
  | zero =>
    intro p a hk hP
    have hc : ¬ 2 * p + 2 < n := by omega
    rw [adjust_heap_down, dif_neg hc]
    exact ⟨hP, rfl, by show n ≤ 2 * p + 2; omega⟩
  | succ k ih =>
    intro p a hk hP
    by_cases hc : 2 * p + 2 < n
    · rw [adjust_heap_down, dif_pos hc]
      have hs := hstep a p hP hc
      have e0 : 2 * p + 2 - 1 = 2 * p + 1 := by omega
      rw [e0]
      by_cases hlt : a (2 * p + 2) < a (2 * p + 1)
      · rw [if_pos hlt] at hs ⊢
        have e : 2 * (2 * p + 1 + 1) = 2 * (2 * p + 1) + 2 := by ring
        dsimp only
        rw [e]
        exact ih (2 * p + 1) _ (by omega) hs
      · rw [if_neg hlt] at hs ⊢
        have e : 2 * (2 * p + 2 + 1) = 2 * (2 * p + 2) + 2 := by ring
        dsimp only
        rw [e]
        exact ih (2 * p + 2) _ (by omega) hs
    · rw [adjust_heap_down, dif_neg hc]
      exact ⟨hP, rfl, by show n ≤ 2 * p + 2; omega⟩

/-! ## Heap order -/

theorem heapOn_mono [LT α] {S T : Nat → Prop} (hST : ∀ x, T x → S x) {a : Nat → α} {n : Nat}
    (hS : HeapOn S a n) : HeapOn T a n :=
  fun c hc0 hcn hT => hS c hc0 hcn (hST _ hT)

theorem isHeap_iff_heapOn [LT α] (a : Nat → α) (n : Nat) : IsHeap a n ↔ HeapOn (fun _ => True) a n := by
  constructor
  · intro hH c hc0 hcn _
    have hcases : c = 2 * ((c - 1) / 2) + 1 ∨ c = 2 * ((c - 1) / 2) + 2 := by omega
    have hp := hH ((c - 1) / 2) (by omega)
    rcases hcases with e | e
    · have := hp.1 (by omega)
      rwa [← e] at this
    · have := hp.2 (by omega)
      rwa [← e] at this
  · intro hH i _
    constructor
    · intro hc
      have := hH (2 * i + 1) (by omega) hc trivial
      have e : (2 * i + 1 - 1) / 2 = i := by omega
      rwa [e] at this
    · intro hc
      have := hH (2 * i + 2) (by omega) hc trivial
      have e : (2 * i + 2 - 1) / 2 = i := by omega
      rwa [e] at this

section heap_order

variable [LT α] [IsStrictWeakOrder α (· < ·)]

theorem upInv_step (S : Nat → Prop) (n top : Nat) (v : α) (hS1 : ∀ x, Desc top x → S x)
    (a : Nat → α) (p : Nat) (hinv : UpInv S n top v a p) (hgt : p > top)
    (hlt : a ((p - 1) / 2) < v) :
    UpInv S n top v (Function.update a p (a ((p - 1) / 2))) ((p - 1) / 2) := by
  obtain ⟨hd, hpn, h1, h2, h3⟩ := hinv
  have hne : p ≠ top := by omega
  have hdq : Desc top ((p - 1) / 2) := hd.parent hne
  refine ⟨hdq, by omega, ?_, ?_, ?_⟩
  · intro c hc0 hcn hS hcq hpq
    have hcp : c ≠ p := by
      intro e
      subst e
      exact hpq rfl
    rw [Function.update_noteq hcp]
    by_cases hpp : (c - 1) / 2 = p
    · rw [hpp, Function.update_same]
      exact h3 hne c hc0 hcn hpp
    · rw [Function.update_noteq hpp]
      exact h1 c hc0 hcn hS hcp hpp
  · intro c hc0 hcn hcq
    by_cases hcp : c = p
    · subst hcp
      rw [Function.update_same]
      exact swo_asymm hlt
    · rw [Function.update_noteq hcp]
      have hpair := h1 c hc0 hcn (hcq ▸ hS1 _ hdq) hcp (by omega)
      rw [hcq] at hpair
      exact fun hv => hpair (swo_trans hlt hv)
  · intro hqt c hc0 hcn hcq
    have hq0 : 0 < (p - 1) / 2 := by
      have := hdq.le
      omega
    have hqq : ((p - 1) / 2 - 1) / 2 ≠ p := by omega
    rw [Function.update_noteq hqq]
    have hpar : ¬ a (((p - 1) / 2 - 1) / 2) < a ((p - 1) / 2) :=
      h1 _ hq0 (by omega) (hS1 _ (hdq.parent hqt)) (by omega) hqq
    by_cases hcp : c = p
    · subst hcp
      rw [Function.update_same]
      exact hpar
    · rw [Function.update_noteq hcp]
      have hpair := h1 c hc0 hcn (hcq ▸ hS1 _ hdq) hcp (by omega)
      rw [hcq] at hpair
      exact not_lt_trans hpar hpair

/-- Sift-up restores heap order: started in a state satisfying `UpInv`, `push_heap_aux`
leaves every pair whose parent is in `S` in heap order. -/
theorem push_heap_aux_heapOn [@DecidableRel α (· < ·)] (S : Nat → Prop) (n top : Nat) (v : α)
    (hS1 : ∀ x, Desc top x → S x) (hS2 : ∀ x, S x → top ≤ x)
    (a : Nat → α) (p : Nat) (hinv : UpInv S n top v a p) :
    HeapOn S (push_heap_aux a p top v) n := by
  obtain ⟨a1, p1, hP, hexit, heq⟩ :=
    push_heap_aux_rule top v (UpInv S n top v) (upInv_step S n top v hS1) p a hinv
  rw [heq]
  obtain ⟨hd, hpn, h1, h2, h3⟩ := hP
  intro c hc0 hcn hS
  by_cases hcp : c = p1
  · subst hcp
    have hpp : (c - 1) / 2 ≠ c := by omega
    rw [Function.update_same, Function.update_noteq hpp]
    intro hlt
    have htop := hS2 _ hS
    have hle := hd.le
    exact hexit ⟨by omega, hlt⟩
  · rw [Function.update_noteq hcp]
    by_cases hpp : (c - 1) / 2 = p1
    · rw [hpp, Function.update_same]
      exact h2 c hc0 hcn hpp
    · rw [Function.update_noteq hpp]
      exact h1 c hc0 hcn hS hcp hpp

/-- Storing into the hole `p` a child `c` of `p` that is not less than any child of `p`
puts every pair whose parent is in `S` in heap order. -/
theorem promote_heapOn (S : Nat → Prop) (n h : Nat)
    (hS1 : ∀ x, Desc h x → S x) (hS2 : ∀ x, S x → h ≤ x) (a : Nat → α) (p c : Nat)
    (hd : Desc h p)
    (hK : (p = h ∧ HeapOn (fun q => S q ∧ q ≠ h) a n) ∨ HeapOn S a n)
    (hc0 : 0 < c) (hcn : c < n) (hcp : (c - 1) / 2 = p)
    (hmax : ∀ d, 0 < d → d < n → (d - 1) / 2 = p → ¬ a c < a d) :
    HeapOn S (Function.update a p (a c)) n := by
  intro d hd0 hdn hSd
  by_cases hq : (d - 1) / 2 = p
  · have hdp : d ≠ p := by omega
    rw [hq, Function.update_same, Function.update_noteq hdp]
    exact hmax d hd0 hdn hq
  · rw [Function.update_noteq hq]
    by_cases hdp : d = p
    · subst hdp
      rw [Function.update_same]
      have hne : d ≠ h := by
        have := hS2 _ hSd
        omega
      rcases hK with ⟨e, _⟩ | hK
      · exact absurd e hne
      · have h1 := hK d hd0 hdn hSd
        have h2 := hK c hc0 hcn (hcp ▸ hS1 d hd)
        rw [hcp] at h2
        exact not_lt_trans h1 h2
    · rw [Function.update_noteq hdp]
      rcases hK with ⟨e, hK⟩ | hK
      · exact hK d hd0 hdn ⟨hSd, by rw [← e]; exact hq⟩
      · exact hK d hd0 hdn hSd

theorem downInv_step [@DecidableRel α (· < ·)] (S : Nat → Prop) (n h : Nat)
    (hS1 : ∀ x, Desc h x → S x) (hS2 : ∀ x, S x → h ≤ x) (a : Nat → α) (p : Nat)
    (hinv : DownInv S n h a p) (hr : 2 * p + 2 < n) :
    DownInv S n h
      (Function.update a p (a (if a (2 * p + 2) < a (2 * p + 1) then 2 * p + 1 else 2 * p + 2)))
      (if a (2 * p + 2) < a (2 * p + 1) then 2 * p + 1 else 2 * p + 2) := by
  obtain ⟨hd, hpn, hK⟩ := hinv
  by_cases hlt : a (2 * p + 2) < a (2 * p + 1)
  · rw [if_pos hlt]
    refine ⟨Desc.left hd, by omega, Or.inr ?_⟩
    refine promote_heapOn S n h hS1 hS2 a p (2 * p + 1) hd hK (by omega) (by omega) (by omega) ?_
    intro d hd0 hdn hdp
    have hcases : d = 2 * p + 1 ∨ d = 2 * p + 2 := by omega
    rcases hcases with e | e
    · rw [e]; exact swo_irrefl _
    · rw [e]; exact swo_asymm hlt
  · rw [if_neg hlt]
    refine ⟨Desc.right hd, by omega, Or.inr ?_⟩
    refine promote_heapOn S n h hS1 hS2 a p (2 * p + 2) hd hK (by omega) (by omega) (by omega) ?_
    intro d hd0 hdn hdp
    have hcases : d = 2 * p + 1 ∨ d = 2 * p + 2 := by omega
    rcases hcases with e | e
    · rw [e]; exact hlt
    · rw [e]; exact swo_irrefl _

/-- Sift-down lemma: if every pair whose parent is in `S` and is not `h` is in heap
order, then after `adjust_heap(first, h, n, v)` every pair whose parent is in `S` is.
`S` is any set of positions between the subtree of `h` and the positions from `h` on. -/
theorem adjust_heap_heapOn [@DecidableRel α (· < ·)] (S : Nat → Prop) (n h : Nat) (v : α)
    (hS1 : ∀ x, Desc h x → S x) (hS2 : ∀ x, S x → h ≤ x) (a : Nat → α) (hh : h < n)
    (pre : HeapOn (fun q => S q ∧ q ≠ h) a n) :
    HeapOn S (adjust_heap a h n v) n := by
  have hdown := adjust_heap_down_rule n (DownInv S n h) (downInv_step S n h hS1 hS2) n h a
    (by omega) ⟨Desc.root, hh, Or.inl ⟨rfl, pre⟩⟩
  unfold adjust_heap
  dsimp only
  generalize adjust_heap_down a h (2 * h + 2) n = s at hdown ⊢
  obtain ⟨a1, p1, r1⟩ := s
  dsimp only at hdown ⊢
  obtain ⟨⟨hd, hpn, hK⟩, hr, hnr⟩ := hdown
  by_cases hrn : r1 = n
  · rw [if_pos hrn]
    have e1 : r1 - 1 = 2 * p1 + 1 := by omega
    rw [e1]
    have hheap : HeapOn S (Function.update a1 p1 (a1 (2 * p1 + 1))) n := by
      refine promote_heapOn S n h hS1 hS2 a1 p1 (2 * p1 + 1) hd hK (by omega) (by omega)
        (by omega) ?_
      intro d hd0 hdn hdp
      have e : d = 2 * p1 + 1 := by omega
      rw [e]; exact swo_irrefl _
    apply push_heap_aux_heapOn S n h v hS1 hS2
    refine ⟨Desc.left hd, by omega, ?_, ?_, ?_⟩
    · intro c hc0 hcn hS _ _
      exact hheap c hc0 hcn hS
    · intro c hc0 hcn hcp
      omega
    · intro _ c hc0 hcn hcp
      omega
  · rw [if_neg hrn]
    have hheap : HeapOn S a1 n := by
      rcases hK with ⟨e, hK⟩ | hK
      · intro c hc0 hcn hS
        exact hK c hc0 hcn ⟨hS, by omega⟩
      · exact hK
    apply push_heap_aux_heapOn S n h v hS1 hS2
    refine ⟨hd, hpn, ?_, ?_, ?_⟩
    · intro c hc0 hcn hS _ _
      exact hheap c hc0 hcn hS
    · intro c hc0 hcn hcp
      omega
    · intro _ c hc0 hcn hcp
      omega

/-- The root of a heap is not less than any element of the heap. -/
theorem isHeap_root_max (a : Nat → α) (n : Nat) (hH : IsHeap a n) :
    ∀ i, i < n → ¬ a 0 < a i := by
  rw [isHeap_iff_heapOn] at hH
  intro i
  induction i using Nat.strong_induction_on with
  | _ i ih =>
    intro hi
    rcases Nat.eq_zero_or_pos i with h0 | hpos
    · subst h0
      exact swo_irrefl _
    · exact not_lt_trans (ih ((i - 1) / 2) (by omega) (by omega)) (hH i hpos hi trivial)

/-- The loop of `make_heap_aux`: counting `holeIndex` down to `0` extends heap order from
the pairs above `holeIndex` to all pairs. -/
theorem make_heap_loop_heapOn [@DecidableRel α (· < ·)] (n : Nat) :
    ∀ h (a : Nat → α), h < n → HeapOn (fun q => h + 1 ≤ q) a n →
      HeapOn (fun _ => True) (make_heap_loop a n h) n := by
  intro h
  induction h with
  | zero =>
    intro a hn pre
    rw [make_heap_loop, dif_pos rfl]
    have := adjust_heap_heapOn (fun q => 0 ≤ q) n 0 (a 0) (fun _ _ => Nat.zero_le _)
      (fun _ hx => hx) a hn (heapOn_mono (fun x hx => by omega) pre)
    exact heapOn_mono (fun _ _ => Nat.zero_le _) this
  | succ h ih =>
    intro a hn pre
    rw [make_heap_loop, dif_neg (Nat.succ_ne_zero h)]
    have hstep := adjust_heap_heapOn (fun q => h + 1 ≤ q) n (h + 1) (a (h + 1))
      (fun _ hx => hx.le) (fun _ hx => hx) a hn (heapOn_mono (fun x hx => by omega) pre)
    exact ih _ (by omega) hstep

theorem make_heap_isHeap [@DecidableRel α (· < ·)] (a : Nat → α) (n : Nat) :
    IsHeap (make_heap a n) n := by
  rw [isHeap_iff_heapOn]
  unfold make_heap make_heap_aux
  by_cases hn : n < 2
  · rw [if_pos hn]
    intro c hc0 hcn _
    omega
  · rw [if_neg hn]
    apply make_heap_loop_heapOn n _ a (by omega)
    intro c hc0 hcn hq
    omega

end heap_order

/-! ## Rearrangements -/

theorem PermOn.refl (n : Nat) (a : Nat → α) : PermOn n a a :=
  ⟨Equiv.refl Nat, fun _ _ => rfl, fun _ => rfl⟩

theorem PermOn.trans {n : Nat} {a b c : Nat → α} (h1 : PermOn n a b) (h2 : PermOn n b c) :
    PermOn n a c := by
  obtain ⟨σ, hσ, hb⟩ := h1
  obtain ⟨τ, hτ, hc⟩ := h2
  refine ⟨τ.trans σ, ?_, ?_⟩
  · intro i hi
    rw [Equiv.trans_apply, hτ i hi, hσ i hi]
  · intro i
    rw [Equiv.trans_apply, hc, hb]

theorem PermOn.mono {n m : Nat} {a b : Nat → α} (hnm : n ≤ m) (h : PermOn n a b) :
    PermOn m a b := by
  obtain ⟨σ, hσ, hb⟩ := h
  exact ⟨σ, fun i hi => hσ i (by omega), hb⟩

theorem PermOn.frame {n : Nat} {a b : Nat → α} (h : PermOn n a b) {i : Nat} (hi : n ≤ i) :
    b i = a i := by
  obtain ⟨σ, hσ, hb⟩ := h
  rw [hb, hσ i hi]

theorem PermOn.exists_lt {n : Nat} {a b : Nat → α} (h : PermOn n a b) {i : Nat} (hi : i < n) :
    ∃ j, j < n ∧ b i = a j := by
  obtain ⟨σ, hσ, hb⟩ := h
  refine ⟨σ i, ?_, hb i⟩
  by_contra hc
  have h1 := hσ (σ i) (by omega)
  have h2 := σ.injective h1
  omega

theorem permOn_swap (n : Nat) (a : Nat → α) {i j : Nat} (hi : i < n) (hj : j < n) :
    PermOn n a (fun k => a (Equiv.swap i j k)) := by
  refine ⟨Equiv.swap i j, ?_, fun _ => rfl⟩
  intro k hk
  exact Equiv.swap_apply_of_ne_of_ne (by omega) (by omega)

theorem PermOn.of_eq {n : Nat} {a b c : Nat → α} (h : PermOn n a b) (e : ∀ i, c i = b i) :
    PermOn n a c := by
  obtain ⟨σ, hσ, hb⟩ := h
  exact ⟨σ, hσ, fun i => by rw [e, hb]⟩

/-- Moving the hole from `p` to `q`: the storage with the value put into the hole changes
by exchanging the cells `p` and `q`. -/
theorem update_update_swap (a : Nat → α) (p q : Nat) (v : α) (k : Nat) :
    Function.update (Function.update a p (a q)) q v k =
      Function.update a p v (Equiv.swap p q k) := by
  by_cases hkq : k = q
  · subst hkq
    rw [Equiv.swap_apply_right, Function.update_same, Function.update_same]
  · rw [Function.update_noteq hkq]
    by_cases hkp : k = p
    · subst hkp
      rw [Equiv.swap_apply_left, Function.update_same]
      by_cases hqk : q = k
      · exact absurd hqk.symm hkq
      · rw [Function.update_noteq hqk]
    · rw [Equiv.swap_apply_of_ne_of_ne hkp hkq, Function.update_noteq hkp,
        Function.update_noteq hkp]

theorem permOn_move_hole (n : Nat) (a0 a : Nat → α) (p q : Nat) (v : α) (hp : p < n)
    (hq : q < n) (h : PermOn n a0 (Function.update a p v)) :
    PermOn n a0 (Function.update (Function.update a p (a q)) q v) :=
  (h.trans (permOn_swap n _ hp hq)).of_eq (update_update_swap a p q v)

theorem view_succ (a : Nat → α) (n : Nat) : view a (n + 1) = view a n ++ [a n] := by
  unfold view
  rw [List.range_succ, List.map_append, List.map_singleton]

theorem mem_view {a : Nat → α} {n : Nat} {x : α} : x ∈ view a n ↔ ∃ i, i < n ∧ a i = x := by
  unfold view
  rw [List.mem_map]
  constructor
  · rintro ⟨i, hi, e⟩
    exact ⟨i, List.mem_range.1 hi, e⟩
  · rintro ⟨i, hi, e⟩
    exact ⟨i, List.mem_range.2 hi, e⟩

theorem PermOn.view_perm {n : Nat} {a b : Nat → α} (h : PermOn n a b) :
    (view b n).Perm (view a n) := by
  obtain ⟨σ, hσ, hb⟩ := h
  have e : view b n = ((List.range n).map σ).map a := by
    unfold view
    rw [List.map_map]
    exact List.map_congr_left (fun i _ => hb i)
  rw [e]
  unfold view
  apply List.Perm.map
  apply (List.perm_ext_iff_of_nodup ((List.nodup_range n).map σ.injective)
    (List.nodup_range n)).2
  intro x
  rw [List.mem_map, List.mem_range]
  constructor
  · rintro ⟨i, hi, rfl⟩
    rw [List.mem_range] at hi
    by_contra hc
    have h1 := hσ (σ i) (by omega)
    have h2 := σ.injective h1
    omega
  · intro hx
    refine ⟨σ.symm x, ?_, Equiv.apply_symm_apply σ x⟩
    rw [List.mem_range]
    by_contra hc
    have h1 := hσ (σ.symm x) (by omega)
    rw [Equiv.apply_symm_apply] at h1
    omega

/-- Sift-up rearranges: the result of `push_heap_aux` is the storage with `value` put into
the hole, up to a rearrangement of `[0, n)`. -/
theorem push_heap_aux_permOn [LT α] [@DecidableRel α (· < ·)] (n top : Nat) (v : α)
    (a0 a : Nat → α) (p : Nat) (hp : p < n) (h : PermOn n a0 (Function.update a p v)) :
    PermOn n a0 (push_heap_aux a p top v) := by
  obtain ⟨a1, p1, hP, _, heq⟩ := push_heap_aux_rule top v
    (fun a1 p1 => p1 < n ∧ PermOn n a0 (Function.update a1 p1 v))
    (fun a1 p1 hP _ _ => ⟨by omega, permOn_move_hole n a0 a1 p1 _ v hP.1 (by omega) hP.2⟩)
    p a ⟨hp, h⟩
  rw [heq]
  exact hP.2

/-- `adjust_heap(first, h, n, v)` rearranges: its result is the storage with `v` stored at
`h`, up to a rearrangement of `[0, n)`. -/
theorem adjust_heap_permOn [LT α] [@DecidableRel α (· < ·)] (n h : Nat) (v : α)
    (a : Nat → α) (hh : h < n) :
    PermOn n (Function.update a h v) (adjust_heap a h n v) := by
  have hdown := adjust_heap_down_rule n
    (fun a1 p1 => p1 < n ∧ PermOn n (Function.update a h v) (Function.update a1 p1 v))
    (fun a1 p1 hP hr => by
      by_cases hlt : a1 (2 * p1 + 2) < a1 (2 * p1 + 1)
      · rw [if_pos hlt]
        exact ⟨by omega, permOn_move_hole n _ a1 p1 _ v hP.1 (by omega) hP.2⟩
      · rw [if_neg hlt]
        exact ⟨by omega, permOn_move_hole n _ a1 p1 _ v hP.1 (by omega) hP.2⟩)
    n h a (by omega) ⟨hh, PermOn.refl _ _⟩
  unfold adjust_heap
  dsimp only
  generalize adjust_heap_down a h (2 * h + 2) n = s at hdown ⊢
  obtain ⟨a1, p1, r1⟩ := s
  dsimp only at hdown ⊢
  obtain ⟨⟨hpn, hperm⟩, hr, hnr⟩ := hdown
  by_cases hrn : r1 = n
  · rw [if_pos hrn]
    exact push_heap_aux_permOn n h v _ _ _ (by omega)
      (permOn_move_hole n _ a1 p1 _ v hpn (by omega) hperm)
  · rw [if_neg hrn]
    exact push_heap_aux_permOn n h v _ _ _ hpn hperm

/-! ## push_heap, pop_heap, make_heap, sort_heap -/

section heap_ops

variable [LT α] [@DecidableRel α (· < ·)]

theorem adjust_heap_zero_zero (a : Nat → α) (v : α) :
    adjust_heap a 0 0 v = Function.update a 0 v := by
  unfold adjust_heap
  dsimp only
  rw [adjust_heap_down, dif_neg (by omega)]
  dsimp only
  rw [if_neg (by omega), push_heap_aux, dif_neg (by omega)]

theorem pop_heap_one (a : Nat → α) : pop_heap a 1 = a := by
  unfold pop_heap pop_heap_aux
  rw [adjust_heap_zero_zero, Function.update_eq_self, Function.update_eq_self]

/-- `pop_heap` on a range of length at least two: the sift-down runs on the storage in
which the root has been copied to the last cell. -/
theorem pop_heap_permOn_tail (a : Nat → α) (n : Nat) (hn : 2 ≤ n) :
    PermOn (n - 1)
      (Function.update (Function.update a (n - 1) (a 0)) 0 (a (n - 1))) (pop_heap a n) := by
  unfold pop_heap pop_heap_aux
  exact adjust_heap_permOn (n - 1) 0 (a (n - 1)) _ (by omega)

theorem pop_heap_permOn (a : Nat → α) (n : Nat) (hn : 0 < n) : PermOn n a (pop_heap a n) := by
  by_cases h1 : n = 1
  · subst h1
    rw [pop_heap_one]
    exact PermOn.refl _ _
  · have hswap : PermOn n a
        (Function.update (Function.update a (n - 1) (a 0)) 0 (a (n - 1))) := by
      apply permOn_move_hole n a a (n - 1) 0 (a (n - 1)) (by omega) (by omega)
      rw [Function.update_eq_self]
      exact PermOn.refl _ _
    exact hswap.trans ((pop_heap_permOn_tail a n (by omega)).mono (by omega))

theorem make_heap_loop_permOn (n : Nat) :
    ∀ h (a : Nat → α), h < n → PermOn n a (make_heap_loop a n h) := by
  intro h
  induction h with
  | zero =>
    intro a hn
    rw [make_heap_loop, dif_pos rfl]
    have := adjust_heap_permOn n 0 (a 0) a hn
    rwa [Function.update_eq_self] at this
  | succ h ih =>
    intro a hn
    rw [make_heap_loop, dif_neg (Nat.succ_ne_zero h)]
    have hstep := adjust_heap_permOn n (h + 1) (a (h + 1)) a hn
    rw [Function.update_eq_self] at hstep
    exact hstep.trans (ih _ (by omega))

theorem make_heap_permOn (a : Nat → α) (n : Nat) : PermOn n a (make_heap a n) := by
  unfold make_heap make_heap_aux
  by_cases hn : n < 2
  · rw [if_pos hn]
    exact PermOn.refl _ _
  · rw [if_neg hn]
    exact make_heap_loop_permOn n _ a (by omega)

variable [IsStrictWeakOrder α (· < ·)]

theorem push_heap_isHeap (a : Nat → α) (n : Nat) (hH : IsHeap a n) :
    IsHeap (push_heap a (n + 1)) (n + 1) := by
  rw [isHeap_iff_heapOn] at hH ⊢
  unfold push_heap push_heap_d
  rw [Nat.add_sub_cancel]
  apply push_heap_aux_heapOn (fun _ => True) (n + 1) 0 (a n) (fun _ _ => trivial)
    (fun _ _ => Nat.zero_le _)
  refine ⟨desc_zero n, by omega, ?_, ?_, ?_⟩
  · intro c hc0 hcn _ hcne _
    exact hH c hc0 (by omega) trivial
  · intro c hc0 hcn hcp
    omega
  · intro _ c hc0 hcn hcp
    omega

/-- What `pop_heap` does to a heap of length `n ≥ 1`. -/
theorem pop_heap_spec (a : Nat → α) (n : Nat) (hn : 0 < n) (hH : IsHeap a n) :
    IsHeap (pop_heap a n) (n - 1) ∧ pop_heap a n (n - 1) = a 0 ∧
      ∀ i, i < n - 1 → ¬ a 0 < pop_heap a n i := by
  by_cases h1 : n = 1
  · subst h1
    rw [pop_heap_one]
    refine ⟨?_, rfl, ?_⟩
    · intro i hi
      omega
    · intro i hi
      omega
  · have hperm := pop_heap_permOn_tail a n (by omega)
    have hroot := isHeap_root_max a n hH
    refine ⟨?_, ?_, ?_⟩
    · rw [isHeap_iff_heapOn] at hH ⊢
      unfold pop_heap pop_heap_aux
      apply adjust_heap_heapOn (fun _ => True) (n - 1) 0 (a (n - 1)) (fun _ _ => trivial)
        (fun _ _ => Nat.zero_le _) _ (by omega)
      intro c hc0 hcn _
      have e1 : c ≠ n - 1 := by omega
      have e2 : (c - 1) / 2 ≠ n - 1 := by omega
      rw [Function.update_noteq e1, Function.update_noteq e2]
      exact hH c hc0 (by omega) trivial
    · rw [hperm.frame (Nat.le_refl _)]
      have e1 : n - 1 ≠ 0 := by omega
      rw [Function.update_noteq e1, Function.update_same]
    · intro i hi
      obtain ⟨j, hj, e⟩ := hperm.exists_lt hi
      rw [e]
      by_cases hj0 : j = 0
      · subst hj0
        rw [Function.update_same]
        exact hroot (n - 1) (by omega)
      · have e1 : j ≠ n - 1 := by omega
        rw [Function.update_noteq hj0, Function.update_noteq e1]
        exact hroot j (by omega)

/-- The loop of `sort_heap`, started on a heap of length `m` below a sorted suffix that
dominates it, leaves `[0, n)` in ascending order and only rearranges `[0, m)`. -/
theorem sort_heap_spec (n : Nat) :
    ∀ m (a : Nat → α), m ≤ n → IsHeap a m →
      (∀ i j, m ≤ i → i < j → j < n → ¬ a j < a i) →
      (∀ i j, i < m → m ≤ j → j < n → ¬ a j < a i) →
      (∀ i j, i < j → j < n → ¬ sort_heap a m j < sort_heap a m i) ∧
        PermOn m a (sort_heap a m) := by
  intro m
  induction m with
  | zero =>
    intro a _ _ hsuf _
    rw [sort_heap, dif_neg (by omega)]
    exact ⟨fun i j hij hj => hsuf i j (Nat.zero_le _) hij hj, PermOn.refl _ _⟩
  | succ m ih =>
    intro a hmn hH hsuf hcross
    by_cases hm : m + 1 > 1
    · rw [sort_heap, dif_pos hm, Nat.add_sub_cancel]
      obtain ⟨hheap, hlast, hmax⟩ := pop_heap_spec a (m + 1) (by omega) hH
      rw [Nat.add_sub_cancel] at hheap hlast hmax
      have hperm := pop_heap_permOn a (m + 1) (by omega)
      have hres := ih (pop_heap a (m + 1)) (by omega) hheap ?_ ?_
      · exact ⟨hres.1, hperm.trans (hres.2.mono (by omega))⟩
      · intro i j hi hij hj
        rw [hperm.frame (by omega : m + 1 ≤ j)]
        by_cases him : i = m
        · subst him
          rw [hlast]
          exact hcross 0 j (by omega) (by omega) hj
        · rw [hperm.frame (by omega : m + 1 ≤ i)]
          exact hsuf i j (by omega) hij hj
      · intro i j hi hmj hj
        by_cases hjm : j = m
        · subst hjm
          rw [hlast]
          exact hmax i hi
        · rw [hperm.frame (by omega : m + 1 ≤ j)]
          obtain ⟨k, hk, e⟩ := hperm.exists_lt (by omega : i < m + 1)
          rw [e]
          exact hcross k j hk (by omega) hj
    · rw [sort_heap, dif_neg hm]
      refine ⟨?_, PermOn.refl _ _⟩
      intro i j hij hj
      by_cases hi : i < m + 1
      · exact hcross i j hi (by omega) hj
      · exact hsuf i j (by omega) hij hj

theorem make_heap_sort_heap_spec (a : Nat → α) (n : Nat) :
    (∀ i j, i < j → j < n →
      ¬ sort_heap (make_heap a n) n j < sort_heap (make_heap a n) n i) ∧
      PermOn n a (sort_heap (make_heap a n) n) := by
  have h := sort_heap_spec n n (make_heap a n) (Nat.le_refl _) (make_heap_isHeap a n)
    (fun i j hi hij hj => by omega) (fun i j hi hj hjn => by omega)
  exact ⟨h.1, (make_heap_permOn a n).trans h.2⟩

theorem pop_collect_spec :
    ∀ n (a : Nat → α), IsHeap a n →
      (pop_collect a n).Pairwise (fun x y => ¬ x < y) ∧ (pop_collect a n).Perm (view a n) := by
  intro n
  induction n with
  | zero =>
    intro a _
    exact ⟨List.Pairwise.nil, List.Perm.refl _⟩
  | succ n ih =>
    intro a hH
    obtain ⟨hheap, hlast, hmax⟩ := pop_heap_spec a (n + 1) (by omega) hH
    rw [Nat.add_sub_cancel] at hheap hlast hmax
    obtain ⟨hpw, hpm⟩ := ih (pop_heap a (n + 1)) hheap
    have hperm := (pop_heap_permOn a (n + 1) (by omega)).view_perm
    show ((pop_heap a (n + 1)) n :: pop_collect (pop_heap a (n + 1)) n).Pairwise _ ∧
      ((pop_heap a (n + 1)) n :: pop_collect (pop_heap a (n + 1)) n).Perm _
    constructor
    · refine List.Pairwise.cons ?_ hpw
      intro y hy
      obtain ⟨i, hi, e⟩ := mem_view.1 (hpm.mem_iff.1 hy)
      rw [← e, hlast]
      exact hmax i hi
    · refine List.Perm.trans ?_ hperm
      rw [view_succ]
      exact (List.Perm.cons _ hpm).trans (List.perm_append_singleton _ _).symm

end heap_ops

/-! ## The overloads with a predicate -/

section comp_overloads

variable [LT α] [@DecidableRel α (· < ·)]

theorem push_heap_aux_comp_eq (top : Nat) (v : α) :
    ∀ p (a : Nat → α),
      push_heap_aux_comp (fun x y => decide (x < y)) a p top v = push_heap_aux a p top v := by
  intro p
  induction p using Nat.strong_induction_on with
  | _ p ih =>
    intro a
    rw [push_heap_aux_comp, push_heap_aux]
    by_cases hc : p > top ∧ a ((p - 1) / 2) < v
    · have hc2 : p > top ∧ decide (a ((p - 1) / 2) < v) = true := ⟨hc.1, decide_eq_true hc.2⟩
      rw [dif_pos hc, dif_pos hc2]
      exact ih _ (by omega) _
    · have hc2 : ¬ (p > top ∧ decide (a ((p - 1) / 2) < v) = true) :=
        fun h => hc ⟨h.1, of_decide_eq_true h.2⟩
      rw [dif_neg hc, dif_neg hc2]

theorem adjust_heap_down_comp_eq (n : Nat) :
    ∀ k r p (a : Nat → α), n - r ≤ k →
      adjust_heap_down_comp (fun x y => decide (x < y)) a p r n = adjust_heap_down a p r n := by
  intro k
  induction k with
  | zero =>
    intro r p a hk
    have hc : ¬ r < n := by omega
    rw [adjust_heap_down_comp, adjust_heap_down, dif_neg hc, dif_neg hc]
  | succ k ih =>
    intro r p a hk
    by_cases hc : r < n
    · rw [adjust_heap_down_comp, adjust_heap_down, dif_pos hc, dif_pos hc]
      dsimp only
      by_cases hlt : a r < a (r - 1)
      · rw [if_pos hlt, if_pos (decide_eq_true hlt)]
        exact ih _ _ _ (by omega)
      · have hlt2 : ¬ decide (a r < a (r - 1)) = true := fun h => hlt (of_decide_eq_true h)
        rw [if_neg hlt, if_neg hlt2]
        exact ih _ _ _ (by omega)
    · rw [adjust_heap_down_comp, adjust_heap_down, dif_neg hc, dif_neg hc]

theorem adjust_heap_comp_eq (a : Nat → α) (h n : Nat) (v : α) :
    adjust_heap_comp (fun x y => decide (x < y)) a h n v = adjust_heap a h n v := by
  unfold adjust_heap_comp adjust_heap
  dsimp only
  rw [adjust_heap_down_comp_eq n n _ _ _ (by omega), push_heap_aux_comp_eq,
    push_heap_aux_comp_eq]

theorem push_heap_comp_eq (a : Nat → α) (n : Nat) :
    push_heap_comp (fun x y => decide (x < y)) a n = push_heap a n := by
  unfold push_heap_comp push_heap_d_comp push_heap push_heap_d
  exact push_heap_aux_comp_eq _ _ _ _

theorem pop_heap_comp_eq (a : Nat → α) (n : Nat) :
    pop_heap_comp (fun x y => decide (x < y)) a n = pop_heap a n := by
  unfold pop_heap_comp pop_heap_aux_comp pop_heap pop_heap_aux
  exact adjust_heap_comp_eq _ _ _ _

theorem make_heap_loop_comp_eq (n : Nat) :
    ∀ h (a : Nat → α),
      make_heap_loop_comp (fun x y => decide (x < y)) a n h = make_heap_loop a n h := by
  intro h
  induction h with
  | zero =>
    intro a
    rw [make_heap_loop_comp, make_heap_loop, dif_pos rfl, dif_pos rfl, adjust_heap_comp_eq]
  | succ h ih =>
    intro a
    rw [make_heap_loop_comp, make_heap_loop, dif_neg (Nat.succ_ne_zero h),
      dif_neg (Nat.succ_ne_zero h), adjust_heap_comp_eq]
    exact ih _

theorem make_heap_comp_eq (a : Nat → α) (n : Nat) :
    make_heap_comp (fun x y => decide (x < y)) a n = make_heap a n := by
  unfold make_heap_comp make_heap_aux_comp make_heap make_heap_aux
  rw [make_heap_loop_comp_eq]

theorem sort_heap_comp_eq :
    ∀ n (a : Nat → α), sort_heap_comp (fun x y => decide (x < y)) a n = sort_heap a n := by
  intro n
  induction n with
  | zero =>
    intro a
    rw [sort_heap_comp, sort_heap, dif_neg (by omega), dif_neg (by omega)]
  | succ n ih =>
    intro a
    by_cases hc : n + 1 > 1
    · rw [sort_heap_comp, sort_heap, dif_pos hc, dif_pos hc, Nat.add_sub_cancel]
      unfold mystl_pop_heap
      rw [pop_heap_comp_eq]
      exact ih _
    · rw [sort_heap_comp, sort_heap, dif_neg hc, dif_neg hc]

end comp_overloads

/-! ## Sorted views -/

theorem view_sorted_of_index [LinearOrder α] (s : Nat → α) (n : Nat)
    (h : ∀ i j, i < j → j < n → ¬ s j < s i) : (view s n).Sorted (· ≤ ·) := by
  unfold view List.Sorted
  rw [List.pairwise_map]
  exact (List.pairwise_lt_range n).imp_of_mem
    (fun {i j} _ hj hij => not_lt.1 (h i j hij (List.mem_range.1 hj)))

/-! ## The claims on the heap algorithms -/

/-- C1: for every array of any length `n` over a strict weak order, after `make_heap` the
max-heap invariant holds: for every index `i` and every child `c` in `{2i+1, 2i+2}` with
`c < n`, the element at `i` is not less than the element at `c`. -/
theorem make_heap_heap_invariant [LT α] [@DecidableRel α (· < ·)] [IsStrictWeakOrder α (· < ·)]
    (a : Nat → α) (n i c : Nat) (hc : c < n) (hchild : c = 2 * i + 1 ∨ c = 2 * i + 2) :
    ¬ make_heap a n i < make_heap a n c := by
  have hH := make_heap_isHeap a n i (by omega)
  rcases hchild with e | e
  · subst e
    exact hH.1 hc
  · subst e
    exact hH.2 hc

theorem make_heap_heap_invariant_witness :
    (1 < 3 ∧ (1 = 2 * 0 + 1 ∨ 1 = 2 * 0 + 2)) ∧
      ¬ make_heap (ofList [1, 2, 3] 0) 3 0 < make_heap (ofList [1, 2, 3] 0) 3 1 :=
  ⟨⟨by decide, by decide⟩,
    make_heap_heap_invariant (ofList [1, 2, 3] 0) 3 0 1 (by decide) (by decide)⟩

/-- C2: over a linear order, `make_heap` followed by `sort_heap` leaves the range sorted in
ascending order and a rearrangement of the original contents; on a rearrangement of
`0, ..., n-1` the result is exactly `0, 1, ..., n-1`. -/
theorem make_heap_sort_heap_sorted [LinearOrder α] (a : Nat → α) (n : Nat) :
    (view (sort_heap (make_heap a n) n) n).Sorted (· ≤ ·) ∧
      (view (sort_heap (make_heap a n) n) n).Perm (view a n) ∧
      ∀ b : Nat → Nat, (view b n).Perm (List.range n) →
        view (sort_heap (make_heap b n) n) n = List.range n := by
  refine ⟨?_, ?_, ?_⟩
  · exact view_sorted_of_index _ n (make_heap_sort_heap_spec a n).1
  · exact (make_heap_sort_heap_spec a n).2.view_perm
  · intro b hb
    exact List.eq_of_perm_of_sorted ((make_heap_sort_heap_spec b n).2.view_perm.trans hb)
      (view_sorted_of_index _ n (make_heap_sort_heap_spec b n).1) (List.sorted_le_range n)

theorem make_heap_sort_heap_sorted_witness :
    (view (ofList [2, 0, 3, 1] 0) 4).Perm (List.range 4) ∧
      view (sort_heap (make_heap (ofList [2, 0, 3, 1] 0) 4) 4) 4 = List.range 4 :=
  ⟨by decide,
    (make_heap_sort_heap_sorted (ofList [2, 0, 3, 1] 0) 4).2.2 (ofList [2, 0, 3, 1] 0)
      (by decide)⟩

/-- C3: `push_heap` preserves the heap state: if the first `n` elements of a range of length
`n + 1` satisfy the max-heap invariant, whatever the last element is, then after
`push_heap(first, first + n + 1)` all `n + 1` elements satisfy it. -/
theorem push_heap_preserves_heap [LT α] [@DecidableRel α (· < ·)] [IsStrictWeakOrder α (· < ·)]
    (a : Nat → α) (n : Nat) (hH : IsHeap a n) : IsHeap (push_heap a (n + 1)) (n + 1) :=
  push_heap_isHeap a n hH

theorem push_heap_preserves_heap_witness :
    IsHeap (ofList [5, 3, 4, 9] 0) 3 ∧ IsHeap (push_heap (ofList [5, 3, 4, 9] 0) 4) 4 :=
  ⟨by decide, push_heap_preserves_heap (ofList [5, 3, 4, 9] 0) 3 (by decide)⟩

/-- C4: on a non-empty range of length `n` that satisfies the max-heap invariant, after
`pop_heap(first, first + n)` the range of the first `n - 1` elements satisfies the
invariant, the element at index `n - 1` is the element that was at index `0`, and no element
before it is greater than it. -/
theorem pop_heap_postcondition [LT α] [@DecidableRel α (· < ·)] [IsStrictWeakOrder α (· < ·)]
    (a : Nat → α) (n : Nat) (hn : 0 < n) (hH : IsHeap a n) :
    IsHeap (pop_heap a n) (n - 1) ∧ pop_heap a n (n - 1) = a 0 ∧
      ∀ i, i < n - 1 → ¬ pop_heap a n (n - 1) < pop_heap a n i := by
  obtain ⟨h1, h2, h3⟩ := pop_heap_spec a n hn hH
  refine ⟨h1, h2, ?_⟩
  intro i hi
  rw [h2]
  exact h3 i hi

theorem pop_heap_postcondition_witness :
    (0 < 3 ∧ IsHeap (ofList [5, 3, 4] 0) 3) ∧
      (IsHeap (pop_heap (ofList [5, 3, 4] 0) 3) (3 - 1) ∧
        pop_heap (ofList [5, 3, 4] 0) 3 (3 - 1) = ofList [5, 3, 4] 0 0 ∧
        ∀ i, i < 3 - 1 →
          ¬ pop_heap (ofList [5, 3, 4] 0) 3 (3 - 1) < pop_heap (ofList [5, 3, 4] 0) 3 i) :=
  ⟨⟨by decide, by decide⟩,
    pop_heap_postcondition (ofList [5, 3, 4] 0) 3 (by decide) (by decide)⟩

/-- C5: on a valid max-heap of length `n`, applying `pop_heap` to the ranges of length
`n, n-1, ..., 1` in turn and collecting the element each call leaves at the end of its range
yields the elements of the heap in descending order: the collected list is a rearrangement
of the heap and none of its elements is less than a later one. -/
theorem pop_heap_repeated_descending [LT α] [@DecidableRel α (· < ·)]
    [IsStrictWeakOrder α (· < ·)] (a : Nat → α) (n : Nat) (hH : IsHeap a n) :
    (pop_collect a n).Pairwise (fun x y => ¬ x < y) ∧ (pop_collect a n).Perm (view a n) :=
  pop_collect_spec n a hH

theorem pop_heap_repeated_descending_witness :
    IsHeap (ofList [5, 3, 4] 0) 3 ∧
      ((pop_collect (ofList [5, 3, 4] 0) 3).Pairwise (fun x y => ¬ x < y) ∧
        (pop_collect (ofList [5, 3, 4] 0) 3).Perm (view (ofList [5, 3, 4] 0) 3)) :=
  ⟨by decide, pop_heap_repeated_descending (ofList [5, 3, 4] 0) 3 (by decide)⟩

/-- C6: for each of `push_heap`, `pop_heap`, `make_heap` and `sort_heap`, the overload
taking an ordering predicate, called with `comp(x, y) := x < y`, leaves exactly the same
storage as the overload without a predicate, on every input. -/
theorem predicate_overloads_agree [LT α] [@DecidableRel α (· < ·)] (a : Nat → α) (n : Nat) :
    push_heap_comp (fun x y => decide (x < y)) a n = push_heap a n ∧
      pop_heap_comp (fun x y => decide (x < y)) a n = pop_heap a n ∧
      make_heap_comp (fun x y => decide (x < y)) a n = make_heap a n ∧
      sort_heap_comp (fun x y => decide (x < y)) a n = sort_heap a n :=
  ⟨push_heap_comp_eq a n, pop_heap_comp_eq a n, make_heap_comp_eq a n, sort_heap_comp_eq n a⟩

/-! ## copy and equal -/

theorem copy_loop_snd :
    ∀ n (m : Nat → α) (first result : Nat),
      (unchecked_copy_cat_random_access_loop n m first result).2 = result + n := by
  intro n
  induction n with
  | zero => intro m first result; rfl
  | succ n ih =>
    intro m first result
    rw [unchecked_copy_cat_random_access_loop, ih]
    omega

/-- The element-wise loop writes no cell outside `[result, result + n)`. -/
theorem copy_loop_frame :
    ∀ n (m : Nat → α) (first result j : Nat), ¬ (result ≤ j ∧ j < result + n) →
      (unchecked_copy_cat_random_access_loop n m first result).1 j = m j := by
  intro n
  induction n with
  | zero => intro m first result j _; rfl
  | succ n ih =>
    intro m first result j hj
    rw [unchecked_copy_cat_random_access_loop, ih _ _ _ _ (by omega)]
    exact Function.update_noteq (by omega) _ _

/-- The element-wise loop copies correctly when the destination starts at or before the
source, or lies behind it. -/
theorem copy_loop_values :
    ∀ n (m : Nat → α) (first result : Nat), (result ≤ first ∨ first + n ≤ result) →
      ∀ i, i < n → (unchecked_copy_cat_random_access_loop n m first result).1 (result + i) =
        m (first + i) := by
  intro n
  induction n with
  | zero => intro m first result _ i hi; omega
  | succ n ih =>
    intro m first result hpos i hi
    rw [unchecked_copy_cat_random_access_loop]
    rcases Nat.eq_zero_or_pos i with h0 | hpos_i
    · subst h0
      rw [copy_loop_frame _ _ _ _ _ (by omega)]
      exact Function.update_same _ _ _
    · have e1 : result + i = result + 1 + (i - 1) := by omega
      have e2 : first + i = first + 1 + (i - 1) := by omega
      rw [e1, e2, ih _ _ _ (by omega) (i - 1) (by omega)]
      exact Function.update_noteq (by omega) _ _

/-- On a valid range the `first != last` loop does what the counting loop does. -/
theorem copy_input_eq_loop :
    ∀ n fuel (m : Nat → α) (first result : Nat), n < fuel →
      unchecked_copy_cat_input fuel m first (first + n) result =
        some (unchecked_copy_cat_random_access_loop n m first result) := by
  intro n
  induction n with
  | zero =>
    intro fuel m first result hf
    obtain ⟨f, rfl⟩ : ∃ f, fuel = f + 1 := ⟨fuel - 1, by omega⟩
    rw [unchecked_copy_cat_input, if_neg (by omega)]
    rfl
  | succ n ih =>
    intro fuel m first result hf
    obtain ⟨f, rfl⟩ : ∃ f, fuel = f + 1 := ⟨fuel - 1, by omega⟩
    rw [unchecked_copy_cat_input, if_pos (by omega)]
    have e : first + (n + 1) = first + 1 + n := by omega
    rw [e, ih f _ _ _ (by omega)]
    rfl

theorem copy_random_access_eq_loop (m : Nat → α) (first result n : Nat) :
    unchecked_copy_cat_random_access m first (first + n) result =
      unchecked_copy_cat_random_access_loop n m first result := by
  unfold unchecked_copy_cat_random_access
  rw [Nat.add_sub_cancel_left]

/-- The counting loop performs the assignments in increasing order of the index. -/
theorem copy_loop_eq_assignments :
    ∀ n (m : Nat → α) (first result : Nat),
      (unchecked_copy_cat_random_access_loop n m first result).1 =
        copy_assignments m first result n := by
  intro n
  induction n with
  | zero => intro m first result; rfl
  | succ n ih =>
    intro m first result
    rw [unchecked_copy_cat_random_access_loop, ih]
    unfold copy_assignments
    rw [List.range_succ_eq_map, List.foldl_cons, List.foldl_map]
    have e : (fun (acc : Nat → α) i =>
        Function.update acc (result + 1 + i) (acc (first + 1 + i))) =
        (fun (acc : Nat → α) i =>
          Function.update acc (result + Nat.succ i) (acc (first + Nat.succ i))) := by
      funext acc i
      have e1 : result + 1 + i = result + Nat.succ i := by omega
      have e2 : first + 1 + i = first + Nat.succ i := by omega
      rw [e1, e2]
    rw [e]
    rfl

theorem copy_loop_eq_pair (n : Nat) (m : Nat → α) (first result : Nat) :
    unchecked_copy_cat_random_access_loop n m first result =
      (copy_assignments m first result n, result + n) :=
  Prod.ext (copy_loop_eq_assignments n m first result) (copy_loop_snd n m first result)

/-- Where the destination does not start strictly inside the source, the block transfer
and the counting loop leave the same storage and return the same position. -/
theorem copy_pointer_eq_loop (m : Nat → α) (first result n : Nat)
    (hpos : result ≤ first ∨ first + n ≤ result) :
    unchecked_copy_pointer m first (first + n) result =
      unchecked_copy_cat_random_access_loop n m first result := by
  unfold unchecked_copy_pointer
  dsimp only
  rw [Nat.add_sub_cancel_left]
  by_cases hn : n = 0
  · subst hn
    rw [if_neg (by omega)]
    rfl
  · rw [if_pos hn]
    refine Prod.ext ?_ (copy_loop_snd n m first result).symm
    funext j
    show memmove m result first n j = _
    unfold memmove
    by_cases hj : result ≤ j ∧ j < result + n
    · rw [if_pos hj]
      have e : j = result + (j - result) := by omega
      rw [e, copy_loop_values n m first result hpos (j - result) (by omega)]
      have e2 : result + (j - result) - result = j - result := by omega
      rw [e2]
    · rw [if_neg hj, copy_loop_frame n m first result j hj]

theorem equal_of_agree [DecidableEq α] :
    ∀ n fuel (m : Nat → α) (first1 first2 last2 : Nat), n < fuel →
      (∀ i, i < n → m (first1 + i) = m (first2 + i)) →
      equal fuel m first1 (first1 + n) first2 last2 = some true := by
  intro n
  induction n with
  | zero =>
    intro fuel m first1 first2 last2 hf _
    obtain ⟨f, rfl⟩ : ∃ f, fuel = f + 1 := ⟨fuel - 1, by omega⟩
    rw [equal, if_neg (by omega)]
  | succ n ih =>
    intro fuel m first1 first2 last2 hf hag
    obtain ⟨f, rfl⟩ : ∃ f, fuel = f + 1 := ⟨fuel - 1, by omega⟩
    have h0 : m first1 = m first2 := hag 0 (by omega)
    rw [equal, if_pos (by omega), if_neg (not_not.2 h0)]
    have e : first1 + (n + 1) = first1 + 1 + n := by omega
    rw [e]
    apply ih f m _ _ _ (by omega)
    intro i hi
    have := hag (i + 1) (by omega)
    have e1 : first1 + 1 + i = first1 + (i + 1) := by omega
    have e2 : first2 + 1 + i = first2 + (i + 1) := by omega
    rw [e1, e2]
    exact this

/-- On a valid range every overload of `copy` returns, given fuel above the length, and
the result is that of the counting loop where the destination does not start strictly
inside the source. -/
theorem copy_eq_loop (o : CopyOverload) (fuel : Nat) (m : Nat → α) (first result n : Nat)
    (hf : n < fuel) (hpos : result ≤ first ∨ first + n ≤ result) :
    copy o fuel m first (first + n) result =
      some (unchecked_copy_cat_random_access_loop n m first result) := by
  unfold copy unchecked_copy
  cases o with
  | cat_input => exact copy_input_eq_loop n fuel m first result hf
  | cat_random_access =>
    show some _ = some _
    rw [copy_random_access_eq_loop]
  | trivially_copy_assignable_pointer =>
    show some _ = some _
    rw [copy_pointer_eq_loop m first result n hpos]

/-! ## The claims on copy -/

/-- C7: for a source range of length `n` and a destination that does not overlap it, the
generic `copy`, in the input-iterator and in the random-access variant, returns
`result + n` and leaves the storage that the assignments `dst[i] = src[i]` made in
increasing order of `i` leave: there `dst[i] = src[i]` for every `i < n`, no position
outside `[result, result + n)` has changed, and the source is unchanged. -/
theorem copy_generic_disjoint (m : Nat → α) (first result n : Nat)
    (hdisj : result + n ≤ first ∨ first + n ≤ result) :
    (∀ fuel, n < fuel → copy CopyOverload.cat_input fuel m first (first + n) result =
        some (copy_assignments m first result n, result + n)) ∧
      (∀ fuel, copy CopyOverload.cat_random_access fuel m first (first + n) result =
        some (copy_assignments m first result n, result + n)) ∧
      (∀ i, i < n → copy_assignments m first result n (result + i) = m (first + i)) ∧
      (∀ j, ¬ (result ≤ j ∧ j < result + n) → copy_assignments m first result n j = m j) ∧
      (∀ i, i < n → copy_assignments m first result n (first + i) = m (first + i)) := by
  have hpos : result ≤ first ∨ first + n ≤ result := by omega
  refine ⟨?_, ?_, ?_, ?_, ?_⟩
  · intro fuel hf
    rw [copy_eq_loop _ fuel m first result n hf hpos, copy_loop_eq_pair]
  · intro fuel
    show some (unchecked_copy_cat_random_access m first (first + n) result) = _
    rw [copy_random_access_eq_loop, copy_loop_eq_pair]
  · intro i hi
    rw [← copy_loop_eq_assignments]
    exact copy_loop_values n m first result hpos i hi
  · intro j hj
    rw [← copy_loop_eq_assignments]
    exact copy_loop_frame n m first result j hj
  · intro i hi
    rw [← copy_loop_eq_assignments]
    exact copy_loop_frame n m first result _ (by omega)

theorem copy_generic_disjoint_witness :
    (3 + 3 ≤ 0 ∨ 0 + 3 ≤ 3) ∧
      copy CopyOverload.cat_input 4 (ofList [1, 2, 3] 0) 0 (0 + 3) 3 =
        some (copy_assignments (ofList [1, 2, 3] 0) 0 3 3, 3 + 3) :=
  ⟨by decide,
    (copy_generic_disjoint (ofList [1, 2, 3] 0) 0 3 3 (by decide)).1 4 (by decide)⟩

/-- C8: round trip.  For a range of length `n` and a disjoint destination, after
`copy(first, last, dst)` the call `equal(first, last, dst, dst + n)` returns true, on the
element-wise paths and on the block-transfer path for raw pointers. -/
theorem copy_then_equal [DecidableEq α] (o : CopyOverload) (m : Nat → α)
    (first result n fuel : Nat) (hdisj : result + n ≤ first ∨ first + n ≤ result)
    (hf : n < fuel) :
    ∃ m1, copy o fuel m first (first + n) result = some (m1, result + n) ∧
      equal fuel m1 first (first + n) result (result + n) = some true := by
  have hpos : result ≤ first ∨ first + n ≤ result := by omega
  refine ⟨(unchecked_copy_cat_random_access_loop n m first result).1, ?_, ?_⟩
  · rw [copy_eq_loop o fuel m first result n hf hpos]
    exact congrArg some (Prod.ext rfl (copy_loop_snd n m first result))
  · apply equal_of_agree n fuel _ first result (result + n) hf
    intro i hi
    rw [copy_loop_values n m first result hpos i hi]
    exact copy_loop_frame n m first result _ (by omega)

theorem copy_then_equal_witness :
    ((3 + 3 ≤ 0 ∨ 0 + 3 ≤ 3) ∧ 3 < 4) ∧
      ∃ m1, copy CopyOverload.trivially_copy_assignable_pointer 4 (ofList [1, 2, 3] 0) 0
          (0 + 3) 3 = some (m1, 3 + 3) ∧
        equal 4 m1 0 (0 + 3) 3 (3 + 3) = some true :=
  ⟨⟨by decide, by decide⟩,
    copy_then_equal CopyOverload.trivially_copy_assignable_pointer (ofList [1, 2, 3] 0) 0 3 3 4
      (by decide) (by decide)⟩

/-- C9: `copy` is correct when the destination is an earlier part of the same buffer: for a
buffer `b` of length `n` and `0 ≤ k ≤ n`, `copy(b + k, b + n, b)` returns `b + (n - k)`,
leaves `b[i]` equal to the old `b[i + k]` for every `i < n - k` and changes no other
position, on the element-wise paths and on the block-transfer path. -/
theorem copy_left_shift (o : CopyOverload) (m : Nat → α) (b n k fuel : Nat) (hk : k ≤ n)
    (hf : n - k < fuel) :
    ∃ m1, copy o fuel m (b + k) (b + n) b = some (m1, b + (n - k)) ∧
      (∀ i, i < n - k → m1 (b + i) = m (b + i + k)) ∧
      (∀ j, ¬ (b ≤ j ∧ j < b + (n - k)) → m1 j = m j) := by
  have e : b + n = b + k + (n - k) := by omega
  refine ⟨(unchecked_copy_cat_random_access_loop (n - k) m (b + k) b).1, ?_, ?_, ?_⟩
  · rw [e, copy_eq_loop o fuel m (b + k) b (n - k) hf (Or.inl (by omega))]
    exact congrArg some (Prod.ext rfl (copy_loop_snd (n - k) m (b + k) b))
  · intro i hi
    rw [copy_loop_values (n - k) m (b + k) b (Or.inl (by omega)) i hi]
    have e2 : b + k + i = b + i + k := by omega
    rw [e2]
  · intro j hj
    exact copy_loop_frame (n - k) m (b + k) b j hj

theorem copy_left_shift_witness :
    (1 ≤ 3 ∧ 3 - 1 < 3) ∧
      ∃ m1, copy CopyOverload.cat_random_access 3 (ofList [1, 2, 3] 0) (0 + 1) (0 + 3) 0 =
          some (m1, 0 + (3 - 1)) ∧
        (∀ i, i < 3 - 1 → m1 (0 + i) = ofList [1, 2, 3] 0 (0 + i + 1)) ∧
        (∀ j, ¬ (0 ≤ j ∧ j < 0 + (3 - 1)) → m1 j = ofList [1, 2, 3] 0 j) :=
  ⟨⟨by decide, by decide⟩,
    copy_left_shift CopyOverload.cat_random_access (ofList [1, 2, 3] 0) 0 3 1 3 (by decide)
      (by decide)⟩

/-- C10, as stated, fails: on the buffer `1, 2, 3` with `first = b`, `last = b + 2` and
`result = b + 1`, the element-wise loop leaves `1, 1, 1` and the block transfer leaves
`1, 1, 2`. -/
theorem copy_paths_differ_inside_source :
    (0 ≤ 2 ∧ 1 + (2 - 0) ≤ 3) ∧
      view (unchecked_copy_cat_random_access (ofList [1, 2, 3] 0) 0 2 1).1 3 = [1, 1, 1] ∧
      view (unchecked_copy_pointer (ofList [1, 2, 3] 0) 0 2 1).1 3 = [1, 1, 2] ∧
      (unchecked_copy_cat_random_access (ofList [1, 2, 3] 0) 0 2 1).1 ≠
        (unchecked_copy_pointer (ofList [1, 2, 3] 0) 0 2 1).1 :=
  ⟨by decide, by decide, by decide,
    fun h => absurd (congrArg (fun f => f 2) h) (by decide)⟩

/-- C10, amended: for every buffer, every `first ≤ last` and every `result` that does not
lie strictly inside the source (`result ≤ first` or `last ≤ result`), the block transfer of
the raw-pointer `unchecked_copy` and the element-wise loops of `unchecked_copy_cat` leave
the same storage and return the same position. -/
theorem copy_paths_agree (m : Nat → α) (first last result : Nat) (hle : first ≤ last)
    (hpos : result ≤ first ∨ last ≤ result) :
    unchecked_copy_cat_random_access m first last result =
        unchecked_copy_pointer m first last result ∧
      ∀ fuel, last - first < fuel →
        unchecked_copy_cat_input fuel m first last result =
          some (unchecked_copy_pointer m first last result) := by
  have e : last = first + (last - first) := by omega
  have hpos2 : result ≤ first ∨ first + (last - first) ≤ result := by omega
  constructor
  · rw [e, copy_pointer_eq_loop m first result (last - first) hpos2,
      copy_random_access_eq_loop]
  · intro fuel hf
    rw [e, copy_pointer_eq_loop m first result (last - first) hpos2,
      copy_input_eq_loop (last - first) fuel m first result (by omega)]

theorem copy_paths_agree_witness :
    (1 ≤ 3 ∧ (0 ≤ 1 ∨ 3 ≤ 0)) ∧
      unchecked_copy_cat_random_access (ofList [1, 2, 3] 0) 1 3 0 =
        unchecked_copy_pointer (ofList [1, 2, 3] 0) 1 3 0 :=
  ⟨⟨by decide, by decide⟩,
    (copy_paths_agree (ofList [1, 2, 3] 0) 1 3 0 (by decide) (by decide)).1⟩

/-! ## copy_backward -/

theorem copy_backward_loop_snd :
    ∀ n (m : Nat → α) (last result : Nat),
      (unchecked_copy_backward_cat_random_access_loop n m last result).2 = result - n := by
  intro n
  induction n with
  | zero => intro m last result; rfl
  | succ n ih =>
    intro m last result
    rw [unchecked_copy_backward_cat_random_access_loop, ih]
    omega

/-- The backward loop writes no cell outside `[result - n, result)`. -/
theorem copy_backward_loop_frame :
    ∀ n (m : Nat → α) (last result j : Nat), n ≤ result →
      ¬ (result - n ≤ j ∧ j < result) →
      (unchecked_copy_backward_cat_random_access_loop n m last result).1 j = m j := by
  intro n
  induction n with
  | zero => intro m last result j _ _; rfl
  | succ n ih =>
    intro m last result j hn hj
    rw [unchecked_copy_backward_cat_random_access_loop, ih _ _ _ _ (by omega) (by omega)]
    exact Function.update_noteq (by omega) _ _

/-- The backward loop copies correctly when the destination ends at or behind the end of
the source, or lies before the source. -/
theorem copy_backward_loop_values :
    ∀ n (m : Nat → α) (last result : Nat), n ≤ last → n ≤ result →
      (last ≤ result ∨ result + n ≤ last) →
      ∀ i, i < n → (unchecked_copy_backward_cat_random_access_loop n m last result).1
        (result - 1 - i) = m (last - 1 - i) := by
  intro n
  induction n with
  | zero => intro m last result _ _ _ i hi; omega
  | succ n ih =>
    intro m last result hl hr hpos i hi
    rw [unchecked_copy_backward_cat_random_access_loop]
    rcases Nat.eq_zero_or_pos i with h0 | hpos_i
    · subst h0
      rw [copy_backward_loop_frame _ _ _ _ _ (by omega) (by omega)]
      exact Function.update_same _ _ _
    · have e1 : result - 1 - i = result - 1 - 1 - (i - 1) := by omega
      have e2 : last - 1 - i = last - 1 - 1 - (i - 1) := by omega
      rw [e1, e2, ih _ _ _ (by omega) (by omega) (by omega) (i - 1) (by omega)]
      exact Function.update_noteq (by omega) _ _

/-- On a valid range the `first != last` loop does what the counting loop does. -/
theorem copy_backward_bidirectional_eq_loop :
    ∀ n fuel (m : Nat → α) (first result : Nat), n < fuel →
      unchecked_copy_backward_cat_bidirectional fuel m first (first + n) result =
        some (unchecked_copy_backward_cat_random_access_loop n m (first + n) result) := by
  intro n
  induction n with
  | zero =>
    intro fuel m first result hf
    obtain ⟨f, rfl⟩ : ∃ f, fuel = f + 1 := ⟨fuel - 1, by omega⟩
    rw [unchecked_copy_backward_cat_bidirectional, if_neg (by omega)]
    rfl
  | succ n ih =>
    intro fuel m first result hf
    obtain ⟨f, rfl⟩ : ∃ f, fuel = f + 1 := ⟨fuel - 1, by omega⟩
    rw [unchecked_copy_backward_cat_bidirectional, if_pos (by omega)]
    have e : first + (n + 1) - 1 = first + n := by omega
    rw [e, ih f _ _ _ (by omega), unchecked_copy_backward_cat_random_access_loop, e]

theorem copy_backward_random_access_eq_loop (m : Nat → α) (first result n : Nat) :
    unchecked_copy_backward_cat_random_access m first (first + n) result =
      unchecked_copy_backward_cat_random_access_loop n m (first + n) result := by
  unfold unchecked_copy_backward_cat_random_access
  rw [Nat.add_sub_cancel_left]

/-- The backward loop performs the assignments from the back, in decreasing order of the
position. -/
theorem copy_backward_loop_eq_assignments :
    ∀ n (m : Nat → α) (last result : Nat),
      (unchecked_copy_backward_cat_random_access_loop n m last result).1 =
        copy_backward_assignments m last result n := by
  intro n
  induction n with
  | zero => intro m last result; rfl
  | succ n ih =>
    intro m last result
    rw [unchecked_copy_backward_cat_random_access_loop, ih]
    unfold copy_backward_assignments
    rw [List.range_succ_eq_map, List.foldl_cons, List.foldl_map]
    have e : (fun (acc : Nat → α) k =>
        Function.update acc (result - 1 - 1 - k) (acc (last - 1 - 1 - k))) =
        (fun (acc : Nat → α) k =>
          Function.update acc (result - 1 - Nat.succ k) (acc (last - 1 - Nat.succ k))) := by
      funext acc k
      have e1 : result - 1 - 1 - k = result - 1 - Nat.succ k := by omega
      have e2 : last - 1 - 1 - k = last - 1 - Nat.succ k := by omega
      rw [e1, e2]
    rw [e]
    rfl

/-- Where the destination ends at or behind the end of the source, or lies before the
source, the block transfer and the backward loop leave the same storage and return the same
position. -/
theorem copy_backward_pointer_eq_loop (m : Nat → α) (first result n : Nat) (hr : n ≤ result)
    (hpos : first + n ≤ result ∨ result ≤ first) :
    unchecked_copy_backward_pointer m first (first + n) result =
      unchecked_copy_backward_cat_random_access_loop n m (first + n) result := by
  unfold unchecked_copy_backward_pointer
  dsimp only
  rw [Nat.add_sub_cancel_left]
  by_cases hn : n = 0
  · subst hn
    rw [if_neg (by omega)]
    rfl
  · rw [if_pos hn]
    refine Prod.ext ?_ (copy_backward_loop_snd n m (first + n) result).symm
    funext j
    show memmove m (result - n) first n j = _
    unfold memmove
    by_cases hj : result - n ≤ j ∧ j < result - n + n
    · rw [if_pos hj]
      have e : j = result - 1 - (result - 1 - j) := by omega
      have hv := copy_backward_loop_values n m (first + n) result (by omega) hr (by omega)
        (result - 1 - j) (by omega)
      rw [← e] at hv
      rw [hv]
      have e2 : first + (j - (result - n)) = first + n - 1 - (result - 1 - j) := by omega
      rw [e2]
    · rw [if_neg hj, copy_backward_loop_frame n m (first + n) result j hr (by omega)]

/-- On a valid range every overload of `copy_backward` returns, given fuel above the
length, and the result is that of the backward loop. -/
theorem copy_backward_eq_loop (o : CopyBackwardOverload) (fuel : Nat) (m : Nat → α)
    (first result n : Nat) (hf : n < fuel) (hr : n ≤ result)
    (hpos : first + n ≤ result ∨ result ≤ first) :
    copy_backward o fuel m first (first + n) result =
      some (unchecked_copy_backward_cat_random_access_loop n m (first + n) result) := by
  unfold copy_backward unchecked_copy_backward
  cases o with
  | cat_bidirectional => exact copy_backward_bidirectional_eq_loop n fuel m first result hf
  | cat_random_access =>
    show some _ = some _
    rw [copy_backward_random_access_eq_loop]
  | trivially_copy_assignable_pointer =>
    show some _ = some _
    rw [copy_backward_pointer_eq_loop m first result n hr hpos]

/-- C11: `copy_backward` is correct for a right shift that may overlap.  For a range
`[first, last)` of length `n` and a destination end `result` with `result - n ≥ first`
(the condition `result > first` of the claim is not needed), every overload of
`copy_backward(first, last, result)` returns `result - n` and leaves the storage that a
naive element-by-element assignment from the back leaves; there the destination
`[result - n, result)` holds the old source values in the same order, and no other position
has changed. -/
theorem copy_backward_right_shift (m : Nat → α) (first result n : Nat)
    (hge : first + n ≤ result) :
    (∀ o fuel, n < fuel → copy_backward o fuel m first (first + n) result =
        some (copy_backward_assignments m (first + n) result n, result - n)) ∧
      (∀ i, i < n →
        copy_backward_assignments m (first + n) result n (result - n + i) = m (first + i)) ∧
      (∀ j, ¬ (result - n ≤ j ∧ j < result) →
        copy_backward_assignments m (first + n) result n j = m j) := by
  have hr : n ≤ result := by omega
  refine ⟨?_, ?_, ?_⟩
  · intro o fuel hf
    rw [copy_backward_eq_loop o fuel m first result n hf hr (Or.inl hge)]
    exact congrArg some (Prod.ext (copy_backward_loop_eq_assignments n m (first + n) result)
      (copy_backward_loop_snd n m (first + n) result))
  · intro i hi
    rw [← copy_backward_loop_eq_assignments]
    have hv := copy_backward_loop_values n m (first + n) result (by omega) hr (Or.inl hge)
      (n - 1 - i) (by omega)
    have e1 : result - 1 - (n - 1 - i) = result - n + i := by omega
    have e2 : first + n - 1 - (n - 1 - i) = first + i := by omega
    rw [e1, e2] at hv
    exact hv
  · intro j hj
    rw [← copy_backward_loop_eq_assignments]
    exact copy_backward_loop_frame n m (first + n) result j hr hj

theorem copy_backward_right_shift_witness :
    0 + 2 ≤ 3 ∧
      copy_backward CopyBackwardOverload.cat_bidirectional 3 (ofList [1, 2, 3] 0) 0 (0 + 2) 3 =
        some (copy_backward_assignments (ofList [1, 2, 3] 0) (0 + 2) 3 2, 3 - 2) :=
  ⟨by decide,
    (copy_backward_right_shift (ofList [1, 2, 3] 0) 0 3 2 (by decide)).1
      CopyBackwardOverload.cat_bidirectional 3 (by decide)⟩

/-! ## move -/

/-- On a range that is not empty the loop of the input-iterator version of
`unchecked_move_cat` is never left: `first` and `last` advance together. -/
theorem unchecked_move_cat_input_none :
    ∀ fuel (m : Nat → α) (first last result : Nat), first ≠ last →
      unchecked_move_cat_input fuel m first last result = none := by
  intro fuel
  induction fuel with
  | zero => intro m first last result _; rfl
  | succ f ih =>
    intro m first last result hne
    rw [unchecked_move_cat_input, if_pos hne]
    exact ih _ _ _ _ (by omega)

/-- C12, the code at the failing input: to move the range `1, 2, 3` at `[b, b + 3)` to the
disjoint destination `b + 3`, the input-iterator version of `unchecked_move_cat` returns for
no amount of fuel, while the input-iterator version of `unchecked_copy_cat` and the
random-access version of `unchecked_move_cat` return `b + 6` and leave
`1, 2, 3, 1, 2, 3`. -/
theorem move_input_does_not_return :
    (∀ fuel, unchecked_move_cat_input fuel (ofList [1, 2, 3] 0) 0 3 3 = none) ∧
      (unchecked_copy_cat_input 4 (ofList [1, 2, 3] 0) 0 3 3).map
        (fun r => (view r.1 6, r.2)) = some ([1, 2, 3, 1, 2, 3], 6) ∧
      view (unchecked_move_cat_random_access (ofList [1, 2, 3] 0) 0 3 3).1 6 =
        [1, 2, 3, 1, 2, 3] ∧
      (unchecked_move_cat_random_access (ofList [1, 2, 3] 0) 0 3 3).2 = 6 :=
  ⟨fun fuel => unchecked_move_cat_input_none fuel _ 0 3 3 (by decide), by decide, by decide,
    by decide⟩

/-! ## fill_n and fill -/

theorem fill_loop_snd :
    ∀ n (m : Nat → α) (first : Nat) (v : α), (unchecked_fill_n_loop n m first v).2 = first + n := by
  intro n
  induction n with
  | zero => intro m first v; rfl
  | succ n ih =>
    intro m first v
    rw [unchecked_fill_n_loop, ih]
    omega

/-- The storage that the fill loop leaves: `v` in `[first, first + n)`, the old content
elsewhere. -/
theorem fill_loop_fst :
    ∀ n (m : Nat → α) (first : Nat) (v : α) (j : Nat),
      (unchecked_fill_n_loop n m first v).1 j =
        if first ≤ j ∧ j < first + n then v else m j := by
  intro n
  induction n with
  | zero =>
    intro m first v j
    rw [if_neg (by omega)]
    rfl
  | succ n ih =>
    intro m first v j
    rw [unchecked_fill_n_loop, ih]
    by_cases h1 : first + 1 ≤ j ∧ j < first + 1 + n
    · rw [if_pos h1, if_pos (by omega)]
    · rw [if_neg h1]
      by_cases h2 : j = first
      · subst h2
        rw [Function.update_same, if_pos (by omega)]
      · rw [Function.update_noteq h2, if_neg (by omega)]

/-- On a valid range the `first != last` loop of `fill_cat` does what the counting loop of
`unchecked_fill_n` does. -/
theorem fill_forward_eq_loop :
    ∀ n fuel (m : Nat → α) (first : Nat) (v : α), n < fuel →
      fill_cat_forward fuel m first (first + n) v = some (unchecked_fill_n_loop n m first v).1 := by
  intro n
  induction n with
  | zero =>
    intro fuel m first v hf
    obtain ⟨f, rfl⟩ : ∃ f, fuel = f + 1 := ⟨fuel - 1, by omega⟩
    rw [fill_cat_forward, if_neg (by omega)]
    rfl
  | succ n ih =>
    intro fuel m first v hf
    obtain ⟨f, rfl⟩ : ∃ f, fuel = f + 1 := ⟨fuel - 1, by omega⟩
    rw [fill_cat_forward, if_pos (by omega)]
    have e : first + (n + 1) = first + 1 + n := by omega
    rw [e, ih f _ _ _ (by omega)]
    rfl

theorem fill_random_access_eq_loop (m : Nat → α) (first n : Nat) (v : α) :
    fill_cat_random_access m first (first + n) v = (unchecked_fill_n_loop n m first v).1 := by
  unfold fill_cat_random_access fill_n unchecked_fill_n
  have e : (((first + n : Nat) : Int) - (first : Int)).toNat = n := by omega
  rw [e]

theorem memset_eq_loop (m : Nat → Nat) (first ch n : Nat) :
    memset m first ch n = (unchecked_fill_n_loop n m first ch).1 := by
  funext j
  rw [fill_loop_fst]
  rfl

theorem fill_n_one_byte_nonneg (m : Nat → Nat) (first n : Nat) (v : Int) :
    unchecked_fill_n_one_byte m first (n : Int) v =
      ((unchecked_fill_n_loop n m first (to_unsigned_char v)).1, (first : Int) + (n : Int)) := by
  unfold unchecked_fill_n_one_byte
  by_cases hn : (n : Int) > 0
  · rw [if_pos hn, memset_eq_loop, Int.toNat_ofNat]
  · rw [if_neg hn]
    have h0 : n = 0 := by omega
    subst h0
    rfl

/-- C13: after `fill(first, last, v)` on a range `[first, last)` every element of the range
is `v` and every element outside the range is unchanged; the forward-iterator loop and the
random-access version, which delegates to `fill_n` with `last - first`, leave the same
storage, also where `fill_n` takes its one-byte path. -/
theorem fill_range (m : Nat → α) (first n : Nat) (v : α) :
    ∃ m1, (∀ fuel, n < fuel →
        fill FillOverload.cat_forward fuel m first (first + n) v = some m1) ∧
      (∀ fuel, fill FillOverload.cat_random_access fuel m first (first + n) v = some m1) ∧
      (∀ j, first ≤ j → j < first + n → m1 j = v) ∧
      (∀ j, ¬ (first ≤ j ∧ j < first + n) → m1 j = m j) ∧
      ∀ (mb : Nat → Nat) (vb : Int),
        fill_cat_random_access_one_byte mb first (first + n) vb =
          fill_cat_random_access mb first (first + n) (to_unsigned_char vb) := by
  refine ⟨(unchecked_fill_n_loop n m first v).1, ?_, ?_, ?_, ?_, ?_⟩
  · intro fuel hf
    exact fill_forward_eq_loop n fuel m first v hf
  · intro fuel
    show some (fill_cat_random_access m first (first + n) v) = _
    rw [fill_random_access_eq_loop]
  · intro j h1 h2
    rw [fill_loop_fst, if_pos ⟨h1, h2⟩]
  · intro j hj
    rw [fill_loop_fst, if_neg hj]
  · intro mb vb
    rw [fill_random_access_eq_loop]
    unfold fill_cat_random_access_one_byte fill_n_one_byte
    have e : ((first + n : Nat) : Int) - (first : Int) = (n : Int) := by omega
    rw [e, fill_n_one_byte_nonneg]

/-- C14: for a one-byte integral element type, every value `v` and every count `n ≥ 0`, the
`memset` overload of `fill_n` sets each of the `n` target bytes to `(unsigned char)v`, which
is `v mod 256`, touches no other byte, returns `first + n`, and agrees byte for byte with
the element-wise assignment loop. -/
theorem fill_n_one_byte_spec (m : Nat → Nat) (first n : Nat) (v : Int) :
    fill_n_one_byte m first (n : Int) v =
        (fun j => if first ≤ j ∧ j < first + n then to_unsigned_char v else m j,
          (first : Int) + (n : Int)) ∧
      ((to_unsigned_char v : Nat) : Int) = v % 256 ∧ to_unsigned_char v < 256 ∧
      (unchecked_fill_n_bytes m first (n : Int) v).1 = (fill_n_one_byte m first (n : Int) v).1 ∧
      (((unchecked_fill_n_bytes m first (n : Int) v).2 : Nat) : Int) =
        (fill_n_one_byte m first (n : Int) v).2 := by
  have hone := fill_n_one_byte_nonneg m first n v
  unfold fill_n_one_byte
  rw [hone]
  refine ⟨?_, ?_, ?_, ?_, ?_⟩
  · refine Prod.ext ?_ rfl
    funext j
    exact fill_loop_fst n m first (to_unsigned_char v) j
  · unfold to_unsigned_char
    omega
  · unfold to_unsigned_char
    omega
  · unfold unchecked_fill_n_bytes unchecked_fill_n
    rw [Int.toNat_ofNat]
  · unfold unchecked_fill_n_bytes unchecked_fill_n
    rw [Int.toNat_ofNat, fill_loop_snd]
    omega

/-- C15, the code at the failing input: with the count `n = -1` from position `b + 2` of the
buffer `1, 2, 3`, both paths of `fill_n` leave the buffer as it is, the generic path returns
`b + 2` and the one-byte path returns `b + 1`. -/
theorem fill_n_negative_count_positions :
    view (unchecked_fill_n_bytes (ofList [1, 2, 3] 0) 2 (-1) 7).1 3 = [1, 2, 3] ∧
      view (unchecked_fill_n_one_byte (ofList [1, 2, 3] 0) 2 (-1) 7).1 3 = [1, 2, 3] ∧
      (((unchecked_fill_n_bytes (ofList [1, 2, 3] 0) 2 (-1) 7).2 : Nat) : Int) = 2 ∧
      (unchecked_fill_n_one_byte (ofList [1, 2, 3] 0) 2 (-1) 7).2 = 1 :=
  ⟨by decide, by decide, by decide, by decide⟩

/-! ## copy_if and copy_n -/

theorem slice_succ (m : Nat → α) (first n : Nat) :
    slice m first (n + 1) = m first :: slice m (first + 1) n := by
  unfold slice
  rw [List.range_succ_eq_map, List.map_cons, List.map_map]
  refine congrArg (List.cons (m (first + 0))) (List.map_congr_left ?_)
  intro i _
  show m (first + Nat.succ i) = m (first + 1 + i)
  have e : first + Nat.succ i = first + 1 + i := by omega
  rw [e]

theorem slice_congr (m1 m2 : Nat → α) (first n : Nat)
    (h : ∀ i, i < n → m1 (first + i) = m2 (first + i)) : slice m1 first n = slice m2 first n := by
  unfold slice
  exact List.map_congr_left (fun i hi => h i (List.mem_range.1 hi))

/-- What `copy_if` does on a valid range whose destination starts at or before the source
or lies behind it. -/
theorem copy_if_spec (unary_pred : α → Bool) :
    ∀ n fuel (m : Nat → α) (first result : Nat), n < fuel →
      (result ≤ first ∨ first + n ≤ result) →
      ∃ m1, copy_if unary_pred fuel m first (first + n) result =
          some (m1, result + ((slice m first n).filter unary_pred).length) ∧
        slice m1 result ((slice m first n).filter unary_pred).length =
          (slice m first n).filter unary_pred ∧
        ∀ j, ¬ (result ≤ j ∧ j < result + ((slice m first n).filter unary_pred).length) →
          m1 j = m j := by
  intro n
  induction n with
  | zero =>
    intro fuel m first result hf _
    obtain ⟨f, rfl⟩ : ∃ f, fuel = f + 1 := ⟨fuel - 1, by omega⟩
    refine ⟨m, ?_, rfl, fun _ _ => rfl⟩
    rw [copy_if, if_neg (by omega)]
    rfl
  | succ n ih =>
    intro fuel m first result hf hpos
    obtain ⟨f, rfl⟩ : ∃ f, fuel = f + 1 := ⟨fuel - 1, by omega⟩
    have e : first + (n + 1) = first + 1 + n := by omega
    rw [copy_if, if_pos (by omega), e, slice_succ]
    by_cases hp : unary_pred (m first) = true
    · rw [if_pos hp, List.filter_cons_of_pos hp]
      obtain ⟨m1, h1, h2, h3⟩ := ih f (Function.update m result (m first)) (first + 1)
        (result + 1) (by omega) (by omega)
      have hs : slice (Function.update m result (m first)) (first + 1) n =
          slice m (first + 1) n :=
        slice_congr _ _ _ _ (fun i hi => Function.update_noteq (by omega) _ _)
      rw [hs] at h1 h2 h3
      refine ⟨m1, ?_, ?_, ?_⟩
      · rw [h1, List.length_cons]
        have e2 : result + 1 + (List.filter unary_pred (slice m (first + 1) n)).length =
            result + ((List.filter unary_pred (slice m (first + 1) n)).length + 1) := by omega
        rw [e2]
      · rw [List.length_cons, slice_succ, h2, h3 result (by omega), Function.update_same]
      · intro j hj
        rw [List.length_cons] at hj
        rw [h3 j (by omega)]
        exact Function.update_noteq (by omega) _ _
    · rw [if_neg hp, List.filter_cons_of_neg hp]
      exact ih f m (first + 1) result (by omega) (by omega)

theorem copy_n_input_loop_eq :
    ∀ n (m : Nat → α) (first result : Nat),
      unchecked_copy_n_input_loop n m first result =
        ((unchecked_copy_cat_random_access_loop n m first result).1, (first + n, result + n)) := by
  intro n
  induction n with
  | zero => intro m first result; rfl
  | succ n ih =>
    intro m first result
    rw [unchecked_copy_n_input_loop, ih, unchecked_copy_cat_random_access_loop]
    have e1 : first + 1 + n = first + (n + 1) := by omega
    have e2 : result + 1 + n = result + (n + 1) := by omega
    rw [e1, e2]

/-! ## equal and mismatch -/

/-- On a valid first range `equal` returns, and it returns true exactly when the two ranges
agree on the length of the first. -/
theorem equal_spec [DecidableEq α] :
    ∀ n fuel (m : Nat → α) (first1 first2 last2 : Nat), n < fuel →
      ∃ b, equal fuel m first1 (first1 + n) first2 last2 = some b ∧
        (b = true ↔ ∀ i, i < n → m (first1 + i) = m (first2 + i)) := by
  intro n
  induction n with
  | zero =>
    intro fuel m first1 first2 last2 hf
    obtain ⟨f, rfl⟩ : ∃ f, fuel = f + 1 := ⟨fuel - 1, by omega⟩
    refine ⟨true, ?_, ?_⟩
    · rw [equal, if_neg (by omega)]
    · exact ⟨fun _ i hi => by omega, fun _ => rfl⟩
  | succ n ih =>
    intro fuel m first1 first2 last2 hf
    obtain ⟨f, rfl⟩ : ∃ f, fuel = f + 1 := ⟨fuel - 1, by omega⟩
    have e : first1 + (n + 1) = first1 + 1 + n := by omega
    rw [equal, if_pos (by omega), e]
    by_cases h0 : m first1 = m first2
    · rw [if_neg (not_not.2 h0)]
      obtain ⟨b, hb, hiff⟩ := ih f m (first1 + 1) (first2 + 1) last2 (by omega)
      refine ⟨b, hb, hiff.trans ⟨?_, ?_⟩⟩
      · intro h i hi
        rcases Nat.eq_zero_or_pos i with hz | hp
        · subst hz
          exact h0
        · have := h (i - 1) (by omega)
          have e1 : first1 + 1 + (i - 1) = first1 + i := by omega
          have e2 : first2 + 1 + (i - 1) = first2 + i := by omega
          rwa [e1, e2] at this
      · intro h i hi
        have := h (i + 1) (by omega)
        have e1 : first1 + (i + 1) = first1 + 1 + i := by omega
        have e2 : first2 + (i + 1) = first2 + 1 + i := by omega
        rwa [e1, e2] at this
    · rw [if_pos h0]
      refine ⟨false, rfl, ⟨fun h => absurd h (by decide), fun h => absurd (h 0 (by omega)) h0⟩⟩

/-- On a valid first range `equal` with a predicate returns, and it returns true exactly
when the predicate holds of every pair of corresponding elements. -/
theorem equal_comp_spec (comp : α → α → Bool) :
    ∀ n fuel (m : Nat → α) (first1 first2 last2 : Nat), n < fuel →
      ∃ b, equal_comp comp fuel m first1 (first1 + n) first2 last2 = some b ∧
        (b = true ↔ ∀ i, i < n → comp (m (first1 + i)) (m (first2 + i)) = true) := by
  intro n
  induction n with
  | zero =>
    intro fuel m first1 first2 last2 hf
    obtain ⟨f, rfl⟩ : ∃ f, fuel = f + 1 := ⟨fuel - 1, by omega⟩
    refine ⟨true, ?_, ?_⟩
    · rw [equal_comp, if_neg (by omega)]
    · exact ⟨fun _ i hi => by omega, fun _ => rfl⟩
  | succ n ih =>
    intro fuel m first1 first2 last2 hf
    obtain ⟨f, rfl⟩ : ∃ f, fuel = f + 1 := ⟨fuel - 1, by omega⟩
    have e : first1 + (n + 1) = first1 + 1 + n := by omega
    rw [equal_comp, if_pos (by omega), e]
    by_cases h0 : comp (m first1) (m first2) = true
    · rw [if_neg (not_not.2 h0)]
      obtain ⟨b, hb, hiff⟩ := ih f m (first1 + 1) (first2 + 1) last2 (by omega)
      refine ⟨b, hb, hiff.trans ⟨?_, ?_⟩⟩
      · intro h i hi
        rcases Nat.eq_zero_or_pos i with hz | hp
        · subst hz
          exact h0
        · have := h (i - 1) (by omega)
          have e1 : first1 + 1 + (i - 1) = first1 + i := by omega
          have e2 : first2 + 1 + (i - 1) = first2 + i := by omega
          rwa [e1, e2] at this
      · intro h i hi
        have := h (i + 1) (by omega)
        have e1 : first1 + (i + 1) = first1 + 1 + i := by omega
        have e2 : first2 + (i + 1) = first2 + 1 + i := by omega
        rwa [e1, e2] at this
    · rw [if_pos h0]
      refine ⟨false, rfl, ⟨fun h => absurd h (by decide), fun h => absurd (h 0 (by omega)) h0⟩⟩

theorem equal_last2_irrelevant [DecidableEq α] :
    ∀ fuel (m : Nat → α) (first1 last1 first2 last2 last2b : Nat),
      equal fuel m first1 last1 first2 last2 = equal fuel m first1 last1 first2 last2b := by
  intro fuel
  induction fuel with
  | zero => intro m first1 last1 first2 last2 last2b; rfl
  | succ f ih =>
    intro m first1 last1 first2 last2 last2b
    rw [equal, equal, ih m (first1 + 1) last1 (first2 + 1) last2 last2b]

theorem equal_comp_last2_irrelevant (comp : α → α → Bool) :
    ∀ fuel (m : Nat → α) (first1 last1 first2 last2 last2b : Nat),
      equal_comp comp fuel m first1 last1 first2 last2 =
        equal_comp comp fuel m first1 last1 first2 last2b := by
  intro fuel
  induction fuel with
  | zero => intro m first1 last1 first2 last2 last2b; rfl
  | succ f ih =>
    intro m first1 last1 first2 last2 last2b
    rw [equal_comp, equal_comp, ih m (first1 + 1) last1 (first2 + 1) last2 last2b]

/-- On a valid first range `mismatch` returns the positions at the least index at which the
ranges differ, or at the length of the first range when there is none. -/
theorem mismatch_spec [DecidableEq α] :
    ∀ n fuel (m : Nat → α) (first1 first2 : Nat), n < fuel →
      ∃ k, k ≤ n ∧ (∀ i, i < k → m (first1 + i) = m (first2 + i)) ∧
        (k < n → m (first1 + k) ≠ m (first2 + k)) ∧
        mismatch fuel m first1 (first1 + n) first2 = some (first1 + k, first2 + k) := by
  intro n
  induction n with
  | zero =>
    intro fuel m first1 first2 hf
    obtain ⟨f, rfl⟩ : ∃ f, fuel = f + 1 := ⟨fuel - 1, by omega⟩
    refine ⟨0, Nat.le_refl _, fun i hi => by omega, fun h => by omega, ?_⟩
    rw [mismatch, if_neg (fun h => h.1 rfl)]
    rfl
  | succ n ih =>
    intro fuel m first1 first2 hf
    obtain ⟨f, rfl⟩ : ∃ f, fuel = f + 1 := ⟨fuel - 1, by omega⟩
    have e : first1 + (n + 1) = first1 + 1 + n := by omega
    by_cases h0 : m first1 = m first2
    · obtain ⟨k, hk, hpre, hat, hres⟩ := ih f m (first1 + 1) (first2 + 1) (by omega)
      refine ⟨k + 1, by omega, ?_, ?_, ?_⟩
      · intro i hi
        rcases Nat.eq_zero_or_pos i with hz | hp
        · subst hz
          exact h0
        · have := hpre (i - 1) (by omega)
          have e1 : first1 + 1 + (i - 1) = first1 + i := by omega
          have e2 : first2 + 1 + (i - 1) = first2 + i := by omega
          rwa [e1, e2] at this
      · intro hlt
        have := hat (by omega)
        have e1 : first1 + 1 + k = first1 + (k + 1) := by omega
        have e2 : first2 + 1 + k = first2 + (k + 1) := by omega
        rwa [e1, e2] at this
      · rw [mismatch, if_pos ⟨by omega, h0⟩, e, hres]
        have e1 : first1 + 1 + k = first1 + (k + 1) := by omega
        have e2 : first2 + 1 + k = first2 + (k + 1) := by omega
        rw [e1, e2]
    · refine ⟨0, Nat.zero_le _, fun i hi => by omega, fun _ => h0, ?_⟩
      rw [mismatch, if_neg (fun h => h0 h.2)]
      rfl

theorem mismatch_comp_spec (comp : α → α → Bool) :
    ∀ n fuel (m : Nat → α) (first1 first2 : Nat), n < fuel →
      ∃ k, k ≤ n ∧ (∀ i, i < k → comp (m (first1 + i)) (m (first2 + i)) = true) ∧
        (k < n → ¬ comp (m (first1 + k)) (m (first2 + k)) = true) ∧
        mismatch_comp comp fuel m first1 (first1 + n) first2 =
          some (first1 + k, first2 + k) := by
  intro n
  induction n with
  | zero =>
    intro fuel m first1 first2 hf
    obtain ⟨f, rfl⟩ : ∃ f, fuel = f + 1 := ⟨fuel - 1, by omega⟩
    refine ⟨0, Nat.le_refl _, fun i hi => by omega, fun h => by omega, ?_⟩
    rw [mismatch_comp, if_neg (fun h => h.1 rfl)]
    rfl
  | succ n ih =>
    intro fuel m first1 first2 hf
    obtain ⟨f, rfl⟩ : ∃ f, fuel = f + 1 := ⟨fuel - 1, by omega⟩
    have e : first1 + (n + 1) = first1 + 1 + n := by omega
    by_cases h0 : comp (m first1) (m first2) = true
    · obtain ⟨k, hk, hpre, hat, hres⟩ := ih f m (first1 + 1) (first2 + 1) (by omega)
      refine ⟨k + 1, by omega, ?_, ?_, ?_⟩
      · intro i hi
        rcases Nat.eq_zero_or_pos i with hz | hp
        · subst hz
          exact h0
        · have := hpre (i - 1) (by omega)
          have e1 : first1 + 1 + (i - 1) = first1 + i := by omega
          have e2 : first2 + 1 + (i - 1) = first2 + i := by omega
          rwa [e1, e2] at this
      · intro hlt
        have := hat (by omega)
        have e1 : first1 + 1 + k = first1 + (k + 1) := by omega
        have e2 : first2 + 1 + k = first2 + (k + 1) := by omega
        rwa [e1, e2] at this
      · rw [mismatch_comp, if_pos ⟨by omega, h0⟩, e, hres]
        have e1 : first1 + 1 + k = first1 + (k + 1) := by omega
        have e2 : first2 + 1 + k = first2 + (k + 1) := by omega
        rw [e1, e2]
    · refine ⟨0, Nat.zero_le _, fun i hi => by omega, fun _ => h0, ?_⟩
      rw [mismatch_comp, if_neg (fun h => h0 h.2)]
      rfl

/-! ## The claims on copy_if, copy_n, equal and mismatch -/

/-- C16, as stated, fails: on the buffer `1, 2, 3` with `first = b`, `last = b + 2`,
`result = b + 1` and a predicate that accepts every element, the first store overwrites
the second element of the input before it is read: `copy_if` returns `b + 3` and leaves
`1, 1` in the destination, while the filter of the input is `1, 2`. -/
theorem copy_if_overlap_not_filter :
    (copy_if (fun _ => true) 3 (ofList [1, 2, 3] 0) 0 2 1).map
        (fun r => (slice r.1 1 2, r.2)) = some ([1, 1], 3) ∧
      (slice (ofList [1, 2, 3] 0) 0 2).filter (fun _ => true) = [1, 2] ∧
      (copy_if (fun _ => true) 3 (ofList [1, 2, 3] 0) 0 2 1).map (fun r => slice r.1 1 2) ≠
        some ((slice (ofList [1, 2, 3] 0) 0 2).filter (fun _ => true)) :=
  ⟨by decide, by decide, by decide⟩

/-- C16, amended: for every input sequence of length `n` at `first` and every predicate,
`copy_if` into a destination that starts at or before the source or lies behind it
(`result ≤ first` or `first + n ≤ result`) returns, writes to the destination exactly the
elements of the sequence that satisfy the predicate, in their original order (the list
filter of the sequence), changes nothing else, and returns `result` plus the number of
elements that satisfy the predicate. -/
theorem copy_if_filter (unary_pred : α → Bool) (m : Nat → α) (first result n fuel : Nat)
    (hf : n < fuel) (hpos : result ≤ first ∨ first + n ≤ result) :
    ∃ m1, copy_if unary_pred fuel m first (first + n) result =
        some (m1, result + ((slice m first n).filter unary_pred).length) ∧
      slice m1 result ((slice m first n).filter unary_pred).length =
        (slice m first n).filter unary_pred ∧
      ∀ j, ¬ (result ≤ j ∧ j < result + ((slice m first n).filter unary_pred).length) →
        m1 j = m j :=
  copy_if_spec unary_pred n fuel m first result hf hpos

theorem copy_if_filter_witness :
    (3 < 4 ∧ (3 ≤ 0 ∨ 0 + 3 ≤ 3)) ∧
      ∃ m1, copy_if (fun x => decide (x % 2 = 1)) 4 (ofList [1, 2, 3] 0) 0 (0 + 3) 3 =
          some (m1, 3 + ((slice (ofList [1, 2, 3] 0) 0 3).filter
            (fun x => decide (x % 2 = 1))).length) ∧
        slice m1 3 ((slice (ofList [1, 2, 3] 0) 0 3).filter
            (fun x => decide (x % 2 = 1))).length =
          (slice (ofList [1, 2, 3] 0) 0 3).filter (fun x => decide (x % 2 = 1)) ∧
        ∀ j, ¬ (3 ≤ j ∧ j < 3 + ((slice (ofList [1, 2, 3] 0) 0 3).filter
            (fun x => decide (x % 2 = 1))).length) → m1 j = ofList [1, 2, 3] 0 j :=
  ⟨⟨by decide, by decide⟩,
    copy_if_filter (fun x => decide (x % 2 = 1)) (ofList [1, 2, 3] 0) 0 3 3 4 (by decide)
      (by decide)⟩

/-- C17, as stated, fails: on the buffer `1, 2, 3` with `first = b`, `n = 2` and
`result = b + 1`, both versions return the pair `(b + 2, b + 3)`, but the input-iterator
version leaves `1, 1, 1`, so that `dst[1]` is `1` and not `src[1] = 2`, and the
random-access version on pointers to a trivially copy-assignable type, whose `copy` is a
block transfer, leaves `1, 1, 2`. -/
theorem copy_n_overlap_variants_differ :
    view (ofList [1, 2, 3] 0) 3 = [1, 2, 3] ∧
      (copy_n CopyNOverload.cat_input 0 (ofList [1, 2, 3] 0) 0 2 1).map
        (fun r => (view r.1 3, r.2)) = some ([1, 1, 1], (2, 3)) ∧
      (copy_n (CopyNOverload.cat_random_access CopyOverload.trivially_copy_assignable_pointer) 3
        (ofList [1, 2, 3] 0) 0 2 1).map (fun r => (view r.1 3, r.2)) =
          some ([1, 1, 2], (2, 3)) :=
  ⟨by decide, by decide, by decide⟩

/-- C17, amended: for every count `n ≥ 0` and a destination that starts at or before the
source or lies behind it (`result ≤ first` or `first + n ≤ result`),
`copy_n(first, n, result)` returns the pair `(first + n, result + n)` and
leaves `dst[i] = src[i]` for the indices `i < n` and every other position unchanged; the
input-iterator version and the random-access version return the same pair and leave the
same storage. -/
theorem copy_n_pair (m : Nat → α) (first result n : Nat)
    (hpos : result ≤ first ∨ first + n ≤ result) :
    (∀ fuel, copy_n CopyNOverload.cat_input fuel m first n result =
        some (copy_assignments m first result n, (first + n, result + n))) ∧
      (∀ c fuel, n < fuel → copy_n (CopyNOverload.cat_random_access c) fuel m first n result =
        some (copy_assignments m first result n, (first + n, result + n))) ∧
      (∀ i, i < n → copy_assignments m first result n (result + i) = m (first + i)) ∧
      (∀ j, ¬ (result ≤ j ∧ j < result + n) → copy_assignments m first result n j = m j) := by
  refine ⟨?_, ?_, ?_, ?_⟩
  · intro fuel
    show some (unchecked_copy_n_input m first n result) = _
    unfold unchecked_copy_n_input
    rw [copy_n_input_loop_eq, copy_loop_eq_assignments]
  · intro c fuel hf
    show unchecked_copy_n_random_access c fuel m first n result = _
    unfold unchecked_copy_n_random_access
    dsimp only
    rw [copy_eq_loop c fuel m first result n hf hpos, copy_loop_eq_pair]
  · intro i hi
    rw [← copy_loop_eq_assignments]
    exact copy_loop_values n m first result hpos i hi
  · intro j hj
    rw [← copy_loop_eq_assignments]
    exact copy_loop_frame n m first result j hj

theorem copy_n_pair_witness :
    (3 ≤ 0 ∨ 0 + 3 ≤ 3) ∧
      copy_n CopyNOverload.cat_input 0 (ofList [1, 2, 3] 0) 0 3 3 =
        some (copy_assignments (ofList [1, 2, 3] 0) 0 3 3, (0 + 3, 3 + 3)) :=
  ⟨by decide, (copy_n_pair (ofList [1, 2, 3] 0) 0 3 3 (by decide)).1 0⟩

/-- C18: for a first range of length `n`, `equal(first1, last1, first2, last2)` returns, and
it returns true if and only if `a[i] == b[i]` for every `i < n`; the overload with a
predicate returns, and it returns true if and only if `cmp(a[i], b[i])` holds for every
`i < n`. -/
theorem equal_iff_pointwise [DecidableEq α] (comp : α → α → Bool) (m : Nat → α)
    (first1 first2 last2 n fuel : Nat) (hf : n < fuel) :
    (∃ b, equal fuel m first1 (first1 + n) first2 last2 = some b) ∧
      (equal fuel m first1 (first1 + n) first2 last2 = some true ↔
        ∀ i, i < n → m (first1 + i) = m (first2 + i)) ∧
      (∃ b, equal_comp comp fuel m first1 (first1 + n) first2 last2 = some b) ∧
      (equal_comp comp fuel m first1 (first1 + n) first2 last2 = some true ↔
        ∀ i, i < n → comp (m (first1 + i)) (m (first2 + i)) = true) := by
  obtain ⟨b, hb, hiff⟩ := equal_spec n fuel m first1 first2 last2 hf
  obtain ⟨c, hc, hciff⟩ := equal_comp_spec comp n fuel m first1 first2 last2 hf
  rw [hb, hc]
  exact ⟨⟨b, rfl⟩, ⟨fun h => hiff.1 (Option.some.inj h), fun h => congrArg some (hiff.2 h)⟩,
    ⟨c, rfl⟩, ⟨fun h => hciff.1 (Option.some.inj h), fun h => congrArg some (hciff.2 h)⟩⟩

theorem equal_iff_pointwise_witness :
    2 < 3 ∧
      (equal 3 (ofList [1, 2, 1, 2, 3] 0) 0 (0 + 2) 2 5 = some true ↔
        ∀ i, i < 2 → ofList [1, 2, 1, 2, 3] 0 (0 + i) = ofList [1, 2, 1, 2, 3] 0 (2 + i)) :=
  ⟨by decide,
    (equal_iff_pointwise (fun x y => decide (x = y)) (ofList [1, 2, 1, 2, 3] 0) 0 2 5 2 3
      (by decide)).2.1⟩

/-- C19: `equal` is driven by the first range only: for fixed `first1`, `last1` and `first2`
its result does not depend on `last2`, with or without a predicate; thus `equal` of `1, 2`
and the longer `1, 2, 3` is true. -/
theorem equal_ignores_last2 [DecidableEq α] (comp : α → α → Bool) (fuel : Nat) (m : Nat → α)
    (first1 last1 first2 last2 last2b : Nat) :
    equal fuel m first1 last1 first2 last2 = equal fuel m first1 last1 first2 last2b ∧
      equal_comp comp fuel m first1 last1 first2 last2 =
        equal_comp comp fuel m first1 last1 first2 last2b ∧
      equal 3 (ofList [1, 2, 1, 2, 3] 0) 0 2 2 5 = some true :=
  ⟨equal_last2_irrelevant fuel m first1 last1 first2 last2 last2b,
    equal_comp_last2_irrelevant comp fuel m first1 last1 first2 last2 last2b, by decide⟩

/-- C20: for a first range of length `n`, `mismatch` returns the pair
`(first1 + k, first2 + k)` where `k` is the least index with `a[k] != b[k]`, or with
`cmp(a[k], b[k])` false in the overload with a predicate, and `k = n` when there is no such
index; on ranges that agree it returns `(last1, first2 + n)`. -/
theorem mismatch_first_difference [DecidableEq α] (comp : α → α → Bool) (m : Nat → α)
    (first1 first2 n fuel : Nat) (hf : n < fuel) :
    (∃ k, k ≤ n ∧ (∀ i, i < k → m (first1 + i) = m (first2 + i)) ∧
        (k < n → m (first1 + k) ≠ m (first2 + k)) ∧
        mismatch fuel m first1 (first1 + n) first2 = some (first1 + k, first2 + k)) ∧
      ((∀ i, i < n → m (first1 + i) = m (first2 + i)) →
        mismatch fuel m first1 (first1 + n) first2 = some (first1 + n, first2 + n)) ∧
      (∃ k, k ≤ n ∧ (∀ i, i < k → comp (m (first1 + i)) (m (first2 + i)) = true) ∧
        (k < n → ¬ comp (m (first1 + k)) (m (first2 + k)) = true) ∧
        mismatch_comp comp fuel m first1 (first1 + n) first2 =
          some (first1 + k, first2 + k)) := by
  refine ⟨mismatch_spec n fuel m first1 first2 hf, ?_,
    mismatch_comp_spec comp n fuel m first1 first2 hf⟩
  intro hall
  obtain ⟨k, hk, _, hat, hres⟩ := mismatch_spec n fuel m first1 first2 hf
  have hkn : k = n := by
    by_contra hne
    exact hat (by omega) (hall k (by omega))
  rw [hres, hkn]

theorem mismatch_first_difference_witness :
    2 < 3 ∧
      ∃ k, k ≤ 2 ∧
        (∀ i, i < k → ofList [1, 2, 1, 5] 0 (0 + i) = ofList [1, 2, 1, 5] 0 (2 + i)) ∧
        (k < 2 → ofList [1, 2, 1, 5] 0 (0 + k) ≠ ofList [1, 2, 1, 5] 0 (2 + k)) ∧
        mismatch 3 (ofList [1, 2, 1, 5] 0) 0 (0 + 2) 2 = some (0 + k, 2 + k) :=
  ⟨by decide,
    (mismatch_first_difference (fun x y => decide (x = y)) (ofList [1, 2, 1, 5] 0) 0 2 2 3
      (by decide)).1⟩

/-! ## lexicographical_compare -/

/-- Past a pair of equivalent heads, precedence is precedence of the tails. -/
theorem lexPrecedes_succ (comp : α → α → Bool) (m : Nat → α) (first1 n1 first2 n2 : Nat)
    (h1 : comp (m first1) (m first2) = false) (h2 : comp (m first2) (m first1) = false) :
    LexPrecedes comp m first1 (n1 + 1) first2 (n2 + 1) ↔
      LexPrecedes comp m (first1 + 1) n1 (first2 + 1) n2 := by
  constructor
  · rintro ⟨k, hk1, hk2, hpre, hat⟩
    rcases Nat.eq_zero_or_pos k with hz | hp
    · subst hz
      rcases hat with ⟨e, _⟩ | ⟨_, _, hc⟩
      · omega
      · rw [Nat.add_zero, Nat.add_zero, h1] at hc
        exact absurd hc (by decide)
    · refine ⟨k - 1, by omega, by omega, ?_, ?_⟩
      · intro i hi
        have := hpre (i + 1) (by omega)
        have e1 : first1 + (i + 1) = first1 + 1 + i := by omega
        have e2 : first2 + (i + 1) = first2 + 1 + i := by omega
        rwa [e1, e2] at this
      · rcases hat with ⟨e, hlt⟩ | ⟨hl1, hl2, hc⟩
        · exact Or.inl ⟨by omega, by omega⟩
        · refine Or.inr ⟨by omega, by omega, ?_⟩
          have e1 : first1 + 1 + (k - 1) = first1 + k := by omega
          have e2 : first2 + 1 + (k - 1) = first2 + k := by omega
          rw [e1, e2]
          exact hc
  · rintro ⟨k, hk1, hk2, hpre, hat⟩
    refine ⟨k + 1, by omega, by omega, ?_, ?_⟩
    · intro i hi
      rcases Nat.eq_zero_or_pos i with hz | hp
      · subst hz
        exact ⟨h1, h2⟩
      · have := hpre (i - 1) (by omega)
        have e1 : first1 + 1 + (i - 1) = first1 + i := by omega
        have e2 : first2 + 1 + (i - 1) = first2 + i := by omega
        rwa [e1, e2] at this
    · rcases hat with ⟨e, hlt⟩ | ⟨hl1, hl2, hc⟩
      · exact Or.inl ⟨by omega, by omega⟩
      · refine Or.inr ⟨by omega, by omega, ?_⟩
        have e1 : first1 + (k + 1) = first1 + 1 + k := by omega
        have e2 : first2 + (k + 1) = first2 + 1 + k := by omega
        rw [e1, e2]
        exact hc

/-- On valid ranges `lexicographical_compare` with a predicate returns, and it returns true
exactly when the first range precedes the second. -/
theorem lexicographical_compare_comp_spec (comp : α → α → Bool) (m : Nat → α) :
    ∀ n1 n2 fuel first1 first2, n1 < fuel →
      ∃ b, lexicographical_compare_comp comp fuel m first1 (first1 + n1) first2 (first2 + n2) =
          some b ∧ (b = true ↔ LexPrecedes comp m first1 n1 first2 n2) := by
  intro n1
  induction n1 with
  | zero =>
    intro n2 fuel first1 first2 hf
    obtain ⟨f, rfl⟩ : ∃ f, fuel = f + 1 := ⟨fuel - 1, by omega⟩
    rw [lexicographical_compare_comp, if_neg (fun h => h.1 rfl)]
    refine ⟨_, rfl, ?_⟩
    rw [decide_eq_true_iff]
    constructor
    · intro h
      exact ⟨0, Nat.le_refl _, Nat.zero_le _, fun i hi => by omega, Or.inl ⟨rfl, by omega⟩⟩
    · rintro ⟨k, hk1, hk2, _, hat⟩
      exact ⟨rfl, by omega⟩
  | succ n1 ih =>
    intro n2 fuel first1 first2 hf
    obtain ⟨f, rfl⟩ : ∃ f, fuel = f + 1 := ⟨fuel - 1, by omega⟩
    rcases Nat.eq_zero_or_pos n2 with hz | hp
    · subst hz
      rw [lexicographical_compare_comp, if_neg (fun h => h.2 rfl)]
      refine ⟨_, rfl, ?_⟩
      rw [decide_eq_true_iff]
      constructor
      · intro h
        omega
      · rintro ⟨k, hk1, hk2, _, hat⟩
        omega
    · obtain ⟨k2, rfl⟩ : ∃ k2, n2 = k2 + 1 := ⟨n2 - 1, by omega⟩
      rw [lexicographical_compare_comp, if_pos ⟨by omega, by omega⟩]
      by_cases hc1 : comp (m first1) (m first2) = true
      · rw [if_pos hc1]
        refine ⟨true, rfl, ⟨fun _ => ?_, fun _ => rfl⟩⟩
        exact ⟨0, Nat.zero_le _, Nat.zero_le _, fun i hi => by omega,
          Or.inr ⟨by omega, by omega, hc1⟩⟩
      · rw [if_neg hc1]
        have hf1 : comp (m first1) (m first2) = false := Bool.eq_false_iff.2 hc1
        by_cases hc2 : comp (m first2) (m first1) = true
        · rw [if_pos hc2]
          refine ⟨false, rfl, ⟨fun h => absurd h (by decide), ?_⟩⟩
          rintro ⟨k, hk1, hk2, hpre, hat⟩
          rcases Nat.eq_zero_or_pos k with hz | hpk
          · subst hz
            rcases hat with ⟨e, _⟩ | ⟨_, _, hc⟩
            · omega
            · exact absurd hc hc1
          · have := (hpre 0 hpk).2
            rw [Nat.add_zero, Nat.add_zero, hc2] at this
            exact absurd this (by decide)
        · rw [if_neg hc2]
          have hf2 : comp (m first2) (m first1) = false := Bool.eq_false_iff.2 hc2
          have e1 : first1 + (n1 + 1) = first1 + 1 + n1 := by omega
          have e2 : first2 + (k2 + 1) = first2 + 1 + k2 := by omega
          rw [e1, e2]
          obtain ⟨b, hb, hiff⟩ := ih k2 f (first1 + 1) (first2 + 1) (by omega)
          exact ⟨b, hb, hiff.trans (lexPrecedes_succ comp m first1 n1 first2 k2 hf1 hf2).symm⟩

theorem lexPrecedes_irrefl (comp : α → α → Bool) (hirr : ∀ x, comp x x = false)
    (m : Nat → α) (first n : Nat) : ¬ LexPrecedes comp m first n first n := by
  rintro ⟨k, _, _, _, hat⟩
  rcases hat with ⟨e, hlt⟩ | ⟨_, _, hc⟩
  · omega
  · rw [hirr] at hc
    exact absurd hc (by decide)

theorem lexPrecedes_asymm (comp : α → α → Bool)
    (hasym : ∀ x y, comp x y = true → comp y x = false)
    (m : Nat → α) (first1 n1 first2 n2 : Nat) (h1 : LexPrecedes comp m first1 n1 first2 n2)
    (h2 : LexPrecedes comp m first2 n2 first1 n1) : False := by
  obtain ⟨k, hk1, hk2, hpre, hat⟩ := h1
  obtain ⟨j, hj1, hj2, hpre2, hat2⟩ := h2
  rcases Nat.lt_trichotomy k j with hlt | heq | hgt
  · rcases hat with ⟨e, _⟩ | ⟨_, _, hc⟩
    · omega
    · rw [(hpre2 k hlt).2] at hc
      exact absurd hc (by decide)
  · subst heq
    rcases hat with ⟨e, hl⟩ | ⟨_, _, hc⟩
    · rcases hat2 with ⟨e2, hl2⟩ | ⟨_, hl2, _⟩
      · omega
      · omega
    · rcases hat2 with ⟨e2, hl2⟩ | ⟨_, _, hc2⟩
      · omega
      · rw [hasym _ _ hc] at hc2
        exact absurd hc2 (by decide)
  · rcases hat2 with ⟨e, _⟩ | ⟨_, _, hc⟩
    · omega
    · rw [(hpre j hgt).2] at hc
      exact absurd hc (by decide)

theorem min_nat_succ (a b : Nat) : min (a + 1) (b + 1) = min a b + 1 := by
  unfold min
  by_cases h : b < a
  · rw [if_pos h, if_pos (by omega)]
  · rw [if_neg h, if_neg (by omega)]

theorem min_nat_zero_left (b : Nat) : min 0 b = 0 := by
  unfold min
  rw [if_neg (by omega)]

theorem min_nat_zero_right (a : Nat) : min a 0 = 0 := by
  unfold min
  by_cases h : 0 < a
  · rw [if_pos h]
  · rw [if_neg h]
    omega

/-- On valid ranges the byte overload returns what the overload with a predicate returns
for the comparison of the bytes as unsigned values. -/
theorem lexicographical_compare_bytes_eq (m : Nat → Nat) :
    ∀ n1 n2 fuel first1 first2, n1 < fuel →
      lexicographical_compare_comp (fun x y => decide (x < y)) fuel m first1 (first1 + n1)
          first2 (first2 + n2) =
        some (lexicographical_compare_bytes m first1 (first1 + n1) first2 (first2 + n2)) := by
  intro n1
  induction n1 with
  | zero =>
    intro n2 fuel first1 first2 hf
    obtain ⟨f, rfl⟩ : ∃ f, fuel = f + 1 := ⟨fuel - 1, by omega⟩
    rw [lexicographical_compare_comp, if_neg (fun h => h.1 rfl)]
    unfold lexicographical_compare_bytes
    dsimp only
    rw [Nat.add_sub_cancel_left, Nat.add_sub_cancel_left, min_nat_zero_left, memcmp,
      if_neg (fun h => h rfl)]
    exact congrArg some (decide_eq_decide.2 ⟨fun h => by omega, fun h => ⟨rfl, by omega⟩⟩)
  | succ n1 ih =>
    intro n2 fuel first1 first2 hf
    obtain ⟨f, rfl⟩ : ∃ f, fuel = f + 1 := ⟨fuel - 1, by omega⟩
    rcases Nat.eq_zero_or_pos n2 with hz | hp
    · subst hz
      rw [lexicographical_compare_comp, if_neg (fun h => h.2 rfl)]
      unfold lexicographical_compare_bytes
      dsimp only
      rw [Nat.add_sub_cancel_left, Nat.add_sub_cancel_left, min_nat_zero_right, memcmp,
        if_neg (fun h => h rfl)]
      exact congrArg some (decide_eq_decide.2 ⟨fun h => by omega, fun h => by omega⟩)
    · obtain ⟨k2, rfl⟩ : ∃ k2, n2 = k2 + 1 := ⟨n2 - 1, by omega⟩
      have hrec := ih k2 f (first1 + 1) (first2 + 1) (by omega)
      rw [lexicographical_compare_comp, if_pos ⟨by omega, by omega⟩]
      unfold lexicographical_compare_bytes at hrec ⊢
      dsimp only at hrec ⊢
      rw [Nat.add_sub_cancel_left, Nat.add_sub_cancel_left] at hrec ⊢
      rw [min_nat_succ, memcmp]
      by_cases hc1 : m first1 < m first2
      · rw [if_pos (decide_eq_true hc1), if_pos hc1]
        rfl
      · rw [if_neg (fun h => hc1 (of_decide_eq_true h)), if_neg hc1]
        by_cases hc2 : m first2 < m first1
        · rw [if_pos (decide_eq_true hc2), if_pos hc2]
          rfl
        · rw [if_neg (fun h => hc2 (of_decide_eq_true h)), if_neg hc2]
          have e1 : first1 + (n1 + 1) = first1 + 1 + n1 := by omega
          have e2 : first2 + (k2 + 1) = first2 + 1 + k2 := by omega
          rw [e1, e2, hrec]
          have e3 : decide (n1 + 1 < k2 + 1) = decide (n1 < k2) :=
            decide_eq_decide.2 ⟨fun h => by omega, fun h => by omega⟩
          rw [e3]

/-- C21, the code at the failing input: on `a = 1, 2, 3` and `b = 1, 2, 3, 4`, where `a` is
a strict prefix of `b`, the `operator<` overload of `lexicographical_compare` returns false
whatever fuel above one it is given (its second round compares `a[1]` with `b[0]`), while
the overload with a predicate, called with `<`, returns true. -/
theorem lexicographical_compare_prefix_false :
    (∀ fuel, lexicographical_compare (fuel + 2) (ofList [1, 2, 3, 1, 2, 3, 4] 0) 0 3 3 7 =
        some false) ∧
      lexicographical_compare_comp (fun x y => decide (x < y)) 4
        (ofList [1, 2, 3, 1, 2, 3, 4] 0) 0 3 3 7 = some true :=
  ⟨fun _ => rfl, by decide⟩

/-- C22: for every pair of ranges and every predicate `comp`, the overload of
`lexicographical_compare` with a predicate returns, and it returns true exactly when the
first range precedes the second in the lexicographic order that `comp` induces; when `comp`
is irreflexive and asymmetric, as every strict weak order is, the comparison of a range with
itself is false and the comparison is never true both for `(a, b)` and for `(b, a)`. -/
theorem lexicographical_compare_comp_order (comp : α → α → Bool)
    (hirr : ∀ x, comp x x = false) (hasym : ∀ x y, comp x y = true → comp y x = false)
    (m : Nat → α) (first1 n1 first2 n2 fuel : Nat) (hf1 : n1 < fuel) (hf2 : n2 < fuel) :
    (∃ b, lexicographical_compare_comp comp fuel m first1 (first1 + n1) first2 (first2 + n2) =
        some b ∧ (b = true ↔ LexPrecedes comp m first1 n1 first2 n2)) ∧
      lexicographical_compare_comp comp fuel m first1 (first1 + n1) first1 (first1 + n1) =
        some false ∧
      ¬ (lexicographical_compare_comp comp fuel m first1 (first1 + n1) first2 (first2 + n2) =
          some true ∧
        lexicographical_compare_comp comp fuel m first2 (first2 + n2) first1 (first1 + n1) =
          some true) := by
  refine ⟨lexicographical_compare_comp_spec comp m n1 n2 fuel first1 first2 hf1, ?_, ?_⟩
  · obtain ⟨b, hb, hiff⟩ := lexicographical_compare_comp_spec comp m n1 n1 fuel first1 first1 hf1
    rw [hb]
    cases b with
    | false => rfl
    | true => exact absurd (hiff.1 rfl) (lexPrecedes_irrefl comp hirr m first1 n1)
  · rintro ⟨h1, h2⟩
    obtain ⟨b, hb, hiff⟩ := lexicographical_compare_comp_spec comp m n1 n2 fuel first1 first2 hf1
    obtain ⟨c, hc, hciff⟩ := lexicographical_compare_comp_spec comp m n2 n1 fuel first2 first1 hf2
    rw [hb] at h1
    rw [hc] at h2
    exact lexPrecedes_asymm comp hasym m first1 n1 first2 n2 (hiff.1 (Option.some.inj h1))
      (hciff.1 (Option.some.inj h2))

theorem lexicographical_compare_comp_order_witness :
    ((∀ x : Nat, decide (x < x) = false) ∧
        (∀ x y : Nat, decide (x < y) = true → decide (y < x) = false) ∧ 3 < 5 ∧ 4 < 5) ∧
      lexicographical_compare_comp (fun x y => decide (x < y)) 5
        (ofList [1, 2, 3, 1, 2, 3, 4] 0) 0 (0 + 3) 0 (0 + 3) = some false :=
  ⟨⟨fun x => decide_eq_false (Nat.lt_irrefl x),
      fun x y h => decide_eq_false (Nat.lt_asymm (of_decide_eq_true h)), by decide, by decide⟩,
    (lexicographical_compare_comp_order (fun x y => decide (x < y))
      (fun x => decide_eq_false (Nat.lt_irrefl x))
      (fun x y h => decide_eq_false (Nat.lt_asymm (of_decide_eq_true h)))
      (ofList [1, 2, 3, 1, 2, 3, 4] 0) 0 3 3 4 5 (by decide) (by decide)).2.1⟩

/-- C23: for every pair of byte ranges, the `const unsigned char*` overload of
`lexicographical_compare` (a block compare of the common length, then the comparison of the
lengths) returns the boolean that the generic element-wise overload returns for the
comparison of the bytes as unsigned values. -/
theorem lexicographical_compare_bytes_agrees (m : Nat → Nat) (first1 n1 first2 n2 fuel : Nat)
    (hf : n1 < fuel) :
    lexicographical_compare_comp (fun x y => decide (x < y)) fuel m first1 (first1 + n1)
        first2 (first2 + n2) =
      some (lexicographical_compare_bytes m first1 (first1 + n1) first2 (first2 + n2)) :=
  lexicographical_compare_bytes_eq m n1 n2 fuel first1 first2 hf

theorem lexicographical_compare_bytes_agrees_witness :
    3 < 4 ∧
      lexicographical_compare_comp (fun x y => decide (x < y)) 4
          (ofList [1, 2, 3, 1, 2, 3, 4] 0) 0 (0 + 3) 3 (3 + 4) =
        some (lexicographical_compare_bytes (ofList [1, 2, 3, 1, 2, 3, 4] 0) 0 (0 + 3) 3 (3 + 4)) :=
  ⟨by decide,
    lexicographical_compare_bytes_agrees (ofList [1, 2, 3, 1, 2, 3, 4] 0) 0 3 3 4 4 (by decide)⟩

/-! ## max, min, distance -/

/-- C24: `max(lhs, rhs)` and `max(lhs, rhs, comp)` return the larger of the two arguments:
`rhs` when `lhs` is less than `rhs`, `lhs` when `rhs` is less than `lhs`, and the first
argument `lhs` when neither is less than the other; neither argument is greater than the
value returned. -/
theorem max_returns_larger [LT α] [@DecidableRel α (· < ·)] [IsStrictWeakOrder α (· < ·)]
    (comp : α → α → Bool) (hasym : ∀ x y, comp x y = true → comp y x = false) (lhs rhs : α) :
    ((lhs < rhs → max lhs rhs = rhs) ∧ (rhs < lhs → max lhs rhs = lhs) ∧
        (¬ lhs < rhs → ¬ rhs < lhs → max lhs rhs = lhs) ∧
        ¬ max lhs rhs < lhs ∧ ¬ max lhs rhs < rhs) ∧
      ((comp lhs rhs = true → max_comp lhs rhs comp = rhs) ∧
        (comp rhs lhs = true → max_comp lhs rhs comp = lhs) ∧
        (comp lhs rhs = false → comp rhs lhs = false → max_comp lhs rhs comp = lhs) ∧
        comp (max_comp lhs rhs comp) lhs = false ∧ comp (max_comp lhs rhs comp) rhs = false) := by
  unfold max max_comp
  constructor
  · by_cases h : lhs < rhs
    · rw [if_pos h]
      exact ⟨fun _ => rfl, fun h2 => absurd h (swo_asymm h2), fun h2 => absurd h h2,
        swo_asymm h, swo_irrefl rhs⟩
    · rw [if_neg h]
      exact ⟨fun h2 => absurd h2 h, fun _ => rfl, fun _ _ => rfl, swo_irrefl lhs, h⟩
  · have hirr : ∀ x, comp x x = false := by
      intro x
      by_cases hx : comp x x = true
      · have := hasym x x hx
        rw [hx] at this
        exact absurd this (by decide)
      · exact Bool.eq_false_iff.2 hx
    by_cases h : comp lhs rhs = true
    · rw [if_pos h]
      refine ⟨fun _ => rfl, fun h2 => ?_, fun h2 => ?_, hasym _ _ h, hirr rhs⟩
      · rw [hasym _ _ h2] at h
        exact absurd h (by decide)
      · rw [h2] at h
        exact absurd h (by decide)
    · rw [if_neg h]
      exact ⟨fun h2 => absurd h2 h, fun _ => rfl, fun _ _ => rfl, hirr lhs,
        Bool.eq_false_iff.2 h⟩

theorem max_returns_larger_witness :
    (∀ x y : Nat, decide (x < y) = true → decide (y < x) = false) ∧
      ((3 < 3 → max 3 3 = 3) ∧ (3 < 3 → max 3 3 = 3) ∧
        (¬ 3 < 3 → ¬ 3 < 3 → max 3 3 = 3) ∧ ¬ max 3 3 < 3 ∧ ¬ max 3 3 < 3) :=
  ⟨fun _ _ h => decide_eq_false (Nat.lt_asymm (of_decide_eq_true h)),
    (max_returns_larger (fun x y => decide (x < y))
      (fun _ _ h => decide_eq_false (Nat.lt_asymm (of_decide_eq_true h))) 3 3).1⟩

/-- C25, the code at the failing input: `min(1, 2, comp)` with `comp(x, y) := x < y` returns
`2`, the larger argument, while `min(1, 2)` returns `1`. -/
theorem min_comp_returns_larger :
    min_comp 1 2 (fun x y => decide (x < y)) = 2 ∧ min 1 2 = 1 ∧
      min_comp 1 2 (fun x y => decide (x < y)) = max_comp 1 2 (fun x y => decide (x < y)) :=
  ⟨by decide, by decide, by decide⟩

theorem distance_input_loop_eq :
    ∀ n fuel first (acc : Int), n < fuel →
      distance_dispatch_input_loop fuel first (first + n) acc = some (acc + (n : Int)) := by
  intro n
  induction n with
  | zero =>
    intro fuel first acc hf
    obtain ⟨f, rfl⟩ : ∃ f, fuel = f + 1 := ⟨fuel - 1, by omega⟩
    rw [distance_dispatch_input_loop, if_neg (by omega)]
    exact congrArg some (by omega)
  | succ n ih =>
    intro fuel first acc hf
    obtain ⟨f, rfl⟩ : ∃ f, fuel = f + 1 := ⟨fuel - 1, by omega⟩
    rw [distance_dispatch_input_loop, if_pos (by omega)]
    have e : first + (n + 1) = first + 1 + n := by omega
    rw [e, ih f _ _ (by omega)]
    exact congrArg some (by omega)

/-- On a valid range both versions of `distance` return the length of the range. -/
theorem distance_spec (o : DistanceOverload) (first last fuel : Nat) (hle : first ≤ last)
    (hf : last - first < fuel) :
    distance o fuel first last = some ((last - first : Nat) : Int) := by
  cases o with
  | cat_input =>
    show distance_dispatch_input_loop fuel first last 0 = _
    have e : last = first + (last - first) := by omega
    rw [e, distance_input_loop_eq (last - first) fuel first 0 (by omega)]
    exact congrArg some (by omega)
  | cat_random_access =>
    show some (distance_dispatch_random_access first last) = _
    unfold distance_dispatch_random_access
    exact congrArg some (by omega)

/-- C26: on a valid range, `last` reachable from `first`, the distance that the
input-iterator version counts by repeated advancement is the difference `last - first` of
the random-access version: `distance` returns the number of elements of the range whichever
version is selected. -/
theorem distance_counts_elements (first last fuel : Nat) (hle : first ≤ last)
    (hf : last - first < fuel) :
    distance DistanceOverload.cat_input fuel first last = some ((last - first : Nat) : Int) ∧
      distance DistanceOverload.cat_random_access fuel first last =
        some ((last - first : Nat) : Int) ∧
      distance DistanceOverload.cat_input fuel first last =
        distance DistanceOverload.cat_random_access fuel first last :=
  ⟨distance_spec _ first last fuel hle hf, distance_spec _ first last fuel hle hf,
    (distance_spec _ first last fuel hle hf).trans (distance_spec _ first last fuel hle hf).symm⟩

theorem distance_counts_elements_witness :
    (2 ≤ 5 ∧ 5 - 2 < 4) ∧
      distance DistanceOverload.cat_input 4 2 5 = some ((5 - 2 : Nat) : Int) :=
  ⟨⟨by decide, by decide⟩, (distance_counts_elements 2 5 4 (by decide) (by decide)).1⟩

/-! ## Temporary buffers -/

theorem half_pow (n j : Nat) : n / 2 / 2 ^ j = n / 2 ^ (j + 1) := by
  rw [Nat.div_div_eq_div_mul, Nat.pow_succ, Nat.mul_comm]

theorem get_buffer_helper_loop_nonpos (malloc : Nat → Nat → Option Nat) (sizeof_T calls : Nat)
    (len : Int) (h : len ≤ 0) :
    get_buffer_helper_loop malloc sizeof_T calls len = ((none, 0), calls) := by
  rw [get_buffer_helper_loop, dif_neg (by omega)]

/-- The loop of `get_buffer_helper`, started with the request `n`: it returns the first of
`n, n / 2, n / 4, ...` that is positive and that `malloc` grants, or null and `0` when
`malloc` grants none of them. -/
theorem get_buffer_helper_loop_spec (malloc : Nat → Nat → Option Nat) (sizeof_T : Nat) :
    ∀ n calls,
      (∃ j p, 0 < n / 2 ^ j ∧
        (∀ i, i < j → malloc (calls + i) (n / 2 ^ i * sizeof_T) = none) ∧
        malloc (calls + j) (n / 2 ^ j * sizeof_T) = some p ∧
        get_buffer_helper_loop malloc sizeof_T calls (n : Int) =
          ((some p, ((n / 2 ^ j : Nat) : Int)), calls + j + 1)) ∨
      ((∀ i, 0 < n / 2 ^ i → malloc (calls + i) (n / 2 ^ i * sizeof_T) = none) ∧
        ∃ k, get_buffer_helper_loop malloc sizeof_T calls (n : Int) = ((none, 0), calls + k)) := by
  intro n
  induction n using Nat.strong_induction_on with
  | _ n ih =>
    intro calls
    rcases Nat.eq_zero_or_pos n with hz | hp
    · subst hz
      right
      refine ⟨fun i hi => ?_, 0, get_buffer_helper_loop_nonpos malloc sizeof_T calls _ (by omega)⟩
      rw [Nat.zero_div] at hi
      omega
    · have hpos : (n : Int) > 0 := by omega
      have e0 : n / 2 ^ 0 = n := by rw [Nat.pow_zero, Nat.div_one]
      have e2 : (n : Int) / 2 = ((n / 2 : Nat) : Int) := by omega
      rw [get_buffer_helper_loop, dif_pos hpos, Int.toNat_ofNat, e2]
      cases hm : malloc calls (n * sizeof_T) with
      | some p =>
        left
        refine ⟨0, p, by omega, fun i hi => by omega, ?_, ?_⟩
        · rw [e0]
          exact hm
        · rw [e0]
      | none =>
        dsimp only
        rcases ih (n / 2) (by omega) (calls + 1) with ⟨j, p, hj, hfail, hok, hres⟩ | ⟨hfail, k, hres⟩
        · left
          refine ⟨j + 1, p, ?_, ?_, ?_, ?_⟩
          · rw [← half_pow]
            exact hj
          · intro i hi
            rcases Nat.eq_zero_or_pos i with hz | hpi
            · subst hz
              rw [e0]
              exact hm
            · have := hfail (i - 1) (by omega)
              rw [half_pow] at this
              have e3 : calls + 1 + (i - 1) = calls + i := by omega
              have e4 : i - 1 + 1 = i := by omega
              rwa [e3, e4] at this
          · rw [half_pow] at hok
            have e3 : calls + 1 + j = calls + (j + 1) := by omega
            rwa [e3] at hok
          · rw [hres, half_pow]
            have e3 : calls + 1 + j + 1 = calls + (j + 1) + 1 := by omega
            rw [e3]
        · right
          refine ⟨?_, k + 1, ?_⟩
          · intro i hi
            rcases Nat.eq_zero_or_pos i with hz | hpi
            · subst hz
              rw [e0]
              exact hm
            · have e4 : i - 1 + 1 = i := by omega
              have := hfail (i - 1) (by rw [half_pow, e4]; exact hi)
              rw [half_pow] at this
              have e3 : calls + 1 + (i - 1) = calls + i := by omega
              rwa [e3, e4] at this
          · rw [hres]
            have e3 : calls + 1 + k = calls + (k + 1) := by omega
            rw [e3]

theorem first_request_le (INT_MAX sizeof_T : Nat) (len : Int) (h : 0 < len) :
    ((first_request INT_MAX sizeof_T len : Nat) : Int) ≤ len := by
  unfold first_request
  split <;> omega

theorem get_temporary_buffer_eq_loop (malloc : Nat → Nat → Option Nat) (INT_MAX sizeof_T : Nat)
    (len : Int) (h : 0 < len) :
    get_temporary_buffer malloc INT_MAX sizeof_T len =
      get_buffer_helper_loop malloc sizeof_T 0 ((first_request INT_MAX sizeof_T len : Nat) : Int) := by
  unfold get_temporary_buffer get_buffer_helper first_request
  by_cases hc : len > ((INT_MAX / sizeof_T : Nat) : Int)
  · rw [if_pos hc, if_neg (by omega), Int.toNat_ofNat]
  · rw [if_neg hc, if_pos (by omega), Int.toNat_of_nonneg (by omega)]

/-- C27: for every requested length `len` and every behaviour of `malloc`,
`get_temporary_buffer` returns.  For `len ≤ 0` it returns null and `0` without a call of
`malloc`.  Otherwise it returns either a block and the granted length `k`, where
`0 < k ≤ len` and `k` is the first value of the sequence `min(len, INT_MAX / sizeof(T))`,
then successive halvings, at which `malloc` succeeded, or null and `0`, all the positive
values of the sequence having been refused. -/
theorem get_temporary_buffer_granted (malloc : Nat → Nat → Option Nat)
    (INT_MAX sizeof_T : Nat) (len : Int) :
    (len ≤ 0 → get_temporary_buffer malloc INT_MAX sizeof_T len = ((none, 0), 0)) ∧
      (0 < len →
        (∃ j p, 0 < first_request INT_MAX sizeof_T len / 2 ^ j ∧
          ((first_request INT_MAX sizeof_T len / 2 ^ j : Nat) : Int) ≤ len ∧
          (∀ i, i < j → malloc i (first_request INT_MAX sizeof_T len / 2 ^ i * sizeof_T) = none) ∧
          malloc j (first_request INT_MAX sizeof_T len / 2 ^ j * sizeof_T) = some p ∧
          get_temporary_buffer malloc INT_MAX sizeof_T len =
            ((some p, ((first_request INT_MAX sizeof_T len / 2 ^ j : Nat) : Int)), j + 1)) ∨
        ((∀ i, 0 < first_request INT_MAX sizeof_T len / 2 ^ i →
            malloc i (first_request INT_MAX sizeof_T len / 2 ^ i * sizeof_T) = none) ∧
          (get_temporary_buffer malloc INT_MAX sizeof_T len).1 = (none, 0))) := by
  constructor
  · intro h
    unfold get_temporary_buffer get_buffer_helper
    exact get_buffer_helper_loop_nonpos malloc sizeof_T 0 _ (by split <;> omega)
  · intro h
    rw [get_temporary_buffer_eq_loop malloc INT_MAX sizeof_T len h]
    rcases get_buffer_helper_loop_spec malloc sizeof_T (first_request INT_MAX sizeof_T len) 0
      with ⟨j, p, hj, hfail, hok, hres⟩ | ⟨hfail, k, hres⟩
    · left
      refine ⟨j, p, hj, ?_, ?_, ?_, ?_⟩
      · have h1 := first_request_le INT_MAX sizeof_T len h
        have h2 : first_request INT_MAX sizeof_T len / 2 ^ j ≤ first_request INT_MAX sizeof_T len :=
          Nat.div_le_self _ _
        omega
      · intro i hi
        have := hfail i hi
        rwa [Nat.zero_add] at this
      · rwa [Nat.zero_add] at hok
      · rw [hres, Nat.zero_add]
    · right
      refine ⟨?_, ?_⟩
      · intro i hi
        have := hfail i hi
        rwa [Nat.zero_add] at this
      · rw [hres]

theorem get_temporary_buffer_granted_witness :
    (-3 : Int) ≤ 0 ∧
      get_temporary_buffer (fun _ _ => some 7) 2147483647 4 (-3) = ((none, 0), 0) :=
  ⟨by decide, (get_temporary_buffer_granted (fun _ _ => some 7) 2147483647 4 (-3)).1 (by decide)⟩

/-- C28: when the initialization of the elements fails while a `temporary_buffer` is
constructed from a valid range (it is attempted when storage of positive length has been
acquired and `T` is not trivially default constructible), the constructor returns, and the
buffer it leaves reports `size() == 0`, holds no storage, and reports the length of the
range as `requested_size()`. -/
theorem temporary_buffer_construct_catches (malloc : Nat → Nat → Option Nat)
    (INT_MAX sizeof_T : Nat) (initialize_buffer_throws : Option Nat → Int → Bool)
    (members : temporary_buffer) (o : DistanceOverload) (fuel first last : Nat)
    (hle : first ≤ last) (hf : last - first < fuel)
    (hlen : (allocate_buffer malloc INT_MAX sizeof_T
      { members with len := ((last - first : Nat) : Int) }).len > 0)
    (hthrows : initialize_buffer_throws
      (allocate_buffer malloc INT_MAX sizeof_T
        { members with len := ((last - first : Nat) : Int) }).buffer
      (allocate_buffer malloc INT_MAX sizeof_T
        { members with len := ((last - first : Nat) : Int) }).len = true) :
    ∃ b, temporary_buffer.construct malloc INT_MAX sizeof_T false initialize_buffer_throws
        members o fuel first last = some b ∧
      b.size = 0 ∧ b.buffer = none ∧ b.requested_size = ((last - first : Nat) : Int) := by
  unfold temporary_buffer.construct
  rw [distance_spec o first last fuel hle hf]
  dsimp only
  rw [if_pos ⟨hlen, rfl, hthrows⟩]
  exact ⟨_, rfl, rfl, rfl, rfl⟩

theorem temporary_buffer_construct_catches_witness :
    (0 ≤ 2 ∧ 2 - 0 < 3 ∧
      (allocate_buffer (fun _ _ => some 7) 2147483647 4
        { original_len := 0, len := ((2 - 0 : Nat) : Int), buffer := none }).len > 0 ∧
      (fun (_ : Option Nat) (_ : Int) => true)
        (allocate_buffer (fun _ _ => some 7) 2147483647 4
          { original_len := 0, len := ((2 - 0 : Nat) : Int), buffer := none }).buffer
        (allocate_buffer (fun _ _ => some 7) 2147483647 4
          { original_len := 0, len := ((2 - 0 : Nat) : Int), buffer := none }).len = true) ∧
      ∃ b, temporary_buffer.construct (fun _ _ => some 7) 2147483647 4 false
          (fun _ _ => true) { original_len := 0, len := 0, buffer := none }
          DistanceOverload.cat_random_access 3 0 2 = some b ∧
        b.size = 0 ∧ b.buffer = none ∧ b.requested_size = ((2 - 0 : Nat) : Int) :=
  have hlen : (allocate_buffer (fun _ _ => some 7) 2147483647 4
      { original_len := 0, len := ((2 - 0 : Nat) : Int), buffer := none }).len > 0 := by
    unfold allocate_buffer
    rw [allocate_buffer_loop]
    decide
  ⟨⟨by decide, by decide, hlen, rfl⟩,
    temporary_buffer_construct_catches (fun _ _ => some 7) 2147483647 4 (fun _ _ => true)
      { original_len := 0, len := 0, buffer := none } DistanceOverload.cat_random_access 3 0 2
      (by decide) (by decide) hlen rfl⟩

/-! ## Short ranges and ties -/

/-- C29: `make_heap` leaves every range of length 0 or 1 exactly as it was, and no element
is read or written: the storage returned is the storage given, and the run with the
accesses recorded returns the same storage with an empty list of accesses. -/
theorem make_heap_short_range [LT α] [@DecidableRel α (· < ·)] (a : Nat → α) (n : Nat)
    (hn : n < 2) : make_heap a n = a ∧ make_heap_log a n = (a, []) := by
  constructor
  · unfold make_heap make_heap_aux
    rw [if_pos hn]
  · unfold make_heap_log make_heap_aux_log
    rw [if_pos hn]

theorem make_heap_short_range_witness :
    1 < 2 ∧ make_heap (ofList [7] 0) 1 = ofList [7] 0 ∧
      make_heap_log (ofList [7] 0) 1 = (ofList [7] 0, []) :=
  ⟨by decide, make_heap_short_range (ofList [7] 0) 1 (by decide)⟩

/-- One round of the sift-down loop on a hole with both children in range: the left child
moves into the hole when the right child is less than the left, the right child otherwise. -/
theorem adjust_heap_down_step [LT α] [@DecidableRel α (· < ·)] (a : Nat → α) (p n : Nat)
    (h : 2 * p + 2 < n) :
    (a (2 * p + 2) < a (2 * p + 1) →
        adjust_heap_down a p (2 * p + 2) n =
          adjust_heap_down (Function.update a p (a (2 * p + 1))) (2 * p + 1)
            (2 * (2 * p + 1 + 1)) n) ∧
      (¬ a (2 * p + 2) < a (2 * p + 1) →
        adjust_heap_down a p (2 * p + 2) n =
          adjust_heap_down (Function.update a p (a (2 * p + 2))) (2 * p + 2)
            (2 * (2 * p + 2 + 1)) n) := by
  have e0 : 2 * p + 2 - 1 = 2 * p + 1 := by omega
  constructor
  · intro hlt
    rw [adjust_heap_down, dif_pos h, e0, if_pos hlt]

  · intro hlt
    rw [adjust_heap_down, dif_pos h, e0, if_neg hlt]


/-- C30, as stated, fails: in the range `(9, a), (5, b), (5, c)` of elements that compare by
their key, the children of the root are equivalent; after
`adjust_heap(first, 0, 3, (1, d))` the root holds `(5, c)`, the right child, and the value
has gone to the place of the right child. -/
theorem adjust_heap_tie_promotes_right :
    (¬ ofList [Keyed.mk 9 0, Keyed.mk 5 1, Keyed.mk 5 2] (Keyed.mk 0 0) 1 <
          ofList [Keyed.mk 9 0, Keyed.mk 5 1, Keyed.mk 5 2] (Keyed.mk 0 0) 2 ∧
        ¬ ofList [Keyed.mk 9 0, Keyed.mk 5 1, Keyed.mk 5 2] (Keyed.mk 0 0) 2 <
          ofList [Keyed.mk 9 0, Keyed.mk 5 1, Keyed.mk 5 2] (Keyed.mk 0 0) 1) ∧
      (adjust_heap (ofList [Keyed.mk 9 0, Keyed.mk 5 1, Keyed.mk 5 2] (Keyed.mk 0 0)) 0 3
        (Keyed.mk 1 3) 0).tag = 2 ∧
      (adjust_heap (ofList [Keyed.mk 9 0, Keyed.mk 5 1, Keyed.mk 5 2] (Keyed.mk 0 0)) 0 3
        (Keyed.mk 1 3) 1).tag = 1 ∧
      (adjust_heap (ofList [Keyed.mk 9 0, Keyed.mk 5 1, Keyed.mk 5 2] (Keyed.mk 0 0)) 0 3
        (Keyed.mk 1 3) 2).tag = 3 := by
  have hres : adjust_heap (ofList [Keyed.mk 9 0, Keyed.mk 5 1, Keyed.mk 5 2] (Keyed.mk 0 0)) 0 3
      (Keyed.mk 1 3) =
      Function.update (Function.update
        (ofList [Keyed.mk 9 0, Keyed.mk 5 1, Keyed.mk 5 2] (Keyed.mk 0 0)) 0 (Keyed.mk 5 2)) 2
        (Keyed.mk 1 3) := by
    unfold adjust_heap
    dsimp only
    rw [(adjust_heap_down_step _ 0 3 (by decide)).2 (by decide), adjust_heap_down,
      dif_neg (by decide)]
    dsimp only
    rw [if_neg (by decide), push_heap_aux, dif_neg (by decide)]
    rfl
  rw [hres]
  exact ⟨⟨by decide, by decide⟩, rfl, rfl, rfl⟩

/-- C30, amended: in sift-down, whenever the hole has both children within bounds, the left
child (index `2 * hole + 1`) is the one promoted into the hole exactly when the right child
is less than the left; when the two children compare equivalent the right child (index
`2 * hole + 2`) is promoted: the loop goes on from that child with the child stored in the
hole. -/
theorem adjust_heap_promoted_child [LT α] [@DecidableRel α (· < ·)] (a : Nat → α) (p n : Nat)
    (h : 2 * p + 2 < n) :
    (a (2 * p + 2) < a (2 * p + 1) →
        adjust_heap_down a p (2 * p + 2) n =
          adjust_heap_down (Function.update a p (a (2 * p + 1))) (2 * p + 1)
            (2 * (2 * p + 1 + 1)) n) ∧
      (¬ a (2 * p + 2) < a (2 * p + 1) →
        adjust_heap_down a p (2 * p + 2) n =
          adjust_heap_down (Function.update a p (a (2 * p + 2))) (2 * p + 2)
            (2 * (2 * p + 2 + 1)) n) ∧
      (¬ a (2 * p + 1) < a (2 * p + 2) → ¬ a (2 * p + 2) < a (2 * p + 1) →
        adjust_heap_down a p (2 * p + 2) n =
          adjust_heap_down (Function.update a p (a (2 * p + 2))) (2 * p + 2)
            (2 * (2 * p + 2 + 1)) n) :=
  ⟨(adjust_heap_down_step a p n h).1, (adjust_heap_down_step a p n h).2,
    fun _ h2 => (adjust_heap_down_step a p n h).2 h2⟩

theorem adjust_heap_promoted_child_witness :
    2 * 0 + 2 < 3 ∧
      (¬ ofList [9, 5, 5] 0 (2 * 0 + 2) < ofList [9, 5, 5] 0 (2 * 0 + 1) →
        adjust_heap_down (ofList [9, 5, 5] 0) 0 (2 * 0 + 2) 3 =
          adjust_heap_down (Function.update (ofList [9, 5, 5] 0) 0 (ofList [9, 5, 5] 0 (2 * 0 + 2)))
            (2 * 0 + 2) (2 * (2 * 0 + 2 + 1)) 3) :=
  ⟨by decide, (adjust_heap_promoted_child (ofList [9, 5, 5] 0) 0 3 (by decide)).2.1⟩

/-! ## Sift-down on a subtree -/

/-- A position of the subtree rooted at `h` other than `h` lies in the subtree rooted at
one of the two children of `h`. -/
theorem Desc.child_cases {h q : Nat} (d : Desc h q) (hne : q ≠ h) :
    Desc (2 * h + 1) q ∨ Desc (2 * h + 2) q := by
  induction d with
  | root => exact absurd rfl hne
  | left d1 ih =>
    rename_i p
    by_cases hp : p = h
    · subst hp; exact Or.inl Desc.root
    · rcases ih hp with h1 | h1
      · exact Or.inl (Desc.left h1)
      · exact Or.inr (Desc.left h1)
  | right d1 ih =>
    rename_i p
    by_cases hp : p = h
    · subst hp; exact Or.inr Desc.root
    · rcases ih hp with h1 | h1
      · exact Or.inl (Desc.right h1)
      · exact Or.inr (Desc.right h1)

/-- C32: for every `hole < len`, if the subtrees rooted at the two children of `hole` are
each in max-heap order within `[0, len)`, then after `adjust_heap(first, hole, len, value)`
the whole subtree rooted at `hole` is in max-heap order, whatever the value is. -/
theorem adjust_heap_sift_down_lemma [LT α] [IsStrictWeakOrder α (· < ·)]
    [@DecidableRel α (· < ·)] (a : Nat → α) (hole len : Nat) (value : α)
    (hh : hole < len)
    (hl : HeapOn (Desc (2 * hole + 1)) a len) (hr : HeapOn (Desc (2 * hole + 2)) a len) :
    HeapOn (Desc hole) (adjust_heap a hole len value) len := by
  apply adjust_heap_heapOn (Desc hole) len hole value (fun x hx => hx) (fun x hx => hx.le) a hh
  intro c hc0 hcn hS
  rcases hS.1.child_cases hS.2 with h1 | h1
  · exact hl c hc0 hcn h1
  · exact hr c hc0 hcn h1

theorem adjust_heap_sift_down_lemma_witness :
    HeapOn (Desc 0) (adjust_heap (ofList [1, 9, 8] 0) 0 3 1) 3 :=
  adjust_heap_sift_down_lemma (ofList [1, 9, 8] 0) 0 3 1 (by decide)
    (by
      intro c hc0 hcn hS
      have := hS.le
      omega)
    (by
      intro c hc0 hcn hS
      have := hS.le
      omega)

/-! ## The heap operations rearrange -/

/-- The function `push_heap` rearranges the cells of a non-empty range. -/
theorem push_heap_permOn [LT α] [@DecidableRel α (· < ·)] (a : Nat → α) (n : Nat)
    (hn : 0 < n) : PermOn n a (push_heap a n) := by
  unfold push_heap push_heap_d
  apply push_heap_aux_permOn n 0 (a (n - 1)) a a (n - 1) (by omega)
  rw [Function.update_eq_self]
  exact PermOn.refl _ _

/-- C34: `make_heap` produces a permutation of its input: the multiset of the elements of
the range after the call equals the multiset before it, for every array, and the cells
behind the range are as they were. -/
theorem make_heap_permutation [LT α] [@DecidableRel α (· < ·)] (a : Nat → α) (n : Nat) :
    Multiset.ofList (view (make_heap a n) n) = Multiset.ofList (view a n) ∧
      ∀ i, n ≤ i → make_heap a n i = a i :=
  ⟨Multiset.coe_eq_coe.2 (make_heap_permOn a n).view_perm,
    fun _ hi => (make_heap_permOn a n).frame hi⟩

theorem make_heap_permutation_witness :
    Multiset.ofList (view (make_heap (ofList [2, 9, 4] 0) 3) 3) =
        Multiset.ofList (view (ofList [2, 9, 4] 0) 3) ∧
      make_heap (ofList [2, 9, 4] 0) 3 5 = ofList [2, 9, 4] 0 5 :=
  ⟨(make_heap_permutation (ofList [2, 9, 4] 0) 3).1,
    (make_heap_permutation (ofList [2, 9, 4] 0) 3).2 5 (by decide)⟩

/-- C35: `push_heap` and `pop_heap` each produce a permutation of their input for every
non-empty array, with no assumption of heap order: the multiset of the elements of
`[first, last)` is unchanged by the call. -/
theorem push_pop_heap_permutation [LT α] [@DecidableRel α (· < ·)] (a : Nat → α) (n : Nat)
    (hn : 0 < n) :
    Multiset.ofList (view (push_heap a n) n) = Multiset.ofList (view a n) ∧
      Multiset.ofList (view (pop_heap a n) n) = Multiset.ofList (view a n) :=
  ⟨Multiset.coe_eq_coe.2 (push_heap_permOn a n hn).view_perm,
    Multiset.coe_eq_coe.2 (pop_heap_permOn a n hn).view_perm⟩

theorem push_pop_heap_permutation_witness :
    0 < 3 ∧
      Multiset.ofList (view (push_heap (ofList [2, 9, 4] 0) 3) 3) =
        Multiset.ofList (view (ofList [2, 9, 4] 0) 3) ∧
      Multiset.ofList (view (pop_heap (ofList [2, 9, 4] 0) 3) 3) =
        Multiset.ofList (view (ofList [2, 9, 4] 0) 3) :=
  ⟨by decide, push_pop_heap_permutation (ofList [2, 9, 4] 0) 3 (by decide)⟩

/-! ## iterator.h: category queries -/

/-- C33: for a type whose category is `c` and a required tag `u`, `has_iterator_cat_of`
holds exactly when `c` is `u` or refines `u` in the chain random_access, bidirectional,
forward, input; the five named queries are `has_iterator_cat_of` at their tag;
`output_iterator_tag` is related to none of the other four, in either direction; and a raw
pointer has the category `random_access_iterator_tag`. -/
theorem has_iterator_cat_of_refinement :
    (∀ t c u, iterator_traits_category t = some c →
      (has_iterator_cat_of t u = true ↔ TagRefines c u)) ∧
    (∀ c, iterator_traits_category (iterator_type.nested c) = some c) ∧
    (∀ t, is_input_iterator t = has_iterator_cat_of t iterator_tag.input_iterator_tag ∧
      is_forward_iterator t = has_iterator_cat_of t iterator_tag.forward_iterator_tag ∧
      is_bidirectional_iterator t =
        has_iterator_cat_of t iterator_tag.bidirectional_iterator_tag ∧
      is_random_access_iterator t =
        has_iterator_cat_of t iterator_tag.random_access_iterator_tag ∧
      is_output_iterator t = has_iterator_cat_of t iterator_tag.output_iterator_tag) ∧
    (∀ u, u ≠ iterator_tag.output_iterator_tag →
      has_iterator_cat_of (iterator_type.nested iterator_tag.output_iterator_tag) u = false ∧
      has_iterator_cat_of (iterator_type.nested u) iterator_tag.output_iterator_tag = false) ∧
    iterator_traits_category iterator_type.pointer =
      some iterator_tag.random_access_iterator_tag := by
  refine ⟨?_, ?_, fun t => ⟨rfl, rfl, rfl, rfl, rfl⟩, ?_, rfl⟩
  · intro t c u h
    unfold has_iterator_cat_of
    rw [h]
    cases c <;> cases u <;>
      simp [is_convertible, derives_from, same_tag, tag_base, TagRefines]
  · intro c
    cases c <;> rfl
  · intro u hu
    cases u <;> first | exact absurd rfl hu | exact ⟨rfl, rfl⟩

theorem has_iterator_cat_of_refinement_witness :
    iterator_traits_category iterator_type.pointer =
        some iterator_tag.random_access_iterator_tag ∧
      (has_iterator_cat_of iterator_type.pointer iterator_tag.forward_iterator_tag = true ↔
        TagRefines iterator_tag.random_access_iterator_tag iterator_tag.forward_iterator_tag) :=
  ⟨rfl, has_iterator_cat_of_refinement.1 iterator_type.pointer
    iterator_tag.random_access_iterator_tag iterator_tag.forward_iterator_tag rfl⟩

/-! ## iterator.h: advance -/

/-- The loop `while (n--) i++;` started with a count `k ≥ 0` ends after `k` rounds with
the position moved `k` steps up. -/
theorem advance_loop_up_spec (k : Nat) : ∀ (fuel : Nat) (i : Int), k < fuel →
    advance_loop_up fuel i (k : Int) = some (i + k) := by
  induction k with
  | zero =>
    intro fuel i hf
    obtain ⟨f, rfl⟩ : ∃ f, fuel = f + 1 := ⟨fuel - 1, by omega⟩
    simp [advance_loop_up]
  | succ k ih =>
    intro fuel i hf
    obtain ⟨f, rfl⟩ : ∃ f, fuel = f + 1 := ⟨fuel - 1, by omega⟩
    have hne : ((k + 1 : Nat) : Int) ≠ 0 := by omega
    have e : ((k + 1 : Nat) : Int) - 1 = (k : Int) := by omega
    rw [advance_loop_up, if_pos hne, e, ih f (i + 1) (by omega)]
    congr 1
    omega

/-- The loop `while (n++) --i;` started with a count `-k ≤ 0` ends after `k` rounds with
the position moved `k` steps down. -/
theorem advance_loop_down_spec (k : Nat) : ∀ (fuel : Nat) (i : Int), k < fuel →
    advance_loop_down fuel i (-(k : Int)) = some (i - k) := by
  induction k with
  | zero =>
    intro fuel i hf
    obtain ⟨f, rfl⟩ : ∃ f, fuel = f + 1 := ⟨fuel - 1, by omega⟩
    simp [advance_loop_down]
  | succ k ih =>
    intro fuel i hf
    obtain ⟨f, rfl⟩ : ∃ f, fuel = f + 1 := ⟨fuel - 1, by omega⟩
    have hne : -((k + 1 : Nat) : Int) ≠ 0 := by omega
    have e : -((k + 1 : Nat) : Int) + 1 = -(k : Int) := by omega
    rw [advance_loop_down, if_pos hne, e, ih f (i - 1) (by omega)]
    congr 1
    omega

/-- The loop `while (n--) i++;` started with a negative count never finds the count zero:
no amount of fuel makes it return. -/
theorem advance_loop_up_negative (fuel : Nat) : ∀ (i n : Int), n < 0 →
    advance_loop_up fuel i n = none := by
  induction fuel with
  | zero => intro i n _; rfl
  | succ f ih =>
    intro i n hn
    have hne : n ≠ 0 := by omega
    rw [advance_loop_up, if_pos hne]
    exact ih (i + 1) (n - 1) (by omega)

/-- The bidirectional overload moves the position by exactly `n`, for either sign. -/
theorem advance_bidirectional_spec (fuel : Nat) (i n : Int) (hf : n.natAbs < fuel) :
    advance_dispatch_bidirectional fuel i n = some (i + n) := by
  unfold advance_dispatch_bidirectional
  by_cases hn : n ≥ 0
  · rw [if_pos hn]
    obtain ⟨k, rfl⟩ : ∃ k : Nat, n = (k : Int) := ⟨n.natAbs, by omega⟩
    exact advance_loop_up_spec k fuel i (by simpa using hf)
  · rw [if_neg hn]
    obtain ⟨k, rfl⟩ : ∃ k : Nat, n = -(k : Int) := ⟨n.natAbs, by omega⟩
    rw [advance_loop_down_spec k fuel i (by simpa using hf)]
    rfl

/-- C39: `advance` moves a position by exactly `n` steps under every dispatch that accepts
`n`: with fuel for more than `|n|` rounds the bidirectional overload returns what the
random-access `i += n` returns, for every `n`, negative ones included; the input overload
returns it for every `n ≥ 0`; and on a bidirectional position `advance(i, n)` followed by
`advance(i, -n)` returns to `i`. -/
theorem advance_exact (fuel : Nat) (i n : Int) (hf : n.natAbs < fuel) :
    advance AdvanceOverload.cat_bidirectional fuel i n =
        advance AdvanceOverload.cat_random_access fuel i n ∧
      advance AdvanceOverload.cat_random_access fuel i n = some (i + n) ∧
      (0 ≤ n → advance AdvanceOverload.cat_input fuel i n =
        advance AdvanceOverload.cat_random_access fuel i n) ∧
      (advance AdvanceOverload.cat_bidirectional fuel i n).bind
        (fun j => advance AdvanceOverload.cat_bidirectional fuel j (-n)) = some i := by
  have hb := advance_bidirectional_spec fuel i n hf
  refine ⟨hb, rfl, ?_, ?_⟩
  · intro hn
    show advance_loop_up fuel i n = some (i + n)
    obtain ⟨k, rfl⟩ : ∃ k : Nat, n = (k : Int) := ⟨n.natAbs, by omega⟩
    exact advance_loop_up_spec k fuel i (by simpa using hf)
  · show (advance_dispatch_bidirectional fuel i n).bind
      (fun j => advance_dispatch_bidirectional fuel j (-n)) = some i
    rw [hb, Option.some_bind, advance_bidirectional_spec fuel (i + n) (-n) (by simpa using hf)]
    congr 1
    omega

theorem advance_exact_witness :
    (-2 : Int).natAbs < 3 ∧
      advance AdvanceOverload.cat_bidirectional 3 5 (-2) = some (5 + -2) :=
  ⟨by decide, ((advance_exact 3 5 (-2) (by decide)).1).trans
    (advance_exact 3 5 (-2) (by decide)).2.1⟩

/-! ## iterator.h: reverse_iterator -/

/-- C40: for every reverse iterator `r` and every `n`: `(r + n).base()` is
`r.base() - n`; `(r + n) - r` is `n`; `r[n]` is the element at index `r.base() - n - 1`,
so that `*r` is the element just before `base()`; and `a < b` holds exactly when
`b - a > 0`. -/
theorem reverse_iterator_arithmetic (m : Int → α) (r a b : reverse_iterator) (n : Int) :
    (r.add n).base = r.base - n ∧
      reverse_iterator.diff (r.add n) r = n ∧
      reverse_iterator.index m r n = m (r.base - n - 1) ∧
      reverse_iterator.deref m r = m (r.base - 1) ∧
      (reverse_iterator.lt a b = true ↔ reverse_iterator.diff b a > 0) := by
  refine ⟨rfl, ?_, rfl, rfl, ?_⟩
  · show r.current - (r.current - n) = n
    omega
  · show decide (b.current < a.current) = true ↔ a.current - b.current > 0
    rw [decide_eq_true_iff]
    omega

/-! ## Sift-up: the path of the hole -/

/-- C38: `push_heap` on a range of length `n ≥ 1` changes only positions on the path from
index `n - 1` to the root (`n - 1`, its parent `(n - 1 - 1) / 2`, the parent of that, and
so on): every position not on that path holds the same element after the call as before. -/
theorem push_heap_changes_only_root_path [LT α] [@DecidableRel α (· < ·)] (a : Nat → α)
    (n : Nat) (_hn : 1 ≤ n) (i : Nat) (hi : ¬ OnRootPath (n - 1) i) :
    push_heap a n i = a i := by
  unfold push_heap push_heap_d
  obtain ⟨a1, p1, hP, _, heq⟩ := push_heap_aux_rule 0 (a (n - 1))
    (fun a1 p1 => OnRootPath (n - 1) p1 ∧ ∀ j, ¬ OnRootPath (n - 1) j → a1 j = a j)
    (fun a1 p1 hP _ _ => by
      obtain ⟨⟨k, hk⟩, hfr⟩ := hP
      refine ⟨⟨k + 1, ?_⟩, ?_⟩
      · rw [Function.iterate_succ_apply', hk]
        rfl
      · intro j hj
        have hne : j ≠ p1 := fun e => hj ⟨k, hk.trans e.symm⟩
        rw [Function.update_noteq hne]
        exact hfr j hj)
    (n - 1) a ⟨⟨0, rfl⟩, fun _ _ => rfl⟩
  rw [heq]
  have hne : i ≠ p1 := fun e => hi (e ▸ hP.1)
  rw [Function.update_noteq hne]
  exact hP.2 i hi

theorem push_heap_changes_only_root_path_witness :
    1 ≤ 4 ∧ ¬ OnRootPath (4 - 1) 2 ∧
      push_heap (ofList [5, 3, 4, 9] 0) 4 2 = ofList [5, 3, 4, 9] 0 2 :=
  have h : ¬ OnRootPath (4 - 1) 2 := by
    rintro ⟨k, hk⟩
    rcases k with _ | _ | _ | k
    · exact absurd hk (by decide)
    · exact absurd hk (by decide)
    · exact absurd hk (by decide)
    · have h0 : ∀ j, parent_index^[j] 0 = 0 := by
        intro j
        induction j with
        | zero => rfl
        | succ j ih => rw [Function.iterate_succ_apply', ih]; rfl
      have e : parent_index^[k + 1 + 1 + 1] (4 - 1) = parent_index^[k + 1] 0 := by
        rw [Function.iterate_add_apply, Function.iterate_add_apply]
        rfl
      rw [e, h0] at hk
      exact absurd hk (by decide)
  ⟨by decide, h, push_heap_changes_only_root_path (ofList [5, 3, 4, 9] 0) 4 (by decide) 2 h⟩

theorem desc_subtree_of_subtree {x y z : Nat} (h1 : Desc x y) (h2 : Desc y z) : Desc x z := by
  induction h2 with
  | root => exact h1
  | left _ ih => exact Desc.left ih
  | right _ ih => exact Desc.right ih

/-- Two positions that both have `h` in their subtree lie on one path: one of them is in
the subtree of the other. -/
theorem Desc.comparable : ∀ (h : Nat) {x y : Nat}, Desc x h → Desc y h → Desc x y ∨ Desc y x := by
  intro h
  induction h using Nat.strong_induction_on with
  | _ h ih =>
    intro x y dx dy
    by_cases hx : h = x
    · subst hx; exact Or.inr dy
    · by_cases hy : h = y
      · subst hy; exact Or.inl dx
      · have := dx.le
        exact ih ((h - 1) / 2) (by omega) (dx.parent hx) (dy.parent hy)

/-- Where the pairs that do not involve the hole are in heap order, a position is not less
than any position of its subtree that lies before the hole. -/
theorem heap_ancestor_not_lt [LT α] [IsStrictWeakOrder α (· < ·)] (a : Nat → α)
    (hole n : Nat)
    (hheap : ∀ c, 0 < c → c < n → c ≠ hole → (c - 1) / 2 ≠ hole → ¬ a ((c - 1) / 2) < a c)
    {q x : Nat} (d : Desc q x) (hx : x < hole) (hxn : x < n) : ¬ a q < a x := by
  induction d with
  | root => exact swo_irrefl _
  | left d1 ih =>
    rename_i p
    have h1 := hheap (2 * p + 1) (by omega) hxn (by omega) (by omega)
    have e : (2 * p + 1 - 1) / 2 = p := by omega
    rw [e] at h1
    exact not_lt_trans (ih (by omega) (by omega)) h1
  | right d1 ih =>
    rename_i p
    have h1 := hheap (2 * p + 2) (by omega) hxn (by omega) (by omega)
    have e : (2 * p + 2 - 1) / 2 = p := by omega
    rw [e] at h1
    exact not_lt_trans (ih (by omega) (by omega)) h1

/-- C31: sift-up (`push_heap_aux`) on an array whose pairs not involving the hole are in
max-heap order: the value is finally written at a position `p` on the path from the hole
towards the root, inside the subtree of `topIndex` when the hole is; no ancestor of `p`
down to `topIndex` is less than the value; every position of the path below `p` holds the
element of its parent, moved down, and each of these elements was less than the value; all
other positions are unchanged. -/
theorem push_heap_aux_resting_place [LT α] [IsStrictWeakOrder α (· < ·)]
    [@DecidableRel α (· < ·)] (a : Nat → α) (hole top n : Nat) (v : α) (hn : hole < n)
    (hheap : ∀ c, 0 < c → c < n → c ≠ hole → (c - 1) / 2 ≠ hole → ¬ a ((c - 1) / 2) < a c) :
    ∃ p, (Desc top hole → Desc top p) ∧ Desc p hole ∧ push_heap_aux a hole top v p = v ∧
      (∀ q, Desc top q → Desc q p → q ≠ p → ¬ push_heap_aux a hole top v q < v) ∧
      (∀ q, Desc p q → Desc q hole → q ≠ p →
        push_heap_aux a hole top v q = a ((q - 1) / 2) ∧ a ((q - 1) / 2) < v) ∧
      (∀ q, ¬ (Desc p q ∧ Desc q hole) → push_heap_aux a hole top v q = a q) := by
  obtain ⟨a1, p1, hP, hexit, heq⟩ := push_heap_aux_rule top v
    (fun a1 p1 => (Desc top hole → Desc top p1) ∧ Desc p1 hole ∧
      (∀ q, ¬ (Desc p1 q ∧ Desc q hole) → a1 q = a q) ∧
      (∀ q, Desc p1 q → Desc q hole → q ≠ p1 →
        a1 q = a ((q - 1) / 2) ∧ a ((q - 1) / 2) < v))
    (fun a1 p1 hP hgt hlt => by
      obtain ⟨dt, dh, hfr, hmv⟩ := hP
      have hpar : Desc ((p1 - 1) / 2) p1 := Desc.of_parent (by omega) Desc.root
      have hparne : ¬ Desc p1 ((p1 - 1) / 2) := fun d => by
        have := d.le
        omega
      have hapar : a1 ((p1 - 1) / 2) = a ((p1 - 1) / 2) := hfr _ (fun h => hparne h.1)
      refine ⟨fun hd => (dt hd).parent (by omega), desc_subtree_of_subtree hpar dh, ?_, ?_⟩
      · intro q hq
        have hne : q ≠ p1 := fun e => hq ⟨e ▸ hpar, e ▸ dh⟩
        rw [Function.update_noteq hne]
        exact hfr q (fun h => hq ⟨desc_subtree_of_subtree hpar h.1, h.2⟩)
      · intro q dq dqh hqne
        by_cases hq : q = p1
        · subst hq
          rw [Function.update_same, hapar]
          exact ⟨rfl, hapar ▸ hlt⟩
        · rw [Function.update_noteq hq]
          rcases Desc.comparable hole dqh dh with h1 | h1
          · exfalso
            have h2 := h1.parent (fun e => hq e.symm)
            have := h2.le
            have := dq.le
            omega
          · exact hmv q h1 dqh hq)
    hole a ⟨fun hd => hd, Desc.root, fun _ _ => rfl, fun q d1 d2 hne => by
      have := d1.le
      have := d2.le
      omega⟩
  obtain ⟨dt, dh, hfr, hmv⟩ := hP
  refine ⟨p1, dt, dh, ?_, ?_, ?_, ?_⟩
  · rw [heq, Function.update_same]
  · intro q dtq dqp hne
    rw [heq, Function.update_noteq hne]
    have hq := dqp.le
    have ht := dtq.le
    have hh := dh.le
    rw [hfr q (fun h => by
      have := h.1.le
      omega)]
    have hex : ¬ a1 ((p1 - 1) / 2) < v := fun h => hexit ⟨by omega, h⟩
    rw [hfr _ (fun h => by
      have := h.1.le
      omega)] at hex
    exact not_lt_trans
      (heap_ancestor_not_lt a hole n hheap (dqp.parent (fun e => hne e.symm)) (by omega)
        (by omega)) hex
  · intro q dq dqh hne
    rw [heq, Function.update_noteq hne]
    exact hmv q dq dqh hne
  · intro q hq
    have hne : q ≠ p1 := fun e => hq ⟨e ▸ Desc.root, e ▸ dh⟩
    rw [heq, Function.update_noteq hne]
    exact hfr q hq

theorem push_heap_aux_resting_place_witness :
    ∃ p, (Desc 0 2 → Desc 0 p) ∧ Desc p 2 ∧
      push_heap_aux (ofList [9, 5, 7] 0) 2 0 8 p = 8 ∧
      (∀ q, Desc 0 q → Desc q p → q ≠ p → ¬ push_heap_aux (ofList [9, 5, 7] 0) 2 0 8 q < 8) ∧
      (∀ q, Desc p q → Desc q 2 → q ≠ p →
        push_heap_aux (ofList [9, 5, 7] 0) 2 0 8 q = ofList [9, 5, 7] 0 ((q - 1) / 2) ∧
          ofList [9, 5, 7] 0 ((q - 1) / 2) < 8) ∧
      (∀ q, ¬ (Desc p q ∧ Desc q 2) →
        push_heap_aux (ofList [9, 5, 7] 0) 2 0 8 q = ofList [9, 5, 7] 0 q) :=
  push_heap_aux_resting_place (ofList [9, 5, 7] 0) 2 0 3 8 (by decide)
    (by
      intro c h0 h3 h2 _
      have e : c = 1 := by omega
      subst e
      decide)

/-! ## Termination of the heap loops -/

/-- C37: the loops of the heap algorithms each run on a measure that strictly decreases.
A round of the sift-down loop of `adjust_heap` is taken only while `rchild < len` and
leaves a strictly larger `rchild`, and the loop is over once `rchild ≥ len`; a round of
the sift-up loop of `push_heap_aux` is taken only while `holeIndex > topIndex` and leaves a
strictly smaller `holeIndex`; the countdown of `make_heap` starts at `(len - 2) / 2` for
`len ≥ 2`, goes down by one per round and returns at `0`; a round of `sort_heap` is taken
only while the range has more than one element and leaves a range shorter by one. -/
theorem heap_loops_terminate [LT α] [@DecidableRel α (· < ·)] (a : Nat → α) (v : α) :
    (∀ hole rchild len, rchild < len →
      ∃ r1, (r1 = rchild - 1 ∨ r1 = rchild) ∧ rchild < 2 * (r1 + 1) ∧
        len - 2 * (r1 + 1) < len - rchild ∧
        adjust_heap_down a hole rchild len =
          adjust_heap_down (Function.update a hole (a r1)) r1 (2 * (r1 + 1)) len) ∧
    (∀ hole rchild len, ¬ rchild < len →
      adjust_heap_down a hole rchild len = (a, hole, rchild)) ∧
    (∀ hole top, hole > top → a ((hole - 1) / 2) < v →
      (hole - 1) / 2 < hole ∧
        push_heap_aux a hole top v =
          push_heap_aux (Function.update a hole (a ((hole - 1) / 2))) ((hole - 1) / 2) top v) ∧
    (∀ hole top, ¬ (hole > top ∧ a ((hole - 1) / 2) < v) →
      push_heap_aux a hole top v = Function.update a hole v) ∧
    (∀ len, 2 ≤ len → make_heap a len = make_heap_loop a len ((len - 2) / 2)) ∧
    (∀ len hole, make_heap_loop a len (hole + 1) =
      make_heap_loop (adjust_heap a (hole + 1) len (a (hole + 1))) len hole) ∧
    (∀ len, make_heap_loop a len 0 = adjust_heap a 0 len (a 0)) ∧
    (∀ last, last > 1 →
      last - 1 < last ∧ sort_heap a last = sort_heap (pop_heap a last) (last - 1)) ∧
    (∀ last, ¬ last > 1 → sort_heap a last = a) := by
  refine ⟨?_, ?_, ?_, ?_, ?_, ?_, ?_, ?_, ?_⟩
  · intro hole rchild len h
    refine ⟨if a rchild < a (rchild - 1) then rchild - 1 else rchild, ?_, ?_, ?_, ?_⟩
    · split
      · exact Or.inl rfl
      · exact Or.inr rfl
    · split <;> omega
    · split <;> omega
    · rw [adjust_heap_down, dif_pos h]
  · intro hole rchild len h
    rw [adjust_heap_down, dif_neg h]
  · intro hole top hgt hlt
    refine ⟨by omega, ?_⟩
    rw [push_heap_aux, dif_pos ⟨hgt, hlt⟩]
  · intro hole top h
    rw [push_heap_aux, dif_neg h]
  · intro len hlen
    unfold make_heap make_heap_aux
    rw [if_neg (by omega)]
  · intro len hole
    rw [make_heap_loop, dif_neg (by omega)]
    rfl
  · intro len
    rw [make_heap_loop, dif_pos rfl]
  · intro last h
    refine ⟨by omega, ?_⟩
    rw [sort_heap, dif_pos h]
  · intro last h
    rw [sort_heap, dif_neg h]

theorem heap_loops_terminate_witness :
    (2 < 3 ∧ ∃ r1, (r1 = 2 - 1 ∨ r1 = 2) ∧ 2 < 2 * (r1 + 1) ∧ 3 - 2 * (r1 + 1) < 3 - 2 ∧
      adjust_heap_down (ofList [1, 9, 8] 0) 0 2 3 =
        adjust_heap_down (Function.update (ofList [1, 9, 8] 0) 0 (ofList [1, 9, 8] 0 r1)) r1
          (2 * (r1 + 1)) 3) ∧
      (3 > 1 ∧ 3 - 1 < 3 ∧
        sort_heap (ofList [1, 9, 8] 0) 3 = sort_heap (pop_heap (ofList [1, 9, 8] 0) 3) (3 - 1)) :=
  ⟨⟨by decide, (heap_loops_terminate (ofList [1, 9, 8] 0) 0).1 0 2 3 (by decide)⟩,
    ⟨by decide, (heap_loops_terminate (ofList [1, 9, 8] 0) 0).2.2.2.2.2.2.2.1 3 (by decide)⟩⟩

/-! ## The positions the heap algorithms access -/

section access

variable [LT α] [@DecidableRel α (· < ·)]

theorem push_heap_aux_log_fst (top : Nat) (v : α) : ∀ (p : Nat) (a : Nat → α),
    (push_heap_aux_log a p top v).1 = push_heap_aux a p top v := by
  intro p
  induction p using Nat.strong_induction_on with
  | _ p ih =>
    intro a
    rw [push_heap_aux_log, push_heap_aux]
    by_cases h1 : p > top
    · by_cases h2 : a ((p - 1) / 2) < v
      · simp only [h1, h2, and_self, ↓reduceDIte, ↓reduceIte]
        exact ih ((p - 1) / 2) (by omega) _
      · simp only [h1, h2, and_false, ↓reduceDIte, ↓reduceIte]
    · simp only [h1, false_and, ↓reduceDIte]

/-- Sift-up from a hole in the subtree of `top` reads and writes only positions between
`top` and the hole. -/
theorem push_heap_aux_log_bound (top n : Nat) (v : α) : ∀ (p : Nat) (a : Nat → α),
    Desc top p → p < n →
    ∀ x ∈ (push_heap_aux_log a p top v).2, top ≤ x.index ∧ x.index < n := by
  intro p
  induction p using Nat.strong_induction_on with
  | _ p ih =>
    intro a hd hp
    have hle := hd.le
    rw [push_heap_aux_log]
    by_cases h1 : p > top
    · have hdp : Desc top ((p - 1) / 2) := hd.parent (by omega)
      have hlep := hdp.le
      by_cases h2 : a ((p - 1) / 2) < v
      · simp only [h1, h2, ↓reduceDIte, ↓reduceIte]
        intro x hx
        simp only [List.mem_cons] at hx
        rcases hx with rfl | rfl | rfl | hx
        · exact ⟨hlep, by show (p - 1) / 2 < n; omega⟩
        · exact ⟨hlep, by show (p - 1) / 2 < n; omega⟩
        · exact ⟨hle, hp⟩
        · exact ih ((p - 1) / 2) (by omega) _ hdp (by omega) x hx
      · simp only [h1, h2, ↓reduceDIte, ↓reduceIte]
        intro x hx
        simp only [List.mem_cons, List.mem_singleton, List.not_mem_nil, or_false] at hx
        rcases hx with rfl | rfl
        · exact ⟨hlep, by show (p - 1) / 2 < n; omega⟩
        · exact ⟨hle, hp⟩
    · simp only [h1, ↓reduceDIte]
      intro x hx
      simp only [List.mem_singleton] at hx
      subst hx
      exact ⟨hle, hp⟩

/-- One round of the sift-down loop with its accesses. -/
theorem adjust_heap_down_log_step (a : Nat → α) (p n : Nat) (h : 2 * p + 2 < n) (r1 : Nat)
    (hr1 : r1 = if a (2 * p + 2) < a (2 * p + 1) then 2 * p + 1 else 2 * p + 2) :
    adjust_heap_down_log a p (2 * p + 2) n =
      ((adjust_heap_down_log (Function.update a p (a r1)) r1 (2 * r1 + 2) n).1,
        Access.read (2 * p + 2) :: Access.read (2 * p + 1) :: Access.read r1 ::
          Access.write p ::
          (adjust_heap_down_log (Function.update a p (a r1)) r1 (2 * r1 + 2) n).2) := by
  have e0 : 2 * p + 2 - 1 = 2 * p + 1 := by omega
  rw [adjust_heap_down_log, dif_pos h, e0]
  dsimp only
  rw [← hr1]
  have e : 2 * (r1 + 1) = 2 * r1 + 2 := by ring
  rw [e]

theorem adjust_heap_down_log_fst (n : Nat) : ∀ (k p : Nat) (a : Nat → α),
    n - (2 * p + 2) ≤ k →
    (adjust_heap_down_log a p (2 * p + 2) n).1 = adjust_heap_down a p (2 * p + 2) n := by
  intro k
  induction k with
  | zero =>
    intro p a hk
    have hc : ¬ 2 * p + 2 < n := by omega
    rw [adjust_heap_down_log, dif_neg hc, adjust_heap_down, dif_neg hc]
  | succ k ih =>
    intro p a hk
    by_cases hc : 2 * p + 2 < n
    · rw [adjust_heap_down_log_step a p n hc _ rfl]
      by_cases hlt : a (2 * p + 2) < a (2 * p + 1)
      · rw [(adjust_heap_down_step a p n hc).1 hlt]
        simp only [if_pos hlt]
        have e : 2 * (2 * p + 1 + 1) = 2 * (2 * p + 1) + 2 := by ring
        rw [e]
        exact ih (2 * p + 1) _ (by omega)
      · rw [(adjust_heap_down_step a p n hc).2 hlt]
        simp only [if_neg hlt]
        have e : 2 * (2 * p + 2 + 1) = 2 * (2 * p + 2) + 2 := by ring
        rw [e]
        exact ih (2 * p + 2) _ (by omega)
    · rw [adjust_heap_down_log, dif_neg hc, adjust_heap_down, dif_neg hc]

/-- The sift-down loop started at a hole in the subtree of `h` reads and writes only
positions between `h` and `n`. -/
theorem adjust_heap_down_log_bound (n h : Nat) : ∀ (k p : Nat) (a : Nat → α),
    n - (2 * p + 2) ≤ k → Desc h p → p < n →
    ∀ x ∈ (adjust_heap_down_log a p (2 * p + 2) n).2, h ≤ x.index ∧ x.index < n := by
  intro k
  induction k with
  | zero =>
    intro p a hk _ _
    have hc : ¬ 2 * p + 2 < n := by omega
    rw [adjust_heap_down_log, dif_neg hc]
    intro x hx
    exact absurd hx (List.not_mem_nil x)
  | succ k ih =>
    intro p a hk hd hp
    have hle := hd.le
    by_cases hc : 2 * p + 2 < n
    · by_cases hlt : a (2 * p + 2) < a (2 * p + 1)
      · rw [adjust_heap_down_log_step a p n hc (2 * p + 1) (by rw [if_pos hlt])]
        intro x hx
        simp only [List.mem_cons] at hx
        rcases hx with rfl | rfl | rfl | rfl | hx
        · exact ⟨by show h ≤ 2 * p + 2; omega, hc⟩
        · exact ⟨by show h ≤ 2 * p + 1; omega, by show 2 * p + 1 < n; omega⟩
        · exact ⟨by show h ≤ 2 * p + 1; omega, by show 2 * p + 1 < n; omega⟩
        · exact ⟨hle, hp⟩
        · exact ih (2 * p + 1) _ (by omega) (Desc.left hd) (by omega) x hx
      · rw [adjust_heap_down_log_step a p n hc (2 * p + 2) (by rw [if_neg hlt])]
        intro x hx
        simp only [List.mem_cons] at hx
        rcases hx with rfl | rfl | rfl | rfl | hx
        · exact ⟨by show h ≤ 2 * p + 2; omega, hc⟩
        · exact ⟨by show h ≤ 2 * p + 1; omega, by show 2 * p + 1 < n; omega⟩
        · exact ⟨by show h ≤ 2 * p + 2; omega, hc⟩
        · exact ⟨hle, hp⟩
        · exact ih (2 * p + 2) _ (by omega) (Desc.right hd) (by omega) x hx
    · rw [adjust_heap_down_log, dif_neg hc]
      intro x hx
      exact absurd hx (List.not_mem_nil x)

theorem adjust_heap_log_fst (a : Nat → α) (h n : Nat) (v : α) :
    (adjust_heap_log a h n v).1 = adjust_heap a h n v := by
  unfold adjust_heap_log adjust_heap
  dsimp only
  rw [← adjust_heap_down_log_fst n n h a (by omega)]
  split
  · exact push_heap_aux_log_fst _ _ _ _
  · exact push_heap_aux_log_fst _ _ _ _

/-- Every position `adjust_heap(first, hole, len, value)` reads or writes, its trailing
sift-up included, lies in `[hole, len)`, when `hole < len`. -/
theorem adjust_heap_log_bound (a : Nat → α) (h n : Nat) (v : α) (hh : h < n) :
    ∀ x ∈ (adjust_heap_log a h n v).2, h ≤ x.index ∧ x.index < n := by
  have hag := adjust_heap_down_log_fst n n h a (by omega)
  have hb := adjust_heap_down_log_bound n h n h a (by omega) Desc.root hh
  have hr := adjust_heap_down_rule n (fun (_ : Nat → α) p => Desc h p ∧ p < n)
    (fun a p hP hc => by
      split
      · exact ⟨Desc.left hP.1, by omega⟩
      · exact ⟨Desc.right hP.1, hc⟩)
    n h a (by omega) ⟨Desc.root, hh⟩
  rw [← hag] at hr
  unfold adjust_heap_log
  dsimp only
  generalize adjust_heap_down_log a h (2 * h + 2) n = s at hr hb ⊢
  obtain ⟨⟨s1, s2, s3⟩, sl⟩ := s
  dsimp only at hr hb ⊢
  obtain ⟨⟨hd, hp⟩, hs3, hn3⟩ := hr
  have hle := hd.le
  split
  · rename_i he
    intro x hx
    simp only [List.mem_append, List.mem_cons] at hx
    rcases hx with hx | rfl | rfl | hx
    · exact hb x hx
    · exact ⟨by show h ≤ s3 - 1; omega, by show s3 - 1 < n; omega⟩
    · exact ⟨hle, hp⟩
    · have e : s3 - 1 = 2 * s2 + 1 := by omega
      rw [e] at hx
      exact push_heap_aux_log_bound h n v _ _ (Desc.left hd) (by omega) x hx
  · intro x hx
    simp only [List.mem_append] at hx
    rcases hx with hx | hx
    · exact hb x hx
    · exact push_heap_aux_log_bound h n v _ _ hd hp x hx

/-- The call `adjust_heap(first, 0, 0, value)`, which is what `pop_heap` makes on a range of
one element: the loop and the `if` are skipped and the sift-up writes the value at
position `0`. -/
theorem adjust_heap_log_zero_zero (a : Nat → α) (v : α) :
    adjust_heap_log a 0 0 v = (Function.update a 0 v, [Access.write 0]) := by
  unfold adjust_heap_log
  dsimp only
  rw [adjust_heap_down_log, dif_neg (by omega)]
  dsimp only
  rw [if_neg (by omega), push_heap_aux_log, dif_neg (by omega)]
  rfl

theorem pop_heap_log_fst (a : Nat → α) (n : Nat) : (pop_heap_log a n).1 = pop_heap a n := by
  unfold pop_heap_log pop_heap_aux_log pop_heap pop_heap_aux
  exact adjust_heap_log_fst _ _ _ _

/-- The function `pop_heap` on a range of `n ≥ 1` elements accesses positions of `[0, n)`
only. -/
theorem pop_heap_log_bound (a : Nat → α) (n : Nat) (hn : 1 ≤ n) :
    ∀ x ∈ (pop_heap_log a n).2, x.index < n := by
  unfold pop_heap_log pop_heap_aux_log
  dsimp only
  intro x hx
  simp only [List.mem_cons] at hx
  rcases hx with rfl | rfl | rfl | hx
  · show n - 1 < n
    omega
  · exact hn
  · show n - 1 < n
    omega
  · by_cases h1 : n = 1
    · subst h1
      rw [adjust_heap_log_zero_zero] at hx
      simp only [List.mem_singleton] at hx
      subst hx
      exact Nat.zero_lt_one
    · have := (adjust_heap_log_bound _ 0 (n - 1) _ (by omega) x hx).2
      omega

theorem make_heap_loop_log_fst (n : Nat) : ∀ (h : Nat) (a : Nat → α),
    (make_heap_loop_log a n h).1 = make_heap_loop a n h := by
  intro h
  induction h with
  | zero =>
    intro a
    rw [make_heap_loop_log, dif_pos rfl, make_heap_loop, dif_pos rfl]
    exact adjust_heap_log_fst _ _ _ _
  | succ h ih =>
    intro a
    rw [make_heap_loop_log, dif_neg (by omega), make_heap_loop, dif_neg (by omega)]
    dsimp only
    rw [adjust_heap_log_fst]
    exact ih _

theorem make_heap_loop_log_bound (n : Nat) : ∀ (h : Nat) (a : Nat → α), h < n →
    ∀ x ∈ (make_heap_loop_log a n h).2, x.index < n := by
  intro h
  induction h with
  | zero =>
    intro a hh
    rw [make_heap_loop_log, dif_pos rfl]
    intro x hx
    simp only [List.mem_cons] at hx
    rcases hx with rfl | hx
    · exact hh
    · exact (adjust_heap_log_bound a 0 n _ hh x hx).2
  | succ h ih =>
    intro a hh
    rw [make_heap_loop_log, dif_neg (by omega)]
    intro x hx
    simp only [List.mem_cons, List.mem_append] at hx
    rcases hx with rfl | hx | hx
    · exact hh
    · exact (adjust_heap_log_bound a (h + 1) n _ hh x hx).2
    · exact ih _ (by omega) x hx

theorem make_heap_log_fst (a : Nat → α) (n : Nat) : (make_heap_log a n).1 = make_heap a n := by
  unfold make_heap_log make_heap_aux_log make_heap make_heap_aux
  split
  · rfl
  · exact make_heap_loop_log_fst _ _ _

theorem make_heap_log_bound (a : Nat → α) (n : Nat) :
    ∀ x ∈ (make_heap_log a n).2, x.index < n := by
  unfold make_heap_log make_heap_aux_log
  split
  · intro x hx
    exact absurd hx (List.not_mem_nil x)
  · exact make_heap_loop_log_bound n _ a (by omega)

/-- After `pop_heap` on a range of `n ≥ 1` elements the last position holds the former
first element. -/
theorem pop_heap_last_cell (a : Nat → α) (n : Nat) (hn : 1 ≤ n) :
    pop_heap a n (n - 1) = a 0 := by
  by_cases h1 : n = 1
  · subst h1
    rw [pop_heap_one]
  · rw [(pop_heap_permOn_tail a n (by omega)).frame (Nat.le_refl _),
      Function.update_noteq (by omega), Function.update_same]

end access

/-- C36, as stated, fails in its last part for `n = 1`: on the one-element range `[7]`,
`pop_heap` calls `adjust_heap(first, 0, 0, 7)`, whose trailing sift-up stores the value at
position `0`, which is position `n - 1`. -/
theorem pop_heap_one_element_writes_last :
    (pop_heap_log (ofList [7] 0) 1).2 =
        Access.read (1 - 1) :: Access.read 0 :: Access.write (1 - 1) ::
          (adjust_heap_log (Function.update (ofList [7] 0) (1 - 1) (ofList [7] 0 0)) 0 (1 - 1)
            (ofList [7] 0 (1 - 1))).2 ∧
      Access.write (1 - 1) ∈
        (adjust_heap_log (Function.update (ofList [7] 0) (1 - 1) (ofList [7] 0 0)) 0 (1 - 1)
          (ofList [7] 0 (1 - 1))).2 := by
  refine ⟨rfl, ?_⟩
  show Access.write 0 ∈ (adjust_heap_log _ 0 0 _).2
  rw [adjust_heap_log_zero_zero]
  exact List.mem_singleton.2 rfl

/-- C36, amended: for every `hole < len`, every position read or written by
`adjust_heap(first, hole, len, value)`, its trailing sift-up included, lies in
`[hole, len)`, and the recorded run computes what `adjust_heap` computes; `make_heap` and
`pop_heap` on a range of length `n ≥ 1` access no position outside `[0, n)`; the accesses
of `pop_heap` are the read of `n - 1`, the read of `0`, the write of `n - 1` and then those
of its sift-down over length `n - 1`, and for `n ≥ 2` that sift-down neither reads nor
writes position `n - 1`; for every `n ≥ 1` position `n - 1` holds the former first element
after `pop_heap`. -/
theorem heap_index_safety [LT α] [@DecidableRel α (· < ·)] (a : Nat → α) (value : α) :
    (∀ hole len, hole < len →
      ∀ x ∈ (adjust_heap_log a hole len value).2, hole ≤ x.index ∧ x.index < len) ∧
    (∀ hole len, (adjust_heap_log a hole len value).1 = adjust_heap a hole len value) ∧
    (∀ n, 1 ≤ n →
      (∀ x ∈ (make_heap_log a n).2, x.index < n) ∧
      (∀ x ∈ (pop_heap_log a n).2, x.index < n)) ∧
    (∀ n, (make_heap_log a n).1 = make_heap a n ∧ (pop_heap_log a n).1 = pop_heap a n) ∧
    (∀ n, (pop_heap_log a n).2 =
      Access.read (n - 1) :: Access.read 0 :: Access.write (n - 1) ::
        (adjust_heap_log (Function.update a (n - 1) (a 0)) 0 (n - 1) (a (n - 1))).2) ∧
    (∀ n, 2 ≤ n →
      ∀ x ∈ (adjust_heap_log (Function.update a (n - 1) (a 0)) 0 (n - 1) (a (n - 1))).2,
        x.index < n - 1) ∧
    (∀ n, 1 ≤ n → pop_heap a n (n - 1) = a 0) :=
  ⟨fun hole len hh => adjust_heap_log_bound a hole len value hh,
    fun hole len => adjust_heap_log_fst a hole len value,
    fun n hn => ⟨make_heap_log_bound a n, pop_heap_log_bound a n hn⟩,
    fun n => ⟨make_heap_log_fst a n, pop_heap_log_fst a n⟩,
    fun _ => rfl,
    fun n hn x hx => (adjust_heap_log_bound _ 0 (n - 1) _ (by omega) x hx).2,
    fun n hn => pop_heap_last_cell a n hn⟩

theorem heap_index_safety_witness :
    0 < 3 ∧ ∀ x ∈ (adjust_heap_log (ofList [1, 9, 8] 0) 0 3 1).2, 0 ≤ x.index ∧ x.index < 3 :=
  ⟨by decide, (heap_index_safety (ofList [1, 9, 8] 0) 1).1 0 3 (by decide)⟩

end ctstl
